import Mathlib

/-!
Verification development for the XML core of the format-master repository
(src/utils/xmlUtils.ts, the variant that also exports jsonToXml, plus
src/utils/jwtUtils.ts).

The JavaScript value universe is modelled by `JVal` (strings, null,
undefined, arrays, objects as ordered key/value lists — JS objects with
non-integer-like string keys preserve insertion order, which the list
represents).  The DOM tree produced by the external XML-Parse collaborator
is modelled by `XNode`.  The external collaborator itself (the browser's
DOMParser, spec section 6: `parse(text) -> (tree | well-formedness error)`)
is not repository code; it is modelled here by the executable recursive
descent function `parseDoc` over a well-formedness-checked subset of XML
(elements, double-quoted attributes, text; an optional leading
`<?xml ... ?>` declaration; no entity references, comments or CDATA).
All repository functions (`xmlNodeToJson`, `xmlToJson`, `jsonToXml`,
`formatXml`, `minifyXml`, `isValidXml`, `isValidJwt`) are translated
statement by statement from the TypeScript source, including the
JavaScript truthiness tests (`if (obj[key])`) and the `Object.keys(null)`
TypeError.
-/

/-- JavaScript runtime values, as far as the converters observe them. -/
inductive JVal where
  | vstr (s : String)
  | vnull
  | vundef
  | varr (xs : List JVal)
  | vobj (kvs : List (String × JVal))

mutual

def jvalDecEq : (a b : JVal) → Decidable (a = b)
  | .vstr s, .vstr t =>
    match decEq s t with
    | isTrue h => isTrue (by rw [h])
    | isFalse h => isFalse (by simp [h])
  | .vnull, .vnull => isTrue rfl
  | .vundef, .vundef => isTrue rfl
  | .varr xs, .varr ys =>
    match jvalDecEqList xs ys with
    | isTrue h => isTrue (by rw [h])
    | isFalse h => isFalse (by simp [h])
  | .vobj xs, .vobj ys =>
    match jvalDecEqKV xs ys with
    | isTrue h => isTrue (by rw [h])
    | isFalse h => isFalse (by simp [h])
  | .vstr _, .vnull => isFalse (by simp)
  | .vstr _, .vundef => isFalse (by simp)
  | .vstr _, .varr _ => isFalse (by simp)
  | .vstr _, .vobj _ => isFalse (by simp)
  | .vnull, .vstr _ => isFalse (by simp)
  | .vnull, .vundef => isFalse (by simp)
  | .vnull, .varr _ => isFalse (by simp)
  | .vnull, .vobj _ => isFalse (by simp)
  | .vundef, .vstr _ => isFalse (by simp)
  | .vundef, .vnull => isFalse (by simp)
  | .vundef, .varr _ => isFalse (by simp)
  | .vundef, .vobj _ => isFalse (by simp)
  | .varr _, .vstr _ => isFalse (by simp)
  | .varr _, .vnull => isFalse (by simp)
  | .varr _, .vundef => isFalse (by simp)
  | .varr _, .vobj _ => isFalse (by simp)
  | .vobj _, .vstr _ => isFalse (by simp)
  | .vobj _, .vnull => isFalse (by simp)
  | .vobj _, .vundef => isFalse (by simp)
  | .vobj _, .varr _ => isFalse (by simp)

def jvalDecEqList : (a b : List JVal) → Decidable (a = b)
  | [], [] => isTrue rfl
  | _ :: _, [] => isFalse (by simp)
  | [], _ :: _ => isFalse (by simp)
  | x :: xs, y :: ys =>
    match jvalDecEq x y with
    | isTrue h1 =>
      match jvalDecEqList xs ys with
      | isTrue h2 => isTrue (by rw [h1, h2])
      | isFalse h2 => isFalse (by simp [h2])
    | isFalse h1 => isFalse (by simp [h1])

def jvalDecEqKV : (a b : List (String × JVal)) → Decidable (a = b)
  | [], [] => isTrue rfl
  | _ :: _, [] => isFalse (by simp)
  | [], _ :: _ => isFalse (by simp)
  | (k, x) :: xs, (k2, y) :: ys =>
    match decEq k k2 with
    | isTrue hk =>
      match jvalDecEq x y with
      | isTrue h1 =>
        match jvalDecEqKV xs ys with
        | isTrue h2 => isTrue (by rw [hk, h1, h2])
        | isFalse h2 => isFalse (by simp [h2])
      | isFalse h1 => isFalse (by simp [h1])
    | isFalse hk => isFalse (by simp [hk])

end

instance : DecidableEq JVal := jvalDecEq

/-- DOM-like tree nodes produced by the XML-Parse collaborator: element
nodes (nodeType 1) with tag name, ordered attributes and ordered children,
and text nodes (nodeType 3). -/
inductive XNode where
  | elem (name : String) (attrs : List (String × String)) (children : List XNode)
  | text (s : String)

mutual

def xnodeDecEq : (a b : XNode) → Decidable (a = b)
  | .text s, .text t =>
    match decEq s t with
    | isTrue h => isTrue (by rw [h])
    | isFalse h => isFalse (by simp [h])
  | .elem n a c, .elem n2 a2 c2 =>
    match decEq n n2 with
    | isTrue hn =>
      match decEq a a2 with
      | isTrue ha =>
        match xnodeDecEqList c c2 with
        | isTrue hc => isTrue (by rw [hn, ha, hc])
        | isFalse hc => isFalse (by simp [hc])
      | isFalse ha => isFalse (by simp [ha])
    | isFalse hn => isFalse (by simp [hn])
  | .text _, .elem _ _ _ => isFalse (by simp)
  | .elem _ _ _, .text _ => isFalse (by simp)

def xnodeDecEqList : (a b : List XNode) → Decidable (a = b)
  | [], [] => isTrue rfl
  | _ :: _, [] => isFalse (by simp)
  | [], _ :: _ => isFalse (by simp)
  | x :: xs, y :: ys =>
    match xnodeDecEq x y with
    | isTrue h1 =>
      match xnodeDecEqList xs ys with
      | isTrue h2 => isTrue (by rw [h1, h2])
      | isFalse h2 => isFalse (by simp [h2])
    | isFalse h1 => isFalse (by simp [h1])

end

instance : DecidableEq XNode := xnodeDecEq

instance : DecidableEq (Except String String) := fun a b =>
  match a, b with
  | Except.ok x, Except.ok y =>
    match decEq x y with
    | isTrue h => isTrue (by rw [h])
    | isFalse h => isFalse (by simp [h])
  | Except.error x, Except.error y =>
    match decEq x y with
    | isTrue h => isTrue (by rw [h])
    | isFalse h => isFalse (by simp [h])
  | Except.ok _, Except.error _ => isFalse (by simp)
  | Except.error _, Except.ok _ => isFalse (by simp)

/-- ASCII whitespace, the fragment of the JS `\s` class and of
`String.prototype.trim` exercised by XML markup. -/
def wsChar (c : Char) : Bool := c == ' ' || c == '\t' || c == '\n' || c == '\r'

/-- List-level prefix test (JS `String.prototype.startsWith`). -/
def isPrefixList : List Char → List Char → Bool
  | [], _ => true
  | _ :: _, [] => false
  | p :: ps, c :: cs => p == c && isPrefixList ps cs

/-- JS `s.startsWith(pre)`. -/
def strStartsWith (s pre : String) : Bool := isPrefixList pre.data s.data

/-- JS `s.substring(n)` / Lean `String.drop`, on the character list. -/
def strDrop (s : String) (n : Nat) : String := String.mk (s.data.drop n)

/-- JS `String.prototype.split` with a single-character separator. -/
def splitOnChar (sep : Char) : List Char → List (List Char)
  | [] => [[]]
  | c :: rest =>
    match splitOnChar sep rest with
    | g :: gs => if c == sep then [] :: g :: gs else (c :: g) :: gs
    | [] => [[c]]

/-- List-level trim: drop whitespace from both ends (JS `.trim()`). -/
def trimChars (l : List Char) : List Char :=
  ((l.dropWhile wsChar).reverse.dropWhile wsChar).reverse

/-- JS `String.prototype.trim`. -/
def strTrim (s : String) : String := String.mk (trimChars s.data)

/-- First char of an XML name. -/
def nameStartChar (c : Char) : Bool := c.isAlpha || c == '_' || c == ':'

/-- Subsequent chars of an XML name. -/
def nameChar (c : Char) : Bool :=
  c.isAlpha || c.isDigit || c == '_' || c == ':' || c == '-' || c == '.'

/-- JS truthiness of a `JVal` (empty string, null and undefined are falsy;
arrays and objects are always truthy). -/
def jsTruthy : JVal → Bool
  | JVal.vstr s => s != ""
  | JVal.vnull => false
  | JVal.vundef => false
  | JVal.varr _ => true
  | JVal.vobj _ => true

/-- JS property read `obj[k]` on an ordered object. -/
def jsGet (obj : List (String × JVal)) (k : String) : Option JVal :=
  match obj with
  | [] => none
  | e :: rest => if e.1 = k then some e.2 else jsGet rest k

/-- JS property write `obj[k] = v`: updates in place if the key exists
(keeping its position), otherwise appends at the end. -/
def jsSet (obj : List (String × JVal)) (k : String) (v : JVal) : List (String × JVal) :=
  match obj with
  | [] => [(k, v)]
  | e :: rest => if e.1 = k then (k, v) :: rest else e :: jsSet rest k v

mutual

/-- JS `String(value)` conversion as used by template literals. -/
def jsToString : JVal → String
  | JVal.vstr s => s
  | JVal.vnull => "null"
  | JVal.vundef => "undefined"
  | JVal.vobj _ => "[object Object]"
  | JVal.varr xs => jsToStringItems xs

/-- JS `Array.prototype.toString`: items joined with commas, null and
undefined items rendered as the empty string. -/
def jsToStringItems : List JVal → String
  | [] => ""
  | [JVal.vnull] => ""
  | [JVal.vundef] => ""
  | [x] => jsToString x
  | JVal.vnull :: xs => "," ++ jsToStringItems xs
  | JVal.vundef :: xs => "," ++ jsToStringItems xs
  | x :: xs => jsToString x ++ "," ++ jsToStringItems xs

end

/-! ## The XML-Parse collaborator

Modelled from the spec: the repository parses XML with the browser's
`DOMParser` (`parseFromString(xml, "application/xml")`) and treats a
document containing a `parsererror` node as a well-formedness failure.
That external collaborator is modelled by a fuelled recursive descent
parse over the subset of XML described in the header comment; `none`
plays the role of the parser-reported error node. -/

/-- Parse the attribute list of an open tag; stops (leaving the input in
place) at `/` or `>`.  Fuelled; each step consumes at least one char. -/
def parseAttrsF : Nat → List Char → Option (List (String × String) × List Char)
  | 0, _ => none
  | f + 1, l =>
    let l1 := l.dropWhile wsChar
    match l1 with
    | [] => none
    | c :: _ =>
      if c = '/' then some ([], l1)
      else if c = '>' then some ([], l1)
      else if nameStartChar c then
        let nm := l1.takeWhile nameChar
        let l2 := (l1.dropWhile nameChar).dropWhile wsChar
        match l2 with
        | [] => none
        | e :: l3 =>
          if e = '=' then
            match l3.dropWhile wsChar with
            | [] => none
            | q :: l5 =>
              if q = '"' then
                let v := l5.takeWhile (fun ch => ch != '"')
                match l5.dropWhile (fun ch => ch != '"') with
                | [] => none
                | q2 :: l6 =>
                  if q2 = '"' then
                    match parseAttrsF f l6 with
                    | some (rest, l7) => some ((String.mk nm, String.mk v) :: rest, l7)
                    | none => none
                  else none
              else none
          else none
      else none

def parseAttrsT (l : List Char) : Option (List (String × String) × List Char) :=
  parseAttrsF (l.length + 1) l

/-- Parse the inside of an open tag after `<`: tag name then attributes.
Returns the name, the attributes and the input positioned at `/` or `>`. -/
def parseTagOpen (l : List Char) : Option (String × List (String × String) × List Char) :=
  match l with
  | [] => none
  | c :: _ =>
    if nameStartChar c then
      match parseAttrsT (l.dropWhile nameChar) with
      | some (attrs, l3) => some (String.mk (l.takeWhile nameChar), attrs, l3)
      | none => none
    else none

/-- Parse a closing tag `</name>` (whitespace allowed before `>`). -/
def parseCloseTag (nm : String) (l : List Char) : Option (List Char) :=
  match l with
  | c1 :: c2 :: l6 =>
    if c1 = '<' && c2 = '/' then
      if l6.take nm.data.length = nm.data then
        match (l6.drop nm.data.length).dropWhile wsChar with
        | c3 :: l7 => if c3 = '>' then some l7 else none
        | [] => none
      else none
    else none
  | _ => none

/-- Parse a sequence of sibling nodes (elements and text runs) until the
input is exhausted or a closing tag `</` is reached. -/
def parseMany : Nat → List Char → Option (List XNode × List Char)
  | 0, _ => none
  | f + 1, l =>
    match l with
    | [] => some ([], [])
    | c :: rest =>
      if c = '<' then
        match rest with
        | [] => none
        | d :: _ =>
          if d = '/' then some ([], c :: rest)
          else
            match parseTagOpen rest with
            | none => none
            | some (nm, attrs, l3) =>
              match l3 with
              | [] => none
              | e1 :: l3a =>
                if e1 = '/' then
                  match l3a with
                  | [] => none
                  | e2 :: l4 =>
                    if e2 = '>' then
                      match parseMany f l4 with
                      | some p => some (XNode.elem nm attrs [] :: p.1, p.2)
                      | none => none
                    else none
                else if e1 = '>' then
                  match parseMany f l3a with
                  | none => none
                  | some p =>
                    match parseCloseTag nm p.2 with
                    | none => none
                    | some l7 =>
                      match parseMany f l7 with
                      | some q => some (XNode.elem nm attrs p.1 :: q.1, q.2)
                      | none => none
                else none
      else
        let txt := (c :: rest).takeWhile (fun ch => ch != '<')
        match parseMany f ((c :: rest).dropWhile (fun ch => ch != '<')) with
        | some p => some (XNode.text (String.mk txt) :: p.1, p.2)
        | none => none

/-- The parser with its canonical fuel (one more than the input length;
every recursive call consumes at least one character). -/
def parseManyT (l : List Char) : Option (List XNode × List Char) :=
  parseMany (l.length + 1) l

/-- Skip to just past the first `?>`. -/
def dropThroughQgt : List Char → Option (List Char)
  | [] => none
  | c :: rest =>
    match rest with
    | d :: r2 => if c = '?' && d = '>' then some r2 else dropThroughQgt rest
    | [] => none

/-- Whole-document parse: an optional leading `<?...?>` prolog, optional
surrounding whitespace, and exactly one root element.  Returns the root
element's name, attributes and children, or `none` when the text is not
well-formed (the `parsererror` case of DOMParser). -/
def parseDoc (s : String) : Option (String × List (String × String) × List XNode) :=
  let l0 := s.data
  let l1opt : Option (List Char) :=
    match l0 with
    | '<' :: '?' :: r => dropThroughQgt r
    | _ => some l0
  match l1opt with
  | none => none
  | some l1 =>
    match parseManyT (trimChars l1) with
    | some ([XNode.elem n a c], []) => some (n, a, c)
    | _ => none

/-! ## Tree-to-Canonical (xmlToJson / xmlNodeToJson), from the source -/

/-- JS `obj["#text"]` text accumulation (source lines 172-181): first text
run stored as a scalar, a second run widens it to a two-element array,
later runs are appended; an existing falsy value is overwritten. -/
def addText (obj : List (String × JVal)) (text : String) : List (String × JVal) :=
  match jsGet obj "#text" with
  | some w =>
    if jsTruthy w then
      match w with
      | JVal.varr xs => jsSet obj "#text" (JVal.varr (xs ++ [JVal.vstr text]))
      | _ => jsSet obj "#text" (JVal.varr [w, JVal.vstr text])
    else jsSet obj "#text" (JVal.vstr text)
  | none => obj ++ [("#text", JVal.vstr text)]

/-- Child-element accumulation (source lines 190-197): `if (obj[nodeName])`
wraps the existing value into an array on the second occurrence and pushes
afterwards; an existing falsy value (the empty string) is overwritten. -/
def addChild (obj : List (String × JVal)) (n : String) (v : JVal) : List (String × JVal) :=
  match jsGet obj n with
  | some w =>
    if jsTruthy w then
      match w with
      | JVal.varr xs => jsSet obj n (JVal.varr (xs ++ [v]))
      | _ => jsSet obj n (JVal.varr [w, v])
    else jsSet obj n v
  | none => obj ++ [(n, v)]

mutual

/-- Source `xmlNodeToJson(node)` (lines 149-203): attributes become
`@`-keys; a single text child collapses to the bare trimmed string when
there are no attributes and to a `#text` key otherwise; other children
are folded in document order.  The source is only ever called on element
nodes; the text branch is unreachable and returns undefined. -/
def xmlNodeToJson : XNode → JVal
  | XNode.text _ => JVal.vundef
  | XNode.elem _ attrs children =>
    let obj0 := attrs.map (fun a => ("@" ++ a.1, JVal.vstr a.2))
    match children with
    | [] => JVal.vobj obj0
    | [XNode.text t] =>
      let text := strTrim t
      if attrs.isEmpty then JVal.vstr text
      else if text = "" then JVal.vobj obj0
      else JVal.vobj (obj0 ++ [("#text", JVal.vstr text)])
    | _ => JVal.vobj (foldChildren obj0 children)

/-- The child loop of `xmlNodeToJson` (source lines 168-199): skip
whitespace-only text nodes, accumulate non-empty text under `#text`,
recurse into element children under their tag name. -/
def foldChildren (obj : List (String × JVal)) : List XNode → List (String × JVal)
  | [] => obj
  | x :: rest =>
    match x with
    | XNode.text t =>
      if strTrim t = "" then foldChildren obj rest
      else foldChildren (addText obj (strTrim t)) rest
    | XNode.elem n _ _ =>
      foldChildren (addChild obj n (xmlNodeToJson x)) rest

end

/-- Source `xmlToJson(xml)` (lines 134-147): parse, return `null` on a
parser error, otherwise wrap the root element's canonical value under the
root tag name. -/
def xmlToJson (xml : String) : JVal :=
  match parseDoc xml with
  | none => JVal.vnull
  | some (n, a, c) => JVal.vobj [(n, xmlNodeToJson (XNode.elem n a c))]

/-! ## Canonical-to-XML (jsonToXml), from the source -/

/-- One object entry's contribution to the attribute string (source line
230): keys starting with `@` render as ` name="value"`. -/
def entryAttrStr (kv : String × JVal) : String :=
  if strStartsWith kv.1 "@" then " " ++ strDrop kv.1 1 ++ "=\"" ++ jsToString kv.2 ++ "\"" else ""

def attrsOfEntries : List (String × JVal) → String
  | [] => ""
  | kv :: rest => entryAttrStr kv ++ attrsOfEntries rest

/-- The last value assigned to `textValue` by the source's forEach (the
value under the `#text` key; `""` when there is none). -/
def textValOf (kvs : List (String × JVal)) : JVal :=
  match (kvs.filter (fun kv => kv.1 == "#text")).getLast? with
  | some kv => kv.2
  | none => JVal.vstr ""

mutual

/-- Source `toXml(obj, name)` (lines 211-248): null/undefined become a
self-closing element, non-objects are inlined verbatim, arrays concatenate
their items as same-named siblings, and objects are partitioned into
`@`-attributes, `#text` and child keys.  When `#text` coexists with child
elements the text is dropped (the final branch ignores `textValue`). -/
def toXml : JVal → String → String
  | JVal.vnull, name => "<" ++ name ++ " />"
  | JVal.vundef, name => "<" ++ name ++ " />"
  | JVal.vstr s, name => "<" ++ name ++ ">" ++ s ++ "</" ++ name ++ ">"
  | JVal.varr xs, name => toXmlArr xs name
  | JVal.vobj kvs, name =>
    let attrs := attrsOfEntries kvs
    let children := childrenStr kvs
    let hasTextKey := kvs.any (fun kv => kv.1 == "#text")
    if hasTextKey && children == "" then
      "<" ++ name ++ attrs ++ ">" ++ jsToString (textValOf kvs) ++ "</" ++ name ++ ">"
    else if children == "" && !hasTextKey then
      "<" ++ name ++ attrs ++ " />"
    else
      "<" ++ name ++ attrs ++ ">" ++ children ++ "</" ++ name ++ ">"

def toXmlArr : List JVal → String → String
  | [], _ => ""
  | x :: xs, name => toXml x name ++ toXmlArr xs name

/-- The source's forEach accumulation of `children`: every key that is not
an `@`-attribute and not `#text` is rendered recursively under that key. -/
def childrenStr : List (String × JVal) → String
  | [] => ""
  | (k, v) :: rest =>
    (if !(strStartsWith k "@") && k != "#text" then toXml v k else "") ++ childrenStr rest

end

def xmlDecl : String := "<?xml version=\"1.0\" encoding=\"UTF-8\"?>\n"

/-- Source `jsonToXml(json, rootName)` (lines 210-261).  The root check
`typeof json === "object" && !Array.isArray(json) && Object.keys(json).length === 1`
throws a TypeError when `json` is `null` (in JS `typeof null` is
`"object"` and `Object.keys(null)` throws); this is modelled by
`Except.error`. -/
def jsonToXml (json : JVal) (rootName : String) : Except String String :=
  match json with
  | JVal.vnull => Except.error "TypeError: Cannot convert undefined or null to object"
  | JVal.vobj kvs =>
    match kvs with
    | [kv] => Except.ok (xmlDecl ++ toXml kv.2 kv.1)
    | _ => Except.ok (xmlDecl ++ toXml (JVal.vobj kvs) rootName)
  | _ => Except.ok (xmlDecl ++ toXml json rootName)

/-! ## Formatter / minifier / validator, from the source -/

/-- Source `isValidXml` (lines 37-47): false for empty or whitespace-only
input and when the parse reports an error; true otherwise. -/
def isValidXml (xml : String) : Bool :=
  if strTrim xml = "" then false else (parseDoc xml).isSome

def attrsStr : List (String × String) → String
  | [] => ""
  | a :: rest => " " ++ a.1 ++ "=\"" ++ a.2 ++ "\"" ++ attrsStr rest

def strRepeat (s : String) : Nat → String
  | 0 => ""
  | n + 1 => s ++ strRepeat s n

mutual

/-- Source `formatNode` (lines 58-112): a text node renders as its
trimmed content; an element puts attributes on the opening tag, renders
self-closing with no children, puts element children each on their own
line one level deeper and text-only content inline. -/
def formatNode : XNode → Nat → String
  | XNode.text t, _ => strTrim t
  | XNode.elem name attrs children, level =>
    let indent := strRepeat "  " level
    let str0 := indent ++ "<" ++ name ++ attrsStr attrs
    match children with
    | [] => str0 ++ " />"
    | _ =>
      let p := formatChildren children level
      if p.1 then str0 ++ ">" ++ p.2 ++ "\n" ++ indent ++ "</" ++ name ++ ">"
      else if p.2 != "" then str0 ++ ">" ++ p.2 ++ "</" ++ name ++ ">"
      else str0 ++ " />"

/-- The child loop of `formatNode` (lines 85-99): returns the
`hasElementChildren` flag and the accumulated `childStr`. -/
def formatChildren : List XNode → Nat → Bool × String
  | [], _ => (false, "")
  | x :: rest, level =>
    let p := formatChildren rest level
    match x with
    | XNode.text t => (p.1, (if strTrim t != "" then strTrim t else "") ++ p.2)
    | XNode.elem _ _ _ => (true, ("\n" ++ formatNode x (level + 1)) ++ p.2)

end

/-- The regex `<\?xml[^?]+\?>` of formatXml (line 116): first occurrence
of `<?xml`, at least one non-`?` character, then `?>`. -/
def findDecl : List Char → Option (List Char)
  | [] => none
  | c :: rest =>
    match c :: rest with
    | '<' :: '?' :: 'x' :: 'm' :: 'l' :: r2 =>
      let body := r2.takeWhile (fun ch => ch != '?')
      match body, r2.drop body.length with
      | _ :: _, '?' :: '>' :: _ =>
        some (['<', '?', 'x', 'm', 'l'] ++ body ++ ['?', '>'])
      | _, _ => findDecl rest
    | _ => findDecl rest

/-- Source `formatXml` (lines 49-125).  The internal
`throw new Error("Invalid XML")` on a parse error is caught by the
function's own catch block, which logs and returns the input unchanged;
so a parse failure yields `xml` itself. -/
def formatXml (xml : String) : String :=
  if xml = "" then ""
  else
    match parseDoc xml with
    | none => xml
    | some (n, a, c) =>
      let declPart :=
        if strStartsWith (strTrim xml) "<?xml" then
          match findDecl xml.data with
          | some m => String.mk m ++ "\n"
          | none => ""
        else ""
      declPart ++ formatNode (XNode.elem n a c) 0

/-- The global regex replace `xml.replace(/>\s+</g, "><")`: collapse every
whitespace run between `>` and `<`.  Fuelled by the input length (each
step consumes at least one character). -/
def minifyCoreF : Nat → List Char → List Char
  | 0, l => l
  | _ + 1, [] => []
  | f + 1, c :: rest =>
    if c == '>' && !(rest.takeWhile wsChar).isEmpty
        && (rest.dropWhile wsChar).head? == some '<' then
      '>' :: minifyCoreF f (rest.dropWhile wsChar)
    else c :: minifyCoreF f rest

/-- Source `minifyXml` (lines 127-129): the regex replace, then trim. -/
def minifyXml (xml : String) : String :=
  String.mk (trimChars (minifyCoreF xml.data.length xml.data))

/-- Spec wording of section 4.3 read literally: trim leading/trailing
whitespace first, then collapse whitespace between `>` and `<`. -/
def minifySpecSide (xml : String) : String :=
  let t := trimChars xml.data
  String.mk (minifyCoreF t.length t)

/-- Source `isValidJwt` (src/utils/jwtUtils.ts lines 46-50): non-empty and
splitting on "." yields exactly 3 parts. -/
def isValidJwt (token : String) : Bool :=
  if token = "" then false
  else (splitOnChar '.' token.data).length == 3


/-- JS `Array.isArray`. -/
def isArrVal : JVal → Bool
  | JVal.varr _ => true
  | _ => false

/-- The root rendering selected by `jsonToXml`: the single key of a
one-key object names the root element, otherwise the supplied root tag
wraps the whole value. -/
def rootRender (v : JVal) (root : String) : String :=
  match v with
  | JVal.vobj [kv] => toXml kv.2 kv.1
  | _ => toXml v root

/-- The collapse pass at its canonical fuel (the input length). -/
def minifyCoreT (l : List Char) : List Char := minifyCoreF l.length l

/-! ## A well-behaved class of documents and canonical values

The round-trip property of the spec fails on some well-formed documents
(mixed text/element content is dropped by `jsonToXml`, a lone
whitespace-only text child canonicalizes to `""`, the falsy-overwrite in
`addChild`).  The predicates below carve out the class on which it holds:
markup-free trimmed text, double-quote-free attribute values, no mixed
content, no whitespace-only single text child on attribute-less
elements. -/

/-- Text content free of markup characters. -/
def goodText (t : String) : Bool := t.data.all (fun c => !(c == '<') && !(c == '&'))

/-- A scalar value that survives the round trip: non-empty, trimmed,
markup-free text. -/
def goodStr (s : String) : Bool := goodText s && (strTrim s == s) && !(s == "")

/-- An attribute value that can be re-read from `name="value"`. -/
def goodAttrVal (v : String) : Bool :=
  v.data.all (fun c => !(c == '"') && !(c == '<') && !(c == '&'))

/-- A well-formed XML name. -/
def goodName (n : String) : Bool :=
  match n.data with
  | [] => false
  | c :: rest => nameStartChar c && rest.all nameChar

def distinctStrs : List String → Bool
  | [] => true
  | s :: rest => !(rest.contains s) && distinctStrs rest

def attrsOk (attrs : List (String × String)) : Bool :=
  attrs.all (fun a => goodName a.1 && goodAttrVal a.2)

mutual

/-- A well-behaved element tree: good names and attribute values,
distinct attribute names, and children that are either nothing, one
non-whitespace text node (whitespace-only is allowed only when the
element has attributes), or a list of well-behaved elements interleaved
with whitespace-only text nodes. -/
def goodElem : XNode → Bool
  | XNode.text _ => false
  | XNode.elem n attrs children =>
    goodName n && attrsOk attrs && distinctStrs (attrs.map Prod.fst) &&
    (match children with
     | [] => true
     | [XNode.text t] => goodText t && (!(strTrim t == "") || !attrs.isEmpty)
     | _ => goodKids children)

def goodKids : List XNode → Bool
  | [] => true
  | x :: rest =>
    (match x with
     | XNode.text t => strTrim t == ""
     | XNode.elem _ _ _ => goodElem x) && goodKids rest

end

/-- A string-valued entry suitable as an attribute value. -/
def isAttrStrVal : JVal → Bool
  | JVal.vstr s => goodAttrVal s
  | _ => false

/-- A string-valued entry suitable as `#text` content. -/
def isTextStrVal : JVal → Bool
  | JVal.vstr s => goodStr s
  | _ => false

/-- Shape of an object in the image of `xmlNodeToJson`: distinct keys,
all `@`-attribute keys first, every key an attribute, `#text` or a tag
name, and `#text` only together with at least one attribute and no
element children. -/
def objShapeOk (kvs : List (String × JVal)) : Bool :=
  distinctStrs (kvs.map Prod.fst) &&
  ((kvs.dropWhile (fun kv => strStartsWith kv.1 "@")).all
     (fun kv => !(strStartsWith kv.1 "@"))) &&
  (kvs.all (fun kv =>
     if strStartsWith kv.1 "@" then goodName (strDrop kv.1 1)
     else (kv.1 == "#text") || goodName kv.1)) &&
  (!(kvs.any (fun kv => kv.1 == "#text")) ||
     ((kvs.any (fun kv => strStartsWith kv.1 "@")) &&
      (kvs.all (fun kv => strStartsWith kv.1 "@" || kv.1 == "#text"))))

mutual

/-- A canonical value on which `jsonToXml` followed by `xmlToJson` is the
identity (under a good element name): a good scalar or a good object. -/
def goodVal : JVal → Bool
  | JVal.vstr s => goodStr s
  | JVal.vobj kvs => objShapeOk kvs && goodEntryVals kvs
  | _ => false

/-- Entry values of a good object: attribute entries hold good attribute
strings, `#text` holds a good scalar, tag entries hold a good value or an
array of at least two good values. -/
def goodEntryVals : List (String × JVal) → Bool
  | [] => true
  | (k, JVal.varr ws) :: rest =>
    (!(strStartsWith k "@") && !(k == "#text")
      && decide (2 ≤ ws.length) && goodVals ws) && goodEntryVals rest
  | (k, v) :: rest =>
    (if strStartsWith k "@" then isAttrStrVal v
     else if k == "#text" then isTextStrVal v
     else goodVal v) && goodEntryVals rest

def goodVals : List JVal → Bool
  | [] => true
  | v :: vs => goodVal v && goodVals vs

end

/-- A well-behaved document: parses, and its tree is `goodElem`. -/
def goodDoc (s : String) : Bool :=
  match parseDoc s with
  | some (n, a, c) => goodElem (XNode.elem n a c)
  | none => false

/-- The attribute pairs the parser reads back from a printed object. -/
def attrPairs (kvs : List (String × JVal)) : List (String × String) :=
  kvs.filterMap (fun kv =>
    if strStartsWith kv.1 "@" then some (strDrop kv.1 1, jsToString kv.2) else none)

/-- The non-attribute, non-`#text` entries of an object. -/
def childEntries (kvs : List (String × JVal)) : List (String × JVal) :=
  kvs.filter (fun kv => !(strStartsWith kv.1 "@") && kv.1 != "#text")

mutual

def sizeV : JVal → Nat
  | JVal.vstr _ => 1
  | JVal.vnull => 1
  | JVal.vundef => 1
  | JVal.varr xs => 1 + sizeVList xs
  | JVal.vobj kvs => 1 + sizeVEntries kvs

def sizeVList : List JVal → Nat
  | [] => 0
  | v :: vs => sizeV v + sizeVList vs

def sizeVEntries : List (String × JVal) → Nat
  | [] => 0
  | (_, v) :: kvs => sizeV v + sizeVEntries kvs

end

mutual

def sizeX : XNode → Nat
  | XNode.text _ => 1
  | XNode.elem _ _ c => 1 + sizeXs c

def sizeXs : List XNode → Nat
  | [] => 0
  | x :: rest => sizeX x + sizeXs rest

end

/-- The per-entry check of `goodEntryVals`, as a single-entry predicate. -/
def entryOk : String × JVal → Bool
  | (k, JVal.varr ws) =>
    !(strStartsWith k "@") && !(k == "#text")
      && decide (2 ≤ ws.length) && goodVals ws
  | (k, v) =>
    if strStartsWith k "@" then isAttrStrVal v
    else if k == "#text" then isTextStrVal v
    else goodVal v

/-! ## Generic list lemmas -/

theorem isPrefixList_self_append (a b : List Char) : isPrefixList a (a ++ b) = true := by
  induction a with
  | nil => rfl
  | cons c cs ih => simp [isPrefixList, ih]

/-! ## Claim C10 -/

/-- C10: `isValidJwt` returns true exactly when splitting the token on
"." yields three parts; no content validation happens, so ".." passes
while the empty string and part counts other than 3 fail. -/
theorem claim_C10_isValidJwt :
    (∀ t : String, isValidJwt t = true ↔ (splitOnChar '.' t.data).length = 3) ∧
    isValidJwt ".." = true ∧ isValidJwt "" = false ∧
    isValidJwt "a.b" = false ∧ isValidJwt "a.b.c.d" = false := by
  refine ⟨?_, by decide, by decide, by decide, by decide⟩
  intro t
  by_cases h : t = ""
  · subst h
    decide
  · simp [isValidJwt, h]

/-! ## Claim C8 -/

/-- C8: `isValidXml` is a total boolean check: false exactly on empty or
whitespace-only input and on input the parse rejects, true otherwise. -/
theorem claim_C8_isValidXml :
    (∀ xml : String,
      isValidXml xml = true ↔ (strTrim xml ≠ "" ∧ (parseDoc xml).isSome = true)) ∧
    isValidXml "" = false ∧ isValidXml " \n " = false ∧
    isValidXml "<a>" = false ∧ isValidXml "<a/>" = true := by
  refine ⟨?_, by decide, by decide, by decide, by decide⟩
  intro xml
  by_cases h : strTrim xml = ""
  · simp [isValidXml, h]
  · simp [isValidXml, h]

/-! ## Claim C2 -/

/-- C2: an element with no attributes and one text child collapses to the
bare trimmed string; with attributes it becomes an object of `@`-keys
plus a `#text` key when the trimmed text is non-empty; with the two
concrete examples from the spec. -/
theorem claim_C2_scalar_collapse :
    (∀ n t, xmlNodeToJson (XNode.elem n [] [XNode.text t]) = JVal.vstr (strTrim t)) ∧
    (∀ n attrs t, attrs ≠ [] →
      xmlNodeToJson (XNode.elem n attrs [XNode.text t]) =
        (if strTrim t = "" then
          JVal.vobj (attrs.map (fun a => ("@" ++ a.1, JVal.vstr a.2)))
        else
          JVal.vobj (attrs.map (fun a => ("@" ++ a.1, JVal.vstr a.2))
            ++ [("#text", JVal.vstr (strTrim t))]))) ∧
    xmlToJson "<a>hi</a>" = JVal.vobj [("a", JVal.vstr "hi")] ∧
    xmlToJson "<a x=\"1\">hi</a>" =
      JVal.vobj [("a", JVal.vobj [("@x", JVal.vstr "1"), ("#text", JVal.vstr "hi")])] := by
  refine ⟨?_, ?_, by decide, by decide⟩
  · intro n t
    simp [xmlNodeToJson]
  · intro n attrs t h
    cases attrs with
    | nil => exact absurd rfl h
    | cons a as =>
      by_cases ht : strTrim t = ""
      · simp [xmlNodeToJson, ht]
      · simp [xmlNodeToJson, ht]

/-- Witness for C2 at concrete inputs. -/
theorem claim_C2_scalar_collapse_witness :
    xmlNodeToJson (XNode.elem "a" [("x", "1")] [XNode.text " hi "]) =
      JVal.vobj [("@x", JVal.vstr "1"), ("#text", JVal.vstr "hi")] := by
  have h := claim_C2_scalar_collapse.2.1 "a" [("x", "1")] " hi " (by decide)
  simpa using h

/-! ## Claim C3 -/

/-- C3 counterexample: under `<a>`, the two same-tag siblings `<b> </b>`
and `<b>x</b>` do NOT produce an array: the first sibling's value is the
empty string, which is falsy, so the second assignment overwrites it
instead of promoting to an array (the claim predicts an array whenever a
second same-tag sibling occurs). -/
theorem claim_C3_counterexample :
    xmlToJson "<a><b> </b><b>x</b></a>" =
      JVal.vobj [("a", JVal.vobj [("b", JVal.vstr "x")])] ∧
    xmlToJson "<a><b> </b><b>x</b></a>" ≠
      JVal.vobj [("a", JVal.vobj [("b", JVal.varr [JVal.vstr "", JVal.vstr "x"])])] := by
  constructor
  · decide
  · decide

/-- C3 amended: a new tag key is stored unwrapped; a second same-tag
sibling promotes to a two-element array and later ones append — provided
the stored value is truthy; a falsy stored value (the empty string) is
overwritten instead.  Inversely `toXml` renders an array as consecutive
same-named siblings with no wrapper and a non-array as one element. -/
theorem claim_C3_array_promotion :
    (∀ obj n v, jsGet obj n = none → addChild obj n v = obj ++ [(n, v)]) ∧
    (∀ obj n v w, jsGet obj n = some w → jsTruthy w = true → isArrVal w = false →
      addChild obj n v = jsSet obj n (JVal.varr [w, v])) ∧
    (∀ obj n v xs, jsGet obj n = some (JVal.varr xs) →
      addChild obj n v = jsSet obj n (JVal.varr (xs ++ [v]))) ∧
    (∀ obj n v w, jsGet obj n = some w → jsTruthy w = false →
      addChild obj n v = jsSet obj n v) ∧
    (∀ x xs name, toXml (JVal.varr (x :: xs)) name = toXml x name ++ toXml (JVal.varr xs) name) ∧
    (∀ name, toXml (JVal.varr []) name = "") ∧
    xmlToJson "<a><b>1</b><b>2</b></a>" =
      JVal.vobj [("a", JVal.vobj [("b", JVal.varr [JVal.vstr "1", JVal.vstr "2"])])] ∧
    jsonToXml (JVal.vobj [("a", JVal.vobj [("b", JVal.varr [JVal.vstr "1", JVal.vstr "2"])])]) "root"
      = Except.ok (xmlDecl ++ "<a><b>1</b><b>2</b></a>") := by
  refine ⟨?_, ?_, ?_, ?_, ?_, ?_, by decide, by decide⟩
  · intro obj n v h
    simp [addChild, h]
  · intro obj n v w h ht ha
    cases w with
    | varr xs => simp [isArrVal] at ha
    | vstr s => simp [addChild, h, ht]
    | vnull => simp [jsTruthy] at ht
    | vundef => simp [jsTruthy] at ht
    | vobj kvs => simp [addChild, h, ht]
  · intro obj n v xs h
    simp [addChild, h, jsTruthy]
  · intro obj n v w h ht
    simp [addChild, h, ht]
  · intro x xs name
    simp [toXml, toXmlArr]
  · intro name
    simp [toXml, toXmlArr]

/-- Witness for C3 at concrete inputs. -/
theorem claim_C3_array_promotion_witness :
    addChild [] "b" (JVal.vstr "1") = [("b", JVal.vstr "1")] ∧
    addChild [("b", JVal.vstr "1")] "b" (JVal.vstr "2")
      = [("b", JVal.varr [JVal.vstr "1", JVal.vstr "2"])] ∧
    addChild [("b", JVal.varr [JVal.vstr "1", JVal.vstr "2"])] "b" (JVal.vstr "3")
      = [("b", JVal.varr [JVal.vstr "1", JVal.vstr "2", JVal.vstr "3"])] ∧
    addChild [("b", JVal.vstr "")] "b" (JVal.vstr "x") = [("b", JVal.vstr "x")] := by
  refine ⟨?_, ?_, ?_, ?_⟩
  · exact claim_C3_array_promotion.1 [] "b" (JVal.vstr "1") (by decide)
  · have h := claim_C3_array_promotion.2.1 [("b", JVal.vstr "1")] "b" (JVal.vstr "2")
      (JVal.vstr "1") (by decide) (by decide) (by decide)
    simpa [jsSet] using h
  · have h := claim_C3_array_promotion.2.2.1 [("b", JVal.varr [JVal.vstr "1", JVal.vstr "2"])]
      "b" (JVal.vstr "3") [JVal.vstr "1", JVal.vstr "2"] (by decide)
    simpa [jsSet] using h
  · have h := claim_C3_array_promotion.2.2.2.1 [("b", JVal.vstr "")] "b" (JVal.vstr "x")
      (JVal.vstr "") (by decide) (by decide)
    simpa [jsSet] using h

/-! ## Claim C4 -/

/-- C4 counterexample: an element whose only child is a whitespace-only
text node does NOT canonicalize like an element with no children: the
single-text-child collapse runs before whitespace-only discarding, so
`<a> </a>` yields the empty string, not the empty object the claim
predicts. -/
theorem claim_C4_counterexample :
    xmlToJson "<a> </a>" = JVal.vobj [("a", JVal.vstr "")] ∧
    xmlToJson "<a> </a>" ≠ JVal.vobj [("a", JVal.vobj [])] := by
  constructor
  · decide
  · decide

/-- C4 amended: whitespace-only text children are discarded in the
multi-child loop before array-promotion, and elements with no children
yield the empty object (so `<a/>` and `<a></a>` both canonicalize to an
empty object); but an element whose single child is a whitespace-only
text node takes the single-text-child branch first and yields the empty
string when it has no attributes (and just its attribute keys when it
has some). -/
theorem claim_C4_whitespace_children :
    (∀ obj t rest, strTrim t = "" →
      foldChildren obj (XNode.text t :: rest) = foldChildren obj rest) ∧
    (∀ n, xmlNodeToJson (XNode.elem n [] []) = JVal.vobj []) ∧
    (∀ n attrs, xmlNodeToJson (XNode.elem n attrs []) =
      JVal.vobj (attrs.map (fun a => ("@" ++ a.1, JVal.vstr a.2)))) ∧
    (∀ n t, strTrim t = "" →
      xmlNodeToJson (XNode.elem n [] [XNode.text t]) = JVal.vstr "") ∧
    (∀ n attrs t, strTrim t = "" → attrs ≠ [] →
      xmlNodeToJson (XNode.elem n attrs [XNode.text t]) =
        JVal.vobj (attrs.map (fun a => ("@" ++ a.1, JVal.vstr a.2)))) ∧
    xmlToJson "<a/>" = JVal.vobj [("a", JVal.vobj [])] ∧
    xmlToJson "<a></a>" = JVal.vobj [("a", JVal.vobj [])] := by
  refine ⟨?_, ?_, ?_, ?_, ?_, by decide, by decide⟩
  · intro obj t rest h
    simp [foldChildren, h]
  · intro n
    simp [xmlNodeToJson]
  · intro n attrs
    simp [xmlNodeToJson]
  · intro n t h
    simp [xmlNodeToJson, h]
  · intro n attrs t h ha
    cases attrs with
    | nil => exact absurd rfl ha
    | cons a as => simp [xmlNodeToJson, h]

/-- Witness for C4 at concrete inputs. -/
theorem claim_C4_whitespace_children_witness :
    foldChildren [] [XNode.text " ", XNode.elem "b" [] []] =
      foldChildren [] [XNode.elem "b" [] []] ∧
    xmlNodeToJson (XNode.elem "a" [] [XNode.text "\n"]) = JVal.vstr "" ∧
    xmlNodeToJson (XNode.elem "a" [("x", "1")] [XNode.text " "]) =
      JVal.vobj [("@x", JVal.vstr "1")] := by
  refine ⟨?_, ?_, ?_⟩
  · exact claim_C4_whitespace_children.1 [] " " [XNode.elem "b" [] []] (by decide)
  · exact claim_C4_whitespace_children.2.2.2.1 "a" "\n" (by decide)
  · have h := claim_C4_whitespace_children.2.2.2.2.1 "a" [("x", "1")] " "
      (by decide) (by decide)
    simpa using h

/-! ## Claim C5 -/

/-- C5 counterexample: `jsonToXml` applied to the top-level value `null`
does not return any string at all — in JS, `typeof null` is "object" so
the root check reaches `Object.keys(null)`, which throws a TypeError —
so the returned string cannot begin with the declaration line. -/
theorem claim_C5_counterexample :
    (jsonToXml JVal.vnull "root").isOk = false := by decide

/-- C5 amended: for every top-level value except `null`, the result is a
string beginning with the fixed `<?xml version="1.0" encoding="UTF-8"?>`
line and a newline, and the root tag is the single key of a one-key
non-array object, the supplied default tag otherwise. -/
theorem claim_C5_root_selection :
    ∀ (v : JVal) (root : String), v ≠ JVal.vnull →
      jsonToXml v root = Except.ok (xmlDecl ++ rootRender v root) ∧
      strStartsWith (xmlDecl ++ rootRender v root) xmlDecl = true := by
  intro v root hv
  have hpre : strStartsWith (xmlDecl ++ rootRender v root) xmlDecl = true := by
    have := isPrefixList_self_append xmlDecl.data (rootRender v root).data
    simpa [strStartsWith, String.data_append] using this
  refine ⟨?_, hpre⟩
  cases v with
  | vnull => exact absurd rfl hv
  | vstr s => simp [jsonToXml, rootRender]
  | vundef => simp [jsonToXml, rootRender]
  | varr xs => simp [jsonToXml, rootRender]
  | vobj kvs =>
    match kvs with
    | [] => simp [jsonToXml, rootRender]
    | [kv] => simp [jsonToXml, rootRender]
    | kv1 :: kv2 :: rest => simp [jsonToXml, rootRender]

/-- Witness for C5 at concrete inputs. -/
theorem claim_C5_root_selection_witness :
    jsonToXml (JVal.vobj [("a", JVal.vstr "x")]) "root"
      = Except.ok (xmlDecl ++ rootRender (JVal.vobj [("a", JVal.vstr "x")]) "root") ∧
    jsonToXml (JVal.vstr "x") "root"
      = Except.ok (xmlDecl ++ rootRender (JVal.vstr "x") "root") := by
  refine ⟨?_, ?_⟩
  · exact (claim_C5_root_selection (JVal.vobj [("a", JVal.vstr "x")]) "root" (by decide)).1
  · exact (claim_C5_root_selection (JVal.vstr "x") "root" (by decide)).1

/-! ## Claim C6 -/

/-- C6 counterexample: `null` passed as the top-level input does not
produce `<root />`; the root-selection check throws a TypeError
(`Object.keys(null)`). -/
theorem claim_C6_counterexample :
    jsonToXml JVal.vnull "name"
      = Except.error "TypeError: Cannot convert undefined or null to object" := by decide

/-- C6 amended: null and undefined render as the self-closing element
`<name />` wherever `toXml` meets them — as nested object values and for
undefined as the top-level input — but top-level `null` instead raises a
TypeError. -/
theorem claim_C6_null_selfclose :
    (∀ name, toXml JVal.vnull name = "<" ++ name ++ " />") ∧
    (∀ name, toXml JVal.vundef name = "<" ++ name ++ " />") ∧
    (∀ root, jsonToXml JVal.vundef root = Except.ok (xmlDecl ++ ("<" ++ root ++ " />"))) ∧
    toXml (JVal.vobj [("k", JVal.vnull)]) "a" = "<a><k /></a>" ∧
    toXml (JVal.vobj [("k", JVal.vundef)]) "a" = "<a><k /></a>" := by
  refine ⟨?_, ?_, ?_, by decide, by decide⟩
  · intro name
    simp [toXml]
  · intro name
    simp [toXml]
  · intro root
    simp [jsonToXml, toXml]

/-! ## Claim C7 -/

/-- C7 counterexample: on input that is not well-formed XML, `formatXml`
does not raise: its internal error is caught by its own catch block and
the input text is returned unchanged. -/
theorem claim_C7_counterexample :
    isValidXml "<a>" = false ∧ formatXml "<a>" = "<a>" := by
  constructor
  · decide
  · decide

/-- C7 amended: on invalid input `formatXml` returns the input unchanged
(the internal throw is caught); on well-formed input it re-renders with
two-space indentation per nesting depth, and a leading `<?xml ... ?>`
declaration is preserved verbatim as the first output line. -/
theorem claim_C7_formatXml :
    (∀ xml, xml ≠ "" → parseDoc xml = none → formatXml xml = xml) ∧
    (∀ xml n a c, parseDoc xml = some (n, a, c) →
      strStartsWith (strTrim xml) "<?xml" = false →
      formatXml xml = formatNode (XNode.elem n a c) 0) ∧
    (∀ xml n a c m, parseDoc xml = some (n, a, c) →
      strStartsWith (strTrim xml) "<?xml" = true →
      findDecl xml.data = some m →
      formatXml xml = String.mk m ++ "\n" ++ formatNode (XNode.elem n a c) 0) ∧
    (∀ name attrs children level,
      isPrefixList (strRepeat "  " level ++ "<" ++ name).data
        (formatNode (XNode.elem name attrs children) level).data = true) ∧
    formatXml "<a><b>1</b></a>" = "<a>\n  <b>1</b>\n</a>" ∧
    formatXml "<?xml version=\"1.0\"?><a/>" = "<?xml version=\"1.0\"?>\n<a />" := by
  refine ⟨?_, ?_, ?_, ?_, by decide, by decide⟩
  · intro xml hne h
    simp [formatXml, hne, h]
  · intro xml n a c h hs
    have hne : xml ≠ "" := by
      intro hx
      rw [hx] at h
      have : parseDoc "" = none := by decide
      rw [this] at h
      cases h
    simp [formatXml, hne, h, hs]
  · intro xml n a c m h hs hm
    have hne : xml ≠ "" := by
      intro hx
      rw [hx] at h
      have : parseDoc "" = none := by decide
      rw [this] at h
      cases h
    simp [formatXml, hne, h, hs, hm, String.append_assoc]
  · intro name attrs children level
    have base : ∀ tail : String,
        isPrefixList (strRepeat "  " level ++ "<" ++ name).data
          ((strRepeat "  " level ++ "<" ++ name ++ attrsStr attrs ++ tail)).data = true := by
      intro tail
      have h1 : (strRepeat "  " level ++ "<" ++ name ++ attrsStr attrs ++ tail)
          = (strRepeat "  " level ++ "<" ++ name) ++ (attrsStr attrs ++ tail) := by
        simp [String.append_assoc]
      rw [h1]
      have := isPrefixList_self_append (strRepeat "  " level ++ "<" ++ name).data
        (attrsStr attrs ++ tail).data
      simpa [String.data_append] using this
    cases children with
    | nil =>
      have h := base " />"
      simpa [formatNode] using h
    | cons x rest =>
      simp only [formatNode]
      by_cases h1 : (formatChildren (x :: rest) level).1
      · simp only [h1, if_true]
        have h := base (">" ++ (formatChildren (x :: rest) level).2 ++ "\n"
          ++ strRepeat "  " level ++ "</" ++ name ++ ">")
        simpa [String.append_assoc] using h
      · simp only [h1]
        by_cases h2 : (formatChildren (x :: rest) level).2 != ""
        · simp only [h2, if_true, Bool.false_eq_true, if_false]
          have h := base (">" ++ (formatChildren (x :: rest) level).2 ++ "</" ++ name ++ ">")
          simpa [String.append_assoc] using h
        · simp only [h2, Bool.false_eq_true, if_false]
          have h := base " />"
          simpa using h

/-- Witness for C7 at concrete inputs. -/
theorem claim_C7_formatXml_witness :
    formatXml "<b>" = "<b>" ∧
    formatXml "<c/>" = formatNode (XNode.elem "c" [] []) 0 ∧
    formatXml "<?xml version=\"1.0\"?><c/>"
      = String.mk "<?xml version=\"1.0\"?>".data ++ "\n" ++ formatNode (XNode.elem "c" [] []) 0 := by
  refine ⟨?_, ?_, ?_⟩
  · exact claim_C7_formatXml.1 "<b>" (by decide) (by decide)
  · exact claim_C7_formatXml.2.1 "<c/>" "c" [] [] (by decide) (by decide)
  · exact claim_C7_formatXml.2.2.1 "<?xml version=\"1.0\"?><c/>" "c" [] []
      "<?xml version=\"1.0\"?>".data (by decide) (by decide) (by decide)

/-! ## Claim C9: the collapse pass commutes with trimming -/

theorem wsChar_ne_gt {c : Char} (h : wsChar c = true) : (c == '>') = false := by
  simp only [wsChar, Bool.or_eq_true, beq_iff_eq] at h
  rcases h with ((h | h) | h) | h <;> subst h <;> decide

theorem dropWhile_append_of_ne_nil {p : Char → Bool} :
    ∀ (a b : List Char), a.dropWhile p ≠ [] → (a ++ b).dropWhile p = a.dropWhile p ++ b := by
  intro a b
  induction a with
  | nil => intro h; exact absurd rfl h
  | cons c cs ih =>
    intro h
    by_cases hc : p c
    · rw [List.cons_append, List.dropWhile_cons_of_pos hc, List.dropWhile_cons_of_pos hc]
      exact ih (by rwa [List.dropWhile_cons_of_pos hc] at h)
    · rw [List.cons_append, List.dropWhile_cons_of_neg hc, List.dropWhile_cons_of_neg hc]
      rfl

theorem dropWhile_append_allP {p : Char → Bool} :
    ∀ (a b : List Char), (∀ c ∈ a, p c = true) → (a ++ b).dropWhile p = b.dropWhile p := by
  intro a b
  induction a with
  | nil => intro _; rfl
  | cons c cs ih =>
    intro h
    rw [List.cons_append, List.dropWhile_cons_of_pos (h c (by simp))]
    exact ih (fun d hd => h d (by simp [hd]))

theorem takeWhile_append_of_ne_nil {p : Char → Bool} :
    ∀ (a b : List Char), a.dropWhile p ≠ [] → (a ++ b).takeWhile p = a.takeWhile p := by
  intro a b
  induction a with
  | nil => intro h; exact absurd rfl h
  | cons c cs ih =>
    intro h
    by_cases hc : p c
    · rw [List.cons_append, List.takeWhile_cons_of_pos hc, List.takeWhile_cons_of_pos hc]
      have : cs.dropWhile p ≠ [] := by rwa [List.dropWhile_cons_of_pos hc] at h
      rw [ih this]
    · rw [List.cons_append, List.takeWhile_cons_of_neg hc, List.takeWhile_cons_of_neg hc]

theorem head?_append_of_ne_nil {α : Type} :
    ∀ (a b : List α), a ≠ [] → (a ++ b).head? = a.head? := by
  intro a b h
  cases a with
  | nil => exact absurd rfl h
  | cons c cs => rfl

theorem getLast?_cons_of_ne_nil {α : Type} (c : α) :
    ∀ (rest : List α), rest ≠ [] → (c :: rest).getLast? = rest.getLast? := by
  intro rest h
  cases rest with
  | nil => exact absurd rfl h
  | cons d t => simp [List.getLast?_cons_cons]

theorem getLast?_dropWhile_ne_nil {p : Char → Bool} :
    ∀ (l : List Char), l.dropWhile p ≠ [] → (l.dropWhile p).getLast? = l.getLast? := by
  intro l
  induction l with
  | nil => intro h; exact absurd rfl h
  | cons c rest ih =>
    intro h
    by_cases hc : p c
    · rw [List.dropWhile_cons_of_pos hc] at h ⊢
      rw [ih h]
      have hrest : rest ≠ [] := by
        intro hr
        rw [hr] at h
        exact h rfl
      rw [getLast?_cons_of_ne_nil c rest hrest]
    · rw [List.dropWhile_cons_of_neg hc]

theorem head?_dropWhile_not {p : Char → Bool} :
    ∀ (l : List Char) (c : Char), (l.dropWhile p).head? = some c → p c = false := by
  intro l
  induction l with
  | nil => intro c h; simp [List.dropWhile] at h
  | cons a rest ih =>
    intro c h
    by_cases ha : p a
    · rw [List.dropWhile_cons_of_pos ha] at h
      exact ih c h
    · rw [List.dropWhile_cons_of_neg ha] at h
      simp at h
      rw [← h]
      simpa using ha

theorem length_dropWhile_le_local {p : Char → Bool} (l : List Char) :
    (l.dropWhile p).length ≤ l.length :=
  (List.dropWhile_sublist p).length_le

theorem minifyCoreF_stable :
    ∀ (f g : Nat) (l : List Char), l.length ≤ f → l.length ≤ g →
      minifyCoreF f l = minifyCoreF g l := by
  intro f
  induction f with
  | zero =>
    intro g l hf _
    have hl : l = [] := List.length_eq_zero.mp (Nat.le_zero.mp hf)
    subst hl
    cases g <;> rfl
  | succ f ih =>
    intro g l hf hg
    cases l with
    | nil => cases g <;> rfl
    | cons c rest =>
      cases g with
      | zero => simp at hg
      | succ g2 =>
        simp only [minifyCoreF]
        have hrest : rest.length ≤ f := by
          simp only [List.length_cons] at hf
          omega
        have hrest2 : rest.length ≤ g2 := by
          simp only [List.length_cons] at hg
          omega
        by_cases hc : (c == '>' && !(rest.takeWhile wsChar).isEmpty
            && (rest.dropWhile wsChar).head? == some '<') = true
        · rw [if_pos hc, if_pos hc]
          have hdl : (rest.dropWhile wsChar).length ≤ rest.length :=
            length_dropWhile_le_local rest
          rw [ih g2 _ (le_trans hdl hrest) (le_trans hdl hrest2)]
        · rw [if_neg hc, if_neg hc, ih g2 rest hrest hrest2]

theorem minifyCoreF_eq_T {f : Nat} {l : List Char} (h : l.length ≤ f) :
    minifyCoreF f l = minifyCoreT l :=
  minifyCoreF_stable f l.length l h le_rfl

theorem minifyCoreT_cons (c : Char) (rest : List Char) :
    minifyCoreT (c :: rest) =
      if (c == '>' && !(rest.takeWhile wsChar).isEmpty
          && (rest.dropWhile wsChar).head? == some '<') = true then
        '>' :: minifyCoreT (rest.dropWhile wsChar)
      else c :: minifyCoreT rest := by
  show minifyCoreF (c :: rest).length (c :: rest) = _
  simp only [List.length_cons, minifyCoreF]
  by_cases hc : (c == '>' && !(rest.takeWhile wsChar).isEmpty
      && (rest.dropWhile wsChar).head? == some '<') = true
  · rw [if_pos hc, if_pos hc]
    congr 1
    exact minifyCoreF_eq_T (length_dropWhile_le_local rest)
  · rw [if_neg hc, if_neg hc]
    rfl

theorem minifyCoreT_allws : ∀ l : List Char,
    (∀ c ∈ l, wsChar c = true) → minifyCoreT l = l := by
  intro l
  induction l with
  | nil => intro _; rfl
  | cons c rest ih =>
    intro h
    rw [minifyCoreT_cons]
    have hc : (c == '>') = false := wsChar_ne_gt (h c (by simp))
    simp only [hc, Bool.false_and, Bool.false_eq_true, if_false]
    rw [ih (fun d hd => h d (by simp [hd]))]

theorem minifyCoreT_ws_append : ∀ (w l : List Char),
    (∀ c ∈ w, wsChar c = true) → minifyCoreT (w ++ l) = w ++ minifyCoreT l := by
  intro w
  induction w with
  | nil => intro l _; rfl
  | cons c w2 ih =>
    intro l h
    rw [List.cons_append, minifyCoreT_cons]
    have hc : (c == '>') = false := wsChar_ne_gt (h c (by simp))
    simp only [hc, Bool.false_and, Bool.false_eq_true, if_false]
    rw [ih l (fun d hd => h d (by simp [hd]))]
    rfl

theorem minifyCoreT_append_ws_aux : ∀ (k : Nat) (l w : List Char), l.length ≤ k →
    (∀ c ∈ w, wsChar c = true) → minifyCoreT (l ++ w) = minifyCoreT l ++ w := by
  intro k
  induction k with
  | zero =>
    intro l w hl hw
    have : l = [] := List.length_eq_zero.mp (Nat.le_zero.mp hl)
    subst this
    simpa using minifyCoreT_allws w hw
  | succ k ih =>
    intro l w hl hw
    cases l with
    | nil => simpa using minifyCoreT_allws w hw
    | cons c rest =>
      have hrest : rest.length ≤ k := by
        simp only [List.length_cons] at hl
        omega
      rw [List.cons_append, minifyCoreT_cons, minifyCoreT_cons]
      by_cases hgt : (c == '>') = true
      · by_cases hdrop : rest.dropWhile wsChar = []
        · have hrest_ws : ∀ d ∈ rest, wsChar d = true := List.dropWhile_eq_nil_iff.mp hdrop
          have h1 : (rest ++ w).dropWhile wsChar = [] := by
            rw [dropWhile_append_allP rest w hrest_ws]
            exact List.dropWhile_eq_nil_iff.mpr hw
          rw [h1, hdrop]
          simp only [List.head?_nil,
            show ((none : Option Char) == some '<') = false from rfl,
            Bool.and_false, Bool.false_eq_true, if_false]
          rw [ih rest w hrest hw]
          rfl
        · have ht : (rest ++ w).takeWhile wsChar = rest.takeWhile wsChar :=
            takeWhile_append_of_ne_nil rest w hdrop
          have hd : (rest ++ w).dropWhile wsChar = rest.dropWhile wsChar ++ w :=
            dropWhile_append_of_ne_nil rest w hdrop
          have hh : (rest.dropWhile wsChar ++ w).head? = (rest.dropWhile wsChar).head? :=
            head?_append_of_ne_nil _ _ hdrop
          rw [ht, hd, hh]
          by_cases hcond : (c == '>' && !(rest.takeWhile wsChar).isEmpty
              && (rest.dropWhile wsChar).head? == some '<') = true
          · rw [if_pos hcond, if_pos hcond]
            have hdl : (rest.dropWhile wsChar).length ≤ k :=
              le_trans (length_dropWhile_le_local rest) hrest
            rw [ih _ w hdl hw]
            rfl
          · rw [if_neg hcond, if_neg hcond, ih rest w hrest hw]
            rfl
      · have hgt2 : (c == '>') = false := by
          cases h2 : (c == '>') with
          | true => exact absurd h2 hgt
          | false => rfl
        simp only [hgt2, Bool.false_and, Bool.false_eq_true, if_false]
        rw [ih rest w hrest hw]
        rfl

theorem trimChars_ws_append (w l : List Char) (hw : ∀ c ∈ w, wsChar c = true) :
    trimChars (w ++ l) = trimChars l := by
  unfold trimChars
  rw [dropWhile_append_allP w l hw]

theorem trimChars_append_ws (l w : List Char) (hw : ∀ c ∈ w, wsChar c = true) :
    trimChars (l ++ w) = trimChars l := by
  unfold trimChars
  by_cases hdrop : l.dropWhile wsChar = []
  · rw [dropWhile_append_allP l w (List.dropWhile_eq_nil_iff.mp hdrop), hdrop,
      List.dropWhile_eq_nil_iff.mpr hw]
  · rw [dropWhile_append_of_ne_nil l w hdrop, List.reverse_append,
      dropWhile_append_allP w.reverse _ (fun c hc => hw c (List.mem_reverse.mp hc))]

theorem trimChars_eq_self (l : List Char)
    (hh : ∀ c, l.head? = some c → wsChar c = false)
    (hl : ∀ c, l.getLast? = some c → wsChar c = false) : trimChars l = l := by
  cases l with
  | nil => rfl
  | cons c rest =>
    have h1 : (c :: rest).dropWhile wsChar = c :: rest :=
      List.dropWhile_cons_of_neg (by simp [hh c rfl])
    unfold trimChars
    rw [h1]
    have h2 : (c :: rest).reverse.dropWhile wsChar = (c :: rest).reverse := by
      cases hr : (c :: rest).reverse with
      | nil => simp at hr
      | cons d t =>
        have hd : (c :: rest).getLast? = some d := by
          rw [← List.head?_reverse, hr]
          rfl
        rw [List.dropWhile_cons_of_neg (by simp [hl d hd])]
    rw [h2, List.reverse_reverse]

theorem minifyCoreT_head (c : Char) (rest : List Char) :
    (minifyCoreT (c :: rest)).head? = some c := by
  rw [minifyCoreT_cons]
  by_cases h : (c == '>' && !(rest.takeWhile wsChar).isEmpty
      && (rest.dropWhile wsChar).head? == some '<') = true
  · have hc : c = '>' := by
      have := h
      simp only [Bool.and_eq_true, beq_iff_eq] at this
      exact this.1.1
    rw [if_pos h, hc]
    rfl
  · rw [if_neg h]
    rfl

theorem minifyCoreT_getLast : ∀ (k : Nat) (l : List Char) (d : Char), l.length ≤ k →
    l.getLast? = some d → wsChar d = false → (minifyCoreT l).getLast? = some d := by
  intro k
  induction k with
  | zero =>
    intro l d hk hd _
    have : l = [] := List.length_eq_zero.mp (Nat.le_zero.mp hk)
    subst this
    simp at hd
  | succ k ih =>
    intro l d hk hd hws
    cases l with
    | nil => simp at hd
    | cons c rest =>
      have hrest : rest.length ≤ k := by
        simp only [List.length_cons] at hk
        omega
      rw [minifyCoreT_cons]
      cases hre : rest with
      | nil =>
        subst hre
        simp only [List.takeWhile_nil, List.isEmpty_nil, Bool.not_true, Bool.and_false,
          Bool.false_and, Bool.false_eq_true, if_false]
        simp only [List.getLast?_singleton, Option.some.injEq] at hd
        subst hd
        rfl
      | cons r0 rtail =>
        subst hre
        have hlast : (r0 :: rtail).getLast? = some d := by
          rw [← getLast?_cons_of_ne_nil c (r0 :: rtail) (by simp)]
          exact hd
        by_cases hcond : (c == '>' && !((r0 :: rtail).takeWhile wsChar).isEmpty
            && ((r0 :: rtail).dropWhile wsChar).head? == some '<') = true
        · rw [if_pos hcond]
          have hdw_ne : (r0 :: rtail).dropWhile wsChar ≠ [] := by
            simp only [Bool.and_eq_true, beq_iff_eq] at hcond
            intro hnil
            rw [hnil] at hcond
            simp at hcond
          have hdw_last : ((r0 :: rtail).dropWhile wsChar).getLast? = some d := by
            rw [getLast?_dropWhile_ne_nil _ hdw_ne]
            exact hlast
          have hmn := ih ((r0 :: rtail).dropWhile wsChar) d
            (le_trans (length_dropWhile_le_local _) hrest) hdw_last hws
          have hmn_ne : minifyCoreT ((r0 :: rtail).dropWhile wsChar) ≠ [] := by
            intro hnil
            rw [hnil] at hmn
            simp at hmn
          rw [getLast?_cons_of_ne_nil _ _ hmn_ne]
          exact hmn
        · rw [if_neg hcond]
          have hmn := ih (r0 :: rtail) d hrest hlast hws
          have hmn_ne : minifyCoreT (r0 :: rtail) ≠ [] := by
            intro hnil
            rw [hnil] at hmn
            simp at hmn
          rw [getLast?_cons_of_ne_nil _ _ hmn_ne]
          exact hmn

theorem minify_trim_commute (l : List Char) :
    trimChars (minifyCoreT l) = minifyCoreT (trimChars l) := by
  have hlm : l.takeWhile wsChar ++ l.dropWhile wsChar = l :=
    List.takeWhile_append_dropWhile wsChar l
  set m := l.dropWhile wsChar with hm_def
  set m2 := (m.reverse.dropWhile wsChar).reverse with hm2_def
  set tws := (m.reverse.takeWhile wsChar).reverse with htws_def
  have hm : m = m2 ++ tws := by
    have h := List.takeWhile_append_dropWhile (p := wsChar) (l := m.reverse)
    have h2 := congrArg List.reverse h
    rw [List.reverse_append, List.reverse_reverse] at h2
    exact h2.symm
  have hlead : ∀ c ∈ l.takeWhile wsChar, wsChar c = true :=
    fun c hc => List.mem_takeWhile_imp hc
  have htws : ∀ c ∈ tws, wsChar c = true := by
    intro c hc
    rw [htws_def, List.mem_reverse] at hc
    exact List.mem_takeWhile_imp hc
  have htrim : trimChars l = m2 := rfl
  have hmain : trimChars (minifyCoreT m2) = minifyCoreT m2 := by
    rcases hm2c : m2 with _ | ⟨c, r⟩
    · rfl
    · have hhead_m : m.head? = some c := by
        rw [hm, hm2c]
        rfl
      have hws_c : wsChar c = false := head?_dropWhile_not l c hhead_m
      obtain ⟨d, hd⟩ : ∃ d, m2.getLast? = some d := by
        rw [hm2c]
        cases hr : (c :: r).getLast? with
        | none => simp at hr
        | some d => exact ⟨d, rfl⟩
      have hws_d : wsChar d = false := by
        have hhead : (m.reverse.dropWhile wsChar).head? = some d := by
          have h2 := hd
          rw [hm2_def, List.getLast?_reverse] at h2
          exact h2
        exact head?_dropWhile_not m.reverse d hhead
      rw [hm2c] at hd
      apply trimChars_eq_self
      · intro e he
        rw [minifyCoreT_head c r] at he
        injection he with he2
        rw [← he2]
        exact hws_c
      · intro e he
        rw [minifyCoreT_getLast (c :: r).length (c :: r) d le_rfl hd hws_d] at he
        injection he with he2
        rw [← he2]
        exact hws_d
  calc trimChars (minifyCoreT l)
      = trimChars (minifyCoreT (l.takeWhile wsChar ++ (m2 ++ tws))) := by
        rw [← hm, hlm]
    _ = trimChars (l.takeWhile wsChar ++ minifyCoreT (m2 ++ tws)) := by
        rw [minifyCoreT_ws_append _ _ hlead]
    _ = trimChars (minifyCoreT (m2 ++ tws)) := trimChars_ws_append _ _ hlead
    _ = trimChars (minifyCoreT m2 ++ tws) := by
        rw [minifyCoreT_append_ws_aux m2.length m2 tws le_rfl htws]
    _ = trimChars (minifyCoreT m2) := trimChars_append_ws _ _ htws
    _ = minifyCoreT m2 := hmain
    _ = minifyCoreT (trimChars l) := by rw [htrim]

/-- C9: `minifyXml` is exactly the spec's textual transform — trimming
the ends and collapsing each whitespace run strictly between `>` and `<`
(the code collapses then trims, the spec trims then collapses; the two
orders agree on every input) — together with the spec's concrete
example. -/
theorem claim_C9_minifyXml :
    (∀ s : String, minifyXml s = minifySpecSide s) ∧
    minifyXml "<a>\n  <b/>\n</a>" = "<a><b/></a>" := by
  refine ⟨?_, by decide⟩
  intro s
  show String.mk (trimChars (minifyCoreT s.data)) = String.mk (minifyCoreT (trimChars s.data))
  rw [minify_trim_commute]

/-! ## Parser ground lemmas: remainders shrink, fuel does not matter -/

theorem parseAttrsF_remainder : ∀ (f : Nat) (l : List Char) (as : List (String × String))
    (r : List Char), parseAttrsF f l = some (as, r) → r.length ≤ l.length := by
  intro f
  induction f with
  | zero => intro l as r h; simp [parseAttrsF] at h
  | succ f ih =>
    intro l as r h
    simp only [parseAttrsF] at h
    have hlen1 : (l.dropWhile wsChar).length ≤ l.length := length_dropWhile_le_local l
    cases hl1 : l.dropWhile wsChar with
    | nil => rw [hl1] at h; simp at h
    | cons c l1t =>
      rw [hl1] at h
      rw [hl1] at hlen1
      dsimp only at h
      by_cases h1 : c = '/'
      · rw [if_pos h1] at h
        injection h with h2
        injection h2 with h3 h4
        rw [← h4]
        exact hlen1
      · rw [if_neg h1] at h
        by_cases h2 : c = '>'
        · rw [if_pos h2] at h
          injection h with h3
          injection h3 with h4 h5
          rw [← h5]
          exact hlen1
        · rw [if_neg h2] at h
          by_cases h3 : nameStartChar c = true
          · rw [if_pos h3] at h
            have hlen2 : ((c :: l1t).dropWhile nameChar).length ≤ (c :: l1t).length :=
              length_dropWhile_le_local _
            have hlen3 : (((c :: l1t).dropWhile nameChar).dropWhile wsChar).length
                ≤ ((c :: l1t).dropWhile nameChar).length := length_dropWhile_le_local _
            cases hl2 : ((c :: l1t).dropWhile nameChar).dropWhile wsChar with
            | nil => rw [hl2] at h; simp at h
            | cons e l3 =>
              rw [hl2] at h
              rw [hl2] at hlen3
              dsimp only at h
              by_cases h4 : e = '='
              · rw [if_pos h4] at h
                have hlen4 : (l3.dropWhile wsChar).length ≤ l3.length :=
                  length_dropWhile_le_local _
                cases hl3 : l3.dropWhile wsChar with
                | nil => rw [hl3] at h; simp at h
                | cons q l5 =>
                  rw [hl3] at h
                  rw [hl3] at hlen4
                  dsimp only at h
                  by_cases h5 : q = '"'
                  · rw [if_pos h5] at h
                    have hlen6 : (l5.dropWhile (fun ch => ch != '"')).length ≤ l5.length :=
                      length_dropWhile_le_local _
                    cases hl4 : l5.dropWhile (fun ch => ch != '"') with
                    | nil => rw [hl4] at h; simp at h
                    | cons q2 l6 =>
                      rw [hl4] at h
                      rw [hl4] at hlen6
                      dsimp only at h
                      by_cases h6 : q2 = '"'
                      · rw [if_pos h6] at h
                        cases hrec : parseAttrsF f l6 with
                        | none => rw [hrec] at h; simp at h
                        | some p =>
                          rw [hrec] at h
                          cases p with
                          | mk prest pl7 =>
                            dsimp only at h
                            injection h with h7
                            injection h7 with h8 h9
                            have hb := ih l6 prest pl7 hrec
                            rw [← h9]
                            simp only [List.length_cons] at hlen1 hlen2 hlen3 hlen4 hlen6
                            omega
                      · rw [if_neg h6] at h
                        simp at h
                  · rw [if_neg h5] at h
                    simp at h
              · rw [if_neg h4] at h
                simp at h
          · rw [if_neg h3] at h
            simp at h

theorem parseAttrsF_stable : ∀ (f g : Nat) (l : List Char), l.length < f → l.length < g →
    parseAttrsF f l = parseAttrsF g l := by
  intro f
  induction f with
  | zero => intro g l hf hg; omega
  | succ f ih =>
    intro g l hf hg
    cases g with
    | zero => omega
    | succ g2 =>
      simp only [parseAttrsF]
      have hlen1 : (l.dropWhile wsChar).length ≤ l.length := length_dropWhile_le_local l
      cases hl1 : l.dropWhile wsChar with
      | nil => rfl
      | cons c l1t =>
        rw [hl1] at hlen1
        dsimp only
        by_cases h1 : c = '/'
        · rw [if_pos h1, if_pos h1]
        · rw [if_neg h1, if_neg h1]
          by_cases h2 : c = '>'
          · rw [if_pos h2, if_pos h2]
          · rw [if_neg h2, if_neg h2]
            by_cases h3 : nameStartChar c = true
            · rw [if_pos h3, if_pos h3]
              have hlen2 : ((c :: l1t).dropWhile nameChar).length ≤ (c :: l1t).length :=
                length_dropWhile_le_local _
              have hlen3 : (((c :: l1t).dropWhile nameChar).dropWhile wsChar).length
                  ≤ ((c :: l1t).dropWhile nameChar).length := length_dropWhile_le_local _
              cases hl2 : ((c :: l1t).dropWhile nameChar).dropWhile wsChar with
              | nil => rfl
              | cons e l3 =>
                rw [hl2] at hlen3
                dsimp only
                by_cases h4 : e = '='
                · rw [if_pos h4, if_pos h4]
                  have hlen4 : (l3.dropWhile wsChar).length ≤ l3.length :=
                    length_dropWhile_le_local _
                  cases hl3 : l3.dropWhile wsChar with
                  | nil => rfl
                  | cons q l5 =>
                    rw [hl3] at hlen4
                    dsimp only
                    by_cases h5 : q = '"'
                    · rw [if_pos h5, if_pos h5]
                      have hlen6 : (l5.dropWhile (fun ch => ch != '"')).length ≤ l5.length :=
                        length_dropWhile_le_local _
                      cases hl4 : l5.dropWhile (fun ch => ch != '"') with
                      | nil => rfl
                      | cons q2 l6 =>
                        rw [hl4] at hlen6
                        dsimp only
                        by_cases h6 : q2 = '"'
                        · rw [if_pos h6, if_pos h6]
                          have hrec : parseAttrsF f l6 = parseAttrsF g2 l6 := by
                            apply ih
                            · simp only [List.length_cons] at hlen1 hlen2 hlen3 hlen4 hlen6
                              omega
                            · simp only [List.length_cons] at hlen1 hlen2 hlen3 hlen4 hlen6
                              omega
                          rw [hrec]
                        · rw [if_neg h6, if_neg h6]
                    · rw [if_neg h5, if_neg h5]
                · rw [if_neg h4, if_neg h4]
            · rw [if_neg h3, if_neg h3]

theorem parseAttrsT_eq {f : Nat} {l : List Char} (h : l.length < f) :
    parseAttrsF f l = parseAttrsT l :=
  parseAttrsF_stable f (l.length + 1) l h (Nat.lt_succ_self _)

theorem parseTagOpen_remainder {l : List Char} {nm : String}
    {as : List (String × String)} {r : List Char}
    (h : parseTagOpen l = some (nm, as, r)) : r.length ≤ l.length := by
  unfold parseTagOpen at h
  cases l with
  | nil => simp at h
  | cons c lt =>
    dsimp only at h
    by_cases h1 : nameStartChar c = true
    · rw [if_pos h1] at h
      cases hp : parseAttrsT ((c :: lt).dropWhile nameChar) with
      | none => rw [hp] at h; simp at h
      | some p =>
        rw [hp] at h
        cases p with
        | mk pas pr =>
          dsimp only at h
          injection h with h2
          injection h2 with h3 h4
          injection h4 with h5 h6
          have hb := parseAttrsF_remainder _ _ _ _ hp
          have hd : ((c :: lt).dropWhile nameChar).length ≤ (c :: lt).length :=
            length_dropWhile_le_local _
          rw [← h6]
          omega
    · rw [if_neg h1] at h
      simp at h

theorem parseCloseTag_remainder {nm : String} {l r : List Char}
    (h : parseCloseTag nm l = some r) : r.length < l.length := by
  unfold parseCloseTag at h
  cases l with
  | nil => simp at h
  | cons c1 lt =>
    cases lt with
    | nil => simp at h
    | cons c2 l6 =>
      dsimp only at h
      by_cases h1 : (c1 = '<' && c2 = '/') = true
      · rw [if_pos h1] at h
        by_cases h2 : l6.take nm.data.length = nm.data
        · rw [if_pos h2] at h
          have hd : (l6.drop nm.data.length).length ≤ l6.length := by
            rw [List.length_drop]
            omega
          have hw : ((l6.drop nm.data.length).dropWhile wsChar).length
              ≤ (l6.drop nm.data.length).length := length_dropWhile_le_local _
          cases hq : (l6.drop nm.data.length).dropWhile wsChar with
          | nil => rw [hq] at h; simp at h
          | cons c3 l7 =>
            rw [hq] at h
            dsimp only at h
            by_cases h3 : c3 = '>'
            · rw [if_pos h3] at h
              injection h with h4
              subst h4
              rw [hq] at hw
              simp only [List.length_cons] at *
              omega
            · rw [if_neg h3] at h
              simp at h
        · rw [if_neg h2] at h
          simp at h
      · rw [if_neg h1] at h
        simp at h

theorem parseMany_remainder : ∀ (f : Nat) (l : List Char) (p : List XNode × List Char),
    parseMany f l = some p → p.2.length ≤ l.length := by
  intro f
  induction f with
  | zero => intro l p h; simp [parseMany] at h
  | succ f ih =>
    intro l p h
    simp only [parseMany] at h
    cases l with
    | nil =>
      injection h with h2
      rw [← h2]
    | cons c rest =>
      dsimp only at h
      by_cases hc : c = '<'
      · rw [if_pos hc] at h
        cases rest with
        | nil => simp at h
        | cons d r2 =>
          dsimp only at h
          by_cases hd : d = '/'
          · rw [if_pos hd] at h
            injection h with h2
            rw [← h2]
          · rw [if_neg hd] at h
            cases hto : parseTagOpen (d :: r2) with
            | none => rw [hto] at h; simp at h
            | some t =>
              rw [hto] at h
              obtain ⟨nm, attrs, l3⟩ := t
              dsimp only at h
              have hl3 : l3.length ≤ (d :: r2).length := parseTagOpen_remainder hto
              cases l3 with
              | nil => simp at h
              | cons e1 l3a =>
                dsimp only at h
                by_cases he1 : e1 = '/'
                · rw [if_pos he1] at h
                  cases l3a with
                  | nil => simp at h
                  | cons e2 l4 =>
                    dsimp only at h
                    by_cases he2 : e2 = '>'
                    · rw [if_pos he2] at h
                      cases hrec : parseMany f l4 with
                      | none => rw [hrec] at h; simp at h
                      | some q =>
                        rw [hrec] at h
                        have hb := ih l4 q hrec
                        injection h with h2
                        rw [← h2]
                        dsimp only
                        simp only [List.length_cons] at *
                        omega
                    · rw [if_neg he2] at h; simp at h
                · rw [if_neg he1] at h
                  by_cases he1b : e1 = '>'
                  · rw [if_pos he1b] at h
                    cases hrec : parseMany f l3a with
                    | none => rw [hrec] at h; simp at h
                    | some q =>
                      rw [hrec] at h
                      dsimp only at h
                      cases hct : parseCloseTag nm q.2 with
                      | none => rw [hct] at h; simp at h
                      | some l7 =>
                        rw [hct] at h
                        dsimp only at h
                        cases hrec2 : parseMany f l7 with
                        | none => rw [hrec2] at h; simp at h
                        | some q2 =>
                          rw [hrec2] at h
                          injection h with h2
                          have b1 := ih l3a q hrec
                          have b2 := parseCloseTag_remainder hct
                          have b3 := ih l7 q2 hrec2
                          rw [← h2]
                          dsimp only
                          simp only [List.length_cons] at *
                          omega
                  · rw [if_neg he1b] at h; simp at h
      · rw [if_neg hc] at h
        cases hrec : parseMany f ((c :: rest).dropWhile (fun ch => ch != '<')) with
        | none => rw [hrec] at h; simp at h
        | some q =>
          rw [hrec] at h
          injection h with h2
          have b1 := ih _ q hrec
          have b2 : ((c :: rest).dropWhile (fun ch => ch != '<')).length ≤ (c :: rest).length :=
            length_dropWhile_le_local _
          rw [← h2]
          dsimp only
          omega

theorem parseMany_stable : ∀ (f g : Nat) (l : List Char), l.length < f → l.length < g →
    parseMany f l = parseMany g l := by
  intro f
  induction f with
  | zero => intro g l hf hg; omega
  | succ f ih =>
    intro g l hf hg
    cases g with
    | zero => omega
    | succ g2 =>
      simp only [parseMany]
      cases l with
      | nil => rfl
      | cons c rest =>
        dsimp only
        by_cases hc : c = '<'
        · rw [if_pos hc, if_pos hc]
          cases rest with
          | nil => rfl
          | cons d r2 =>
            dsimp only
            by_cases hd : d = '/'
            · rw [if_pos hd, if_pos hd]
            · rw [if_neg hd, if_neg hd]
              cases hto : parseTagOpen (d :: r2) with
              | none => rfl
              | some t =>
                obtain ⟨nm, attrs, l3⟩ := t
                dsimp only
                have hl3 : l3.length ≤ (d :: r2).length := parseTagOpen_remainder hto
                cases l3 with
                | nil => rfl
                | cons e1 l3a =>
                  dsimp only
                  by_cases he1 : e1 = '/'
                  · rw [if_pos he1, if_pos he1]
                    cases l3a with
                    | nil => rfl
                    | cons e2 l4 =>
                      dsimp only
                      by_cases he2 : e2 = '>'
                      · rw [if_pos he2, if_pos he2]
                        have hrec : parseMany f l4 = parseMany g2 l4 := by
                          apply ih
                          · simp only [List.length_cons] at *
                            omega
                          · simp only [List.length_cons] at *
                            omega
                        rw [hrec]
                      · rw [if_neg he2, if_neg he2]
                  · rw [if_neg he1, if_neg he1]
                    by_cases he1b : e1 = '>'
                    · rw [if_pos he1b, if_pos he1b]
                      have hrec : parseMany f l3a = parseMany g2 l3a := by
                        apply ih
                        · simp only [List.length_cons] at *
                          omega
                        · simp only [List.length_cons] at *
                          omega
                      rw [hrec]
                      cases hp : parseMany g2 l3a with
                      | none => rfl
                      | some q =>
                        dsimp only
                        have hq2 : q.2.length ≤ l3a.length := parseMany_remainder g2 l3a q hp
                        cases hct : parseCloseTag nm q.2 with
                        | none => rfl
                        | some l7 =>
                          dsimp only
                          have hl7 : l7.length < q.2.length := parseCloseTag_remainder hct
                          have hrec2 : parseMany f l7 = parseMany g2 l7 := by
                            apply ih
                            · simp only [List.length_cons] at *
                              omega
                            · simp only [List.length_cons] at *
                              omega
                          rw [hrec2]
                    · rw [if_neg he1b, if_neg he1b]
        · rw [if_neg hc, if_neg hc]
          have hrec : parseMany f ((c :: rest).dropWhile (fun ch => ch != '<'))
              = parseMany g2 ((c :: rest).dropWhile (fun ch => ch != '<')) := by
            have hb : ((c :: rest).dropWhile (fun ch => ch != '<')).length ≤ rest.length := by
              have h2 : (c :: rest).dropWhile (fun ch => ch != '<')
                  = rest.dropWhile (fun ch => ch != '<') := by
                simp only [List.dropWhile_cons]
                simp [hc]
              rw [h2]
              exact length_dropWhile_le_local rest
            apply ih
            · simp only [List.length_cons] at *
              omega
            · simp only [List.length_cons] at *
              omega
          rw [hrec]

theorem parseMany_eq_T {f : Nat} {l : List Char} (h : l.length < f) :
    parseMany f l = parseManyT l :=
  parseMany_stable f (l.length + 1) l h (Nat.lt_succ_self _)

/-! ## Character-class and exact-split helpers -/

theorem ws_not_name {c : Char} (h : wsChar c = true) :
    nameStartChar c = false ∧ nameChar c = false := by
  simp only [wsChar, Bool.or_eq_true, beq_iff_eq] at h
  rcases h with ((h | h) | h) | h <;> subst h <;> exact ⟨by decide, by decide⟩

theorem nameStart_imp_nameChar {c : Char} (h : nameStartChar c = true) : nameChar c = true := by
  simp only [nameStartChar, Bool.or_eq_true] at h
  rcases h with (h | h) | h <;> simp [nameChar, h]

theorem nameStart_ne {c : Char} (h : nameStartChar c = true) :
    c ≠ '/' ∧ c ≠ '>' ∧ c ≠ '<' := by
  refine ⟨?_, ?_, ?_⟩ <;> intro he <;> subst he <;> exact absurd h (by decide)

theorem nameChar_ne {c : Char} (h : nameChar c = true) :
    c ≠ '=' ∧ wsChar c = false ∧ c ≠ '>' ∧ c ≠ '/' ∧ c ≠ '"' ∧ c ≠ '<' := by
  refine ⟨?_, ?_, ?_, ?_, ?_, ?_⟩
  · intro he; subst he; exact absurd h (by decide)
  · cases hw : wsChar c with
    | false => rfl
    | true => exact absurd h (by simp [(ws_not_name hw).2])
  · intro he; subst he; exact absurd h (by decide)
  · intro he; subst he; exact absurd h (by decide)
  · intro he; subst he; exact absurd h (by decide)
  · intro he; subst he; exact absurd h (by decide)

theorem takeDrop_exact {p : Char → Bool} :
    ∀ (a b : List Char), (∀ c ∈ a, p c = true) →
      (∀ x, b.head? = some x → p x = false) →
      (a ++ b).takeWhile p = a ∧ (a ++ b).dropWhile p = b := by
  intro a
  induction a with
  | nil =>
    intro b _ hb
    cases b with
    | nil => exact ⟨rfl, rfl⟩
    | cons x bs =>
      constructor
      · rw [List.nil_append, List.takeWhile_cons_of_neg (by simp [hb x rfl])]
      · rw [List.nil_append, List.dropWhile_cons_of_neg (by simp [hb x rfl])]
  | cons c cs ih =>
    intro b ha hb
    have hc : p c = true := ha c (by simp)
    obtain ⟨h1, h2⟩ := ih b (fun d hd => ha d (by simp [hd])) hb
    constructor
    · rw [List.cons_append, List.takeWhile_cons_of_pos hc, h1]
    · rw [List.cons_append, List.dropWhile_cons_of_pos hc, h2]

theorem goodName_data {n : String} (h : goodName n = true) :
    ∃ c cr, n.data = c :: cr ∧ nameStartChar c = true ∧ (∀ d ∈ cr, nameChar d = true)
      ∧ (∀ d ∈ n.data, nameChar d = true) := by
  unfold goodName at h
  cases hd : n.data with
  | nil => rw [hd] at h; simp at h
  | cons c cr =>
    rw [hd] at h
    simp only [Bool.and_eq_true, List.all_eq_true] at h
    refine ⟨c, cr, rfl, h.1, fun d hdm => h.2 d hdm, ?_⟩
    intro d hdm
    cases List.mem_cons.mp hdm with
    | inl he => rw [he]; exact nameStart_imp_nameChar h.1
    | inr he => exact h.2 d he

/-! ## Parsing printed attribute lists -/

theorem parseAttrsT_print : ∀ (pa : List (String × String)) (m : List Char)
    (stopc : Char) (mt : List Char),
    (∀ a ∈ pa, goodName a.1 = true ∧ ∀ ch ∈ a.2.data, (ch == '"') = false) →
    m.dropWhile wsChar = stopc :: mt → (stopc = '/' ∨ stopc = '>') →
    parseAttrsT ((attrsStr pa).data ++ m) = some (pa, stopc :: mt) := by
  intro pa
  induction pa with
  | nil =>
    intro m stopc mt _ hm hstop
    show parseAttrsF _ _ = _
    have hd : (attrsStr []).data ++ m = m := rfl
    rw [hd]
    cases hfuel : m.length + 1 with
    | zero => omega
    | succ f0 =>
      simp only [parseAttrsF, hm]
      rcases hstop with h | h
      · rw [if_pos h]
      · rw [if_neg ?_, if_pos h]
        subst h
        decide
  | cons a pa ih =>
    intro m stopc mt hpa hm hstop
    obtain ⟨c0, cr, hnd, hcs, hcr, hall⟩ := goodName_data (hpa a (by simp)).1
    have hqv : ∀ ch ∈ a.2.data, (ch == '"') = false := (hpa a (by simp)).2
    have hdata : (attrsStr (a :: pa)).data ++ m
        = ' ' :: (a.1.data ++ ('=' :: '"' :: (a.2.data ++ ('"' :: ((attrsStr pa).data ++ m))))) := by
      show (" " ++ a.1 ++ "=\"" ++ a.2 ++ "\"" ++ attrsStr pa).data ++ m = _
      simp only [String.data_append, List.append_assoc]
      rfl
    rw [hdata]
    show parseAttrsF _ _ = _
    have hlen : (' ' :: (a.1.data ++ ('=' :: '"' :: (a.2.data
        ++ ('"' :: ((attrsStr pa).data ++ m)))))).length =
        a.1.data.length + a.2.data.length + (attrsStr pa).data.length + m.length + 4 := by
      simp [List.length_append]
      omega
    cases hfuel : (' ' :: (a.1.data ++ ('=' :: '"' :: (a.2.data
        ++ ('"' :: ((attrsStr pa).data ++ m)))))).length + 1 with
    | zero => omega
    | succ f0 =>
      have hrest_eq : a.1.data ++ ('=' :: '"' :: (a.2.data ++ ('"' :: ((attrsStr pa).data ++ m))))
          = (c0 :: cr) ++ ('=' :: '"' :: (a.2.data ++ ('"' :: ((attrsStr pa).data ++ m)))) := by
        rw [hnd]
      have hwsc0 : wsChar c0 = false := (nameChar_ne (nameStart_imp_nameChar hcs)).2.1
      have hdw : (' ' :: (a.1.data ++ ('=' :: '"' :: (a.2.data
          ++ ('"' :: ((attrsStr pa).data ++ m)))))).dropWhile wsChar
          = a.1.data ++ ('=' :: '"' :: (a.2.data ++ ('"' :: ((attrsStr pa).data ++ m)))) := by
        rw [List.dropWhile_cons_of_pos (by decide), hrest_eq, List.cons_append,
          List.dropWhile_cons_of_neg (by simp [hwsc0]), ← List.cons_append, ← hrest_eq]
      have htd1 := takeDrop_exact a.1.data
        ('=' :: '"' :: (a.2.data ++ ('"' :: ((attrsStr pa).data ++ m))))
        hall (by intro x hx; injection hx with hx2; rw [← hx2]; decide)
      have htd2 := takeDrop_exact a.2.data ('"' :: ((attrsStr pa).data ++ m))
        (by
          intro ch hch
          have hq := hqv ch hch
          show (ch != '"') = true
          simp [bne, hq])
        (by intro x hx; injection hx with hx2; rw [← hx2]; decide)
      have hlen6 : ((attrsStr pa).data ++ m).length < f0 := by
        simp only [List.length_cons, List.length_append] at hfuel ⊢
        omega
      have hihres := ih m stopc mt (fun b hb => hpa b (by simp [hb])) hm hstop
      simp only [parseAttrsF]
      rw [hdw, htd1.1, htd1.2, List.dropWhile_cons_of_neg (by decide)]
      conv =>
        lhs
        rw [hrest_eq, List.cons_append]
      dsimp only
      rw [if_neg (nameStart_ne hcs).1, if_neg (nameStart_ne hcs).2.1, if_pos hcs]
      rw [List.dropWhile_cons_of_neg (by decide)]
      dsimp only
      rw [htd2.1, htd2.2]
      dsimp only
      rw [parseAttrsT_eq hlen6, hihres]
      rfl

/-! ## Parsing printed elements -/

theorem take_len_append {α : Type} : ∀ (a b : List α), (a ++ b).take a.length = a := by
  intro a b
  induction a with
  | nil => rfl
  | cons c cs ih => simp [ih]

theorem drop_len_append {α : Type} : ∀ (a b : List α), (a ++ b).drop a.length = b := by
  intro a b
  induction a with
  | nil => rfl
  | cons c cs ih => simp [ih]

theorem parseMany_succ (f : Nat) (l : List Char) :
    parseMany (f + 1) l =
      match l with
      | [] => some ([], [])
      | c :: rest =>
        if c = '<' then
          match rest with
          | [] => none
          | d :: _ =>
            if d = '/' then some ([], c :: rest)
            else
              match parseTagOpen rest with
              | none => none
              | some (nm, attrs, l3) =>
                match l3 with
                | [] => none
                | e1 :: l3a =>
                  if e1 = '/' then
                    match l3a with
                    | [] => none
                    | e2 :: l4 =>
                      if e2 = '>' then
                        match parseMany f l4 with
                        | some p => some (XNode.elem nm attrs [] :: p.1, p.2)
                        | none => none
                      else none
                  else if e1 = '>' then
                    match parseMany f l3a with
                    | none => none
                    | some p =>
                      match parseCloseTag nm p.2 with
                      | none => none
                      | some l7 =>
                        match parseMany f l7 with
                        | some q => some (XNode.elem nm attrs p.1 :: q.1, q.2)
                        | none => none
                  else none
        else
          match parseMany f ((c :: rest).dropWhile (fun ch => ch != '<')) with
          | some p =>
            some (XNode.text (String.mk ((c :: rest).takeWhile (fun ch => ch != '<'))) :: p.1, p.2)
          | none => none := rfl

theorem parseCloseTag_print (nm : String) (r : List Char) :
    parseCloseTag nm ('<' :: '/' :: (nm.data ++ '>' :: r)) = some r := by
  unfold parseCloseTag
  dsimp only
  rw [if_pos (by decide)]
  rw [take_len_append nm.data ('>' :: r)]
  rw [if_pos rfl]
  rw [drop_len_append nm.data ('>' :: r)]
  rw [List.dropWhile_cons_of_neg (by decide)]
  dsimp only
  rw [if_pos rfl]

theorem parseManyT_stop (r : List Char) :
    parseManyT ('<' :: '/' :: r) = some ([], '<' :: '/' :: r) := by
  simp only [parseManyT, List.length_cons]
  rw [parseMany_succ]
  dsimp only
  rw [if_pos rfl, if_pos rfl]

theorem parseManyT_nil : parseManyT [] = some ([], []) := rfl

theorem parseManyT_text_step (t : String) (rest : List Char) (ts : List XNode) (r : List Char)
    (hne : t.data ≠ []) (hlt : ∀ c ∈ t.data, (c == '<') = false)
    (hrest : rest = [] ∨ ∃ r2, rest = '<' :: r2)
    (hp : parseManyT rest = some (ts, r)) :
    parseManyT (t.data ++ rest) = some (XNode.text t :: ts, r) := by
  have hpred : ∀ c ∈ t.data, (fun ch => ch != '<') c = true := by
    intro c hc
    have := hlt c hc
    show (c != '<') = true
    simp [bne, this]
  have hbh : ∀ x, rest.head? = some x → (fun ch => ch != '<') x = false := by
    intro x hx
    rcases hrest with h | ⟨r2, h⟩
    · rw [h] at hx; simp at hx
    · rw [h] at hx
      injection hx with hx2
      rw [← hx2]
      decide
  have htd := takeDrop_exact t.data rest hpred hbh
  cases hcd : t.data with
  | nil => exact absurd hcd hne
  | cons c td =>
    have hshape : t.data ++ rest = c :: (td ++ rest) := by rw [hcd]; rfl
    rw [hshape] at htd
    have hcne : ¬c = '<' := by
      have := hlt c (by rw [hcd]; simp)
      intro he
      subst he
      simp at this
    rw [List.cons_append]
    simp only [parseManyT, List.length_cons]
    rw [parseMany_succ]
    dsimp only
    rw [if_neg hcne]
    rw [htd.1, htd.2]
    have hlenr : rest.length < (td ++ rest).length + 1 := by
      simp [List.length_append]
      omega
    rw [parseMany_eq_T hlenr, hp]

theorem attrsStr_head_not_name (pa : List (String × String)) (m : List Char)
    (hm : ∀ x, m.head? = some x → nameChar x = false) :
    ∀ x, ((attrsStr pa).data ++ m).head? = some x → nameChar x = false := by
  intro x hx
  cases pa with
  | nil => exact hm x hx
  | cons a rest =>
    have hshape : (attrsStr (a :: rest)).data ++ m
        = ' ' :: ((a.1 ++ "=\"" ++ a.2 ++ "\"" ++ attrsStr rest).data ++ m) := by
      show (" " ++ a.1 ++ "=\"" ++ a.2 ++ "\"" ++ attrsStr rest).data ++ m = _
      simp only [String.data_append, List.append_assoc]
      rfl
    rw [hshape] at hx
    injection hx with hx2
    rw [← hx2]
    decide

theorem parseTagOpen_print (nm : String) (pa : List (String × String)) (m : List Char)
    (stopc : Char) (mt : List Char)
    (hnm : goodName nm = true)
    (hpa : ∀ a ∈ pa, goodName a.1 = true ∧ ∀ ch ∈ a.2.data, (ch == '"') = false)
    (hm : m.dropWhile wsChar = stopc :: mt) (hstop : stopc = '/' ∨ stopc = '>')
    (hmh : ∀ x, m.head? = some x → nameChar x = false) :
    parseTagOpen (nm.data ++ ((attrsStr pa).data ++ m)) = some (nm, pa, stopc :: mt) := by
  obtain ⟨c0, cr, hnd, hcs, hcr, hall⟩ := goodName_data hnm
  have htd := takeDrop_exact nm.data ((attrsStr pa).data ++ m) hall
    (attrsStr_head_not_name pa m hmh)
  have hshape : nm.data ++ ((attrsStr pa).data ++ m)
      = c0 :: (cr ++ ((attrsStr pa).data ++ m)) := by rw [hnd]; rfl
  rw [hshape] at htd
  rw [hshape]
  unfold parseTagOpen
  dsimp only
  rw [if_pos hcs]
  rw [htd.1, htd.2]
  rw [parseAttrsT_print pa m stopc mt hpa hm hstop]

theorem parseManyT_selfclose_step (nm : String) (pa : List (String × String))
    (rest : List Char) (ts : List XNode) (r : List Char)
    (hnm : goodName nm = true)
    (hpa : ∀ a ∈ pa, goodName a.1 = true ∧ ∀ ch ∈ a.2.data, (ch == '"') = false)
    (hp : parseManyT rest = some (ts, r)) :
    parseManyT ('<' :: (nm.data ++ ((attrsStr pa).data ++ (' ' :: '/' :: '>' :: rest))))
      = some (XNode.elem nm pa [] :: ts, r) := by
  obtain ⟨c0, cr, hnd, hcs, hcr, hall⟩ := goodName_data hnm
  have hmws : (' ' :: '/' :: '>' :: rest).dropWhile wsChar = '/' :: ('>' :: rest) := by
    rw [List.dropWhile_cons_of_pos (by decide), List.dropWhile_cons_of_neg (by decide)]
  have hto := parseTagOpen_print nm pa (' ' :: '/' :: '>' :: rest) '/' ('>' :: rest)
    hnm hpa hmws (Or.inl rfl) (by intro x hx; injection hx with hx2; rw [← hx2]; decide)
  have hshape : nm.data ++ ((attrsStr pa).data ++ (' ' :: '/' :: '>' :: rest))
      = c0 :: (cr ++ ((attrsStr pa).data ++ (' ' :: '/' :: '>' :: rest))) := by
    rw [hnd]; rfl
  simp only [parseManyT, List.length_cons]
  rw [parseMany_succ]
  dsimp only
  rw [if_pos rfl]
  conv =>
    lhs
    rw [hshape]
  dsimp only
  rw [if_neg (nameStart_ne hcs).1]
  rw [← hshape, hto]
  dsimp only
  rw [if_pos rfl, if_pos rfl]
  have hlenr : rest.length
      < (nm.data ++ ((attrsStr pa).data ++ (' ' :: '/' :: '>' :: rest))).length + 1 := by
    simp [List.length_append]
    omega
  rw [parseMany_eq_T hlenr, hp]

theorem parseManyT_elem_step (nm : String) (pa : List (String × String))
    (content : List Char) (kids : List XNode)
    (rest : List Char) (ts : List XNode) (r : List Char)
    (hnm : goodName nm = true)
    (hpa : ∀ a ∈ pa, goodName a.1 = true ∧ ∀ ch ∈ a.2.data, (ch == '"') = false)
    (hkids : parseManyT (content ++ ('<' :: '/' :: (nm.data ++ '>' :: rest)))
        = some (kids, '<' :: '/' :: (nm.data ++ '>' :: rest)))
    (hp : parseManyT rest = some (ts, r)) :
    parseManyT ('<' :: (nm.data ++ ((attrsStr pa).data
        ++ ('>' :: (content ++ ('<' :: '/' :: (nm.data ++ '>' :: rest)))))))
      = some (XNode.elem nm pa kids :: ts, r) := by
  obtain ⟨c0, cr, hnd, hcs, hcr, hall⟩ := goodName_data hnm
  have hmws : ('>' :: (content ++ ('<' :: '/' :: (nm.data ++ '>' :: rest)))).dropWhile wsChar
      = '>' :: (content ++ ('<' :: '/' :: (nm.data ++ '>' :: rest))) := by
    rw [List.dropWhile_cons_of_neg (by decide)]
  have hto := parseTagOpen_print nm pa
    ('>' :: (content ++ ('<' :: '/' :: (nm.data ++ '>' :: rest))))
    '>' (content ++ ('<' :: '/' :: (nm.data ++ '>' :: rest)))
    hnm hpa hmws (Or.inr rfl) (by intro x hx; injection hx with hx2; rw [← hx2]; decide)
  have hshape : nm.data ++ ((attrsStr pa).data
      ++ ('>' :: (content ++ ('<' :: '/' :: (nm.data ++ '>' :: rest)))))
      = c0 :: (cr ++ ((attrsStr pa).data
        ++ ('>' :: (content ++ ('<' :: '/' :: (nm.data ++ '>' :: rest)))))) := by
    rw [hnd]; rfl
  simp only [parseManyT, List.length_cons]
  rw [parseMany_succ]
  dsimp only
  rw [if_pos rfl]
  conv =>
    lhs
    rw [hshape]
  dsimp only
  rw [if_neg (nameStart_ne hcs).1]
  rw [← hshape, hto]
  dsimp only
  rw [if_neg (by decide : ¬('>' : Char) = '/'), if_pos rfl]
  have hlen1 : (content ++ ('<' :: '/' :: (nm.data ++ '>' :: rest))).length
      < (nm.data ++ ((attrsStr pa).data
        ++ ('>' :: (content ++ ('<' :: '/' :: (nm.data ++ '>' :: rest)))))).length + 1 := by
    simp [List.length_append]
    omega
  rw [parseMany_eq_T hlen1, hkids]
  dsimp only
  rw [parseCloseTag_print nm rest]
  dsimp only
  have hlen2 : rest.length
      < (nm.data ++ ((attrsStr pa).data
        ++ ('>' :: (content ++ ('<' :: '/' :: (nm.data ++ '>' :: rest)))))).length + 1 := by
    simp [List.length_append]
    omega
  rw [parseMany_eq_T hlen2, hp]

/-! ## String and key-list basics for the round-trip development -/

theorem string_ext {a b : String} (h : a.data = b.data) : a = b := by
  cases a
  cases b
  cases h
  rfl

theorem str_empty_append (s : String) : "" ++ s = s := string_ext rfl

theorem contains_eq_false_iff : ∀ (l : List String) (s : String),
    (l.contains s = false) ↔ s ∉ l := by
  intro l s
  induction l with
  | nil => simp
  | cons a rest ih =>
    rw [List.contains_cons]
    constructor
    · intro h hm
      have h2 := Bool.or_eq_false_iff.mp h
      rcases List.mem_cons.mp hm with he | hm2
      · rw [he] at h2
        simp at h2
      · exact (ih.mp h2.2) hm2
    · intro h
      apply Bool.or_eq_false_iff.mpr
      refine ⟨?_, ih.mpr (fun hm => h (List.mem_cons.mpr (Or.inr hm)))⟩
      have hne : ¬s = a := fun he => h (by rw [he]; exact List.mem_cons_self a rest)
      simp [hne]

theorem distinctStrs_append : ∀ (a b : List String),
    distinctStrs a = true → distinctStrs b = true → (∀ x ∈ a, x ∉ b) →
    distinctStrs (a ++ b) = true := by
  intro a b
  induction a with
  | nil =>
    intro _ hb _
    exact hb
  | cons s rest ih =>
    intro ha hb hx
    simp only [distinctStrs, Bool.and_eq_true] at ha
    show (!(List.contains (rest ++ b) s) && distinctStrs (rest ++ b)) = true
    simp only [Bool.and_eq_true, Bool.not_eq_true']
    constructor
    · apply (contains_eq_false_iff _ _).mpr
      intro hm
      rcases List.mem_append.mp hm with h1 | h2
      · have := (contains_eq_false_iff rest s).mp (by
          have := ha.1
          cases hc : rest.contains s
          · rfl
          · rw [hc] at this; simp at this)
        exact this h1
      · exact hx s (List.mem_cons_self s rest) h2
    · exact ih ha.2 hb (fun x hxr => hx x (List.mem_cons.mpr (Or.inr hxr)))

theorem distinctStrs_append_right : ∀ (a b : List String),
    distinctStrs (a ++ b) = true → distinctStrs b = true := by
  intro a b
  induction a with
  | nil => intro h; exact h
  | cons s rest ih =>
    intro h
    simp only [List.cons_append, distinctStrs, Bool.and_eq_true] at h
    exact ih h.2

theorem at_append_inj {x y : String} (h : "@" ++ x = "@" ++ y) : x = y := by
  have hd := congrArg String.data h
  rw [String.data_append, String.data_append] at hd
  exact string_ext (List.append_cancel_left hd)

theorem distinctStrs_map_at : ∀ (ks : List String), distinctStrs ks = true →
    distinctStrs (ks.map (fun x => "@" ++ x)) = true := by
  intro ks
  induction ks with
  | nil => intro _; rfl
  | cons s rest ih =>
    intro h
    simp only [distinctStrs, Bool.and_eq_true, Bool.not_eq_true'] at h
    simp only [List.map_cons, distinctStrs, Bool.and_eq_true, Bool.not_eq_true']
    constructor
    · apply (contains_eq_false_iff _ _).mpr
      intro hm
      obtain ⟨y, hy, he⟩ := List.mem_map.mp hm
      have : s ∈ rest := by rw [at_append_inj he] at hy; exact hy
      exact (contains_eq_false_iff rest s).mp h.1 this
    · exact ih h.2

theorem jsGet_append_none (a b : List (String × JVal)) (k : String)
    (h : jsGet a k = none) : jsGet (a ++ b) k = jsGet b k := by
  induction a with
  | nil => rfl
  | cons e rest ih =>
    have h' : (if e.1 = k then some e.2 else jsGet rest k) = none := h
    by_cases he : e.1 = k
    · rw [if_pos he] at h'
      exact absurd h' (by simp)
    · rw [if_neg he] at h'
      show (if e.1 = k then some e.2 else jsGet (rest ++ b) k) = jsGet b k
      rw [if_neg he]
      exact ih h'

theorem jsGet_none_iff : ∀ (a : List (String × JVal)) (k : String),
    jsGet a k = none ↔ k ∉ a.map Prod.fst := by
  intro a k
  induction a with
  | nil => simp [jsGet]
  | cons e rest ih =>
    show (if e.1 = k then some e.2 else jsGet rest k) = none ↔ _
    by_cases he : e.1 = k
    · rw [if_pos he]
      simp [he]
    · rw [if_neg he]
      simp only [List.map_cons, List.mem_cons, not_or]
      constructor
      · intro h
        exact ⟨fun hh => he hh.symm, ih.mp h⟩
      · intro h
        exact ih.mpr h.2

theorem jsSet_append_of_none : ∀ (a b : List (String × JVal)) (k : String) (v : JVal),
    jsGet a k = none → jsSet (a ++ b) k v = a ++ jsSet b k v := by
  intro a b k v
  induction a with
  | nil => intro _; rfl
  | cons e rest ih =>
    intro h
    have h' : (if e.1 = k then some e.2 else jsGet rest k) = none := h
    by_cases he : e.1 = k
    · rw [if_pos he] at h'
      exact absurd h' (by simp)
    · rw [if_neg he] at h'
      show (if e.1 = k then (k, v) :: (rest ++ b) else e :: jsSet (rest ++ b) k v)
          = e :: (rest ++ jsSet b k v)
      rw [if_neg he, ih h']

theorem jsGet_jsSet_self : ∀ (obj : List (String × JVal)) (k : String) (v : JVal),
    jsGet (jsSet obj k v) k = some v := by
  intro obj k v
  induction obj with
  | nil =>
    show (if k = k then some v else none) = some v
    rw [if_pos rfl]
  | cons e rest ih =>
    by_cases he : e.1 = k
    · show jsGet (if e.1 = k then (k, v) :: rest else e :: jsSet rest k v) k = some v
      rw [if_pos he]
      show (if k = k then some v else jsGet rest k) = some v
      rw [if_pos rfl]
    · show jsGet (if e.1 = k then (k, v) :: rest else e :: jsSet rest k v) k = some v
      rw [if_neg he]
      show (if e.1 = k then some e.2 else jsGet (jsSet rest k v) k) = some v
      rw [if_neg he]
      exact ih

theorem jsSet_jsSet_self : ∀ (obj : List (String × JVal)) (k : String) (v w : JVal),
    jsSet (jsSet obj k v) k w = jsSet obj k w := by
  intro obj k v w
  induction obj with
  | nil =>
    show jsSet [(k, v)] k w = [(k, w)]
    show (if k = k then (k, w) :: [] else _) = [(k, w)]
    rw [if_pos rfl]
  | cons e rest ih =>
    by_cases he : e.1 = k
    · show jsSet (if e.1 = k then (k, v) :: rest else e :: jsSet rest k v) k w = _
      rw [if_pos he]
      show (if k = k then (k, w) :: rest else _) = _
      rw [if_pos rfl]
      show _ = (if e.1 = k then (k, w) :: rest else e :: jsSet rest k w)
      rw [if_pos he]
    · show jsSet (if e.1 = k then (k, v) :: rest else e :: jsSet rest k v) k w = _
      rw [if_neg he]
      show (if e.1 = k then (k, w) :: jsSet rest k v else e :: jsSet (jsSet rest k v) k w) = _
      rw [if_neg he, ih]
      show _ = (if e.1 = k then (k, w) :: rest else e :: jsSet rest k w)
      rw [if_neg he]

theorem jsSet_get_self : ∀ (obj : List (String × JVal)) (k : String) (v : JVal),
    jsGet obj k = some v → jsSet obj k v = obj := by
  intro obj k v
  induction obj with
  | nil =>
    intro h
    exact absurd h (by simp [jsGet])
  | cons e rest ih =>
    intro h
    have h' : (if e.1 = k then some e.2 else jsGet rest k) = some v := h
    by_cases he : e.1 = k
    · rw [if_pos he] at h'
      injection h' with h2
      show (if e.1 = k then (k, v) :: rest else e :: jsSet rest k v) = e :: rest
      rw [if_pos he]
      cases e with
      | mk f s =>
        simp only at he h2
        rw [← he, ← h2]
    · rw [if_neg he] at h'
      show (if e.1 = k then (k, v) :: rest else e :: jsSet rest k v) = e :: rest
      rw [if_neg he, ih h']

theorem jsSet_map_fst : ∀ (obj : List (String × JVal)) (k : String) (v : JVal),
    (jsGet obj k).isSome = true → (jsSet obj k v).map Prod.fst = obj.map Prod.fst := by
  intro obj k v
  induction obj with
  | nil =>
    intro h
    simp [jsGet] at h
  | cons e rest ih =>
    intro h
    by_cases he : e.1 = k
    · show ((if e.1 = k then (k, v) :: rest else e :: jsSet rest k v)).map Prod.fst = _
      rw [if_pos he]
      simp [he]
    · have hstep : jsGet (e :: rest) k = jsGet rest k := by
        show (if e.1 = k then some e.2 else jsGet rest k) = _
        rw [if_neg he]
      rw [hstep] at h
      show ((if e.1 = k then (k, v) :: rest else e :: jsSet rest k v)).map Prod.fst = _
      rw [if_neg he]
      simp only [List.map_cons]
      rw [ih h]

/-! ## Entry-wise form of the good-object predicates -/

theorem goodEntryVals_eq_all : ∀ kvs : List (String × JVal),
    goodEntryVals kvs = kvs.all entryOk := by
  intro kvs
  induction kvs with
  | nil => rfl
  | cons kv rest ih =>
    obtain ⟨k, v⟩ := kv
    cases v with
    | varr ws =>
      show ((!(strStartsWith k "@") && !(k == "#text")
          && decide (2 ≤ ws.length) && goodVals ws) && goodEntryVals rest) = _
      rw [List.all_cons, ih]
      rfl
    | vstr s =>
      show ((if strStartsWith k "@" then isAttrStrVal (JVal.vstr s)
          else if k == "#text" then isTextStrVal (JVal.vstr s)
          else goodVal (JVal.vstr s)) && goodEntryVals rest) = _
      rw [List.all_cons, ih]
      rfl
    | vnull =>
      show ((if strStartsWith k "@" then isAttrStrVal JVal.vnull
          else if k == "#text" then isTextStrVal JVal.vnull
          else goodVal JVal.vnull) && goodEntryVals rest) = _
      rw [List.all_cons, ih]
      rfl
    | vundef =>
      show ((if strStartsWith k "@" then isAttrStrVal JVal.vundef
          else if k == "#text" then isTextStrVal JVal.vundef
          else goodVal JVal.vundef) && goodEntryVals rest) = _
      rw [List.all_cons, ih]
      rfl
    | vobj kvs2 =>
      show ((if strStartsWith k "@" then isAttrStrVal (JVal.vobj kvs2)
          else if k == "#text" then isTextStrVal (JVal.vobj kvs2)
          else goodVal (JVal.vobj kvs2)) && goodEntryVals rest) = _
      rw [List.all_cons, ih]
      rfl

theorem goodEntryVals_append (a b : List (String × JVal)) :
    goodEntryVals (a ++ b) = (goodEntryVals a && goodEntryVals b) := by
  rw [goodEntryVals_eq_all, goodEntryVals_eq_all, goodEntryVals_eq_all, List.all_append]

theorem goodVals_eq_all : ∀ vs : List JVal, goodVals vs = vs.all goodVal := by
  intro vs
  induction vs with
  | nil => rfl
  | cons v rest ih =>
    show (goodVal v && goodVals rest) = _
    rw [List.all_cons, ih]

theorem goodVals_append (a b : List JVal) :
    goodVals (a ++ b) = (goodVals a && goodVals b) := by
  rw [goodVals_eq_all, goodVals_eq_all, goodVals_eq_all, List.all_append]

theorem goodEntryVals_jsSet : ∀ (obj : List (String × JVal)) (k : String) (v : JVal),
    entryOk (k, v) = true → goodEntryVals obj = true →
    goodEntryVals (jsSet obj k v) = true := by
  intro obj k v hv
  rw [goodEntryVals_eq_all, goodEntryVals_eq_all]
  induction obj with
  | nil =>
    intro _
    show List.all [(k, v)] entryOk = true
    simp [hv]
  | cons e rest ih =>
    intro h
    simp only [List.all_cons, Bool.and_eq_true] at h
    by_cases he : e.1 = k
    · show ((if e.1 = k then (k, v) :: rest else e :: jsSet rest k v)).all entryOk = true
      rw [if_pos he]
      simp only [List.all_cons, Bool.and_eq_true]
      exact ⟨hv, h.2⟩
    · show ((if e.1 = k then (k, v) :: rest else e :: jsSet rest k v)).all entryOk = true
      rw [if_neg he]
      simp only [List.all_cons, Bool.and_eq_true]
      exact ⟨h.1, ih h.2⟩

theorem jsGet_entryOk : ∀ (obj : List (String × JVal)) (k : String) (u : JVal),
    goodEntryVals obj = true → jsGet obj k = some u → entryOk (k, u) = true := by
  intro obj k u
  rw [goodEntryVals_eq_all]
  induction obj with
  | nil =>
    intro _ h
    exact absurd h (by simp [jsGet])
  | cons e rest ih =>
    intro hall h
    simp only [List.all_cons, Bool.and_eq_true] at hall
    have h' : (if e.1 = k then some e.2 else jsGet rest k) = some u := h
    by_cases he : e.1 = k
    · rw [if_pos he] at h'
      injection h' with h2
      rw [← he, ← h2, Prod.mk.eta]
      exact hall.1
    · rw [if_neg he] at h'
      exact ih hall.2 h'

/-! ## Good-value facts -/

theorem goodStr_ne_empty {s : String} (h : goodStr s = true) : (s == "") = false := by
  simp only [goodStr, Bool.and_eq_true, Bool.not_eq_true'] at h
  exact h.2

theorem goodStr_trim {s : String} (h : goodStr s = true) : strTrim s = s := by
  simp only [goodStr, Bool.and_eq_true] at h
  exact eq_of_beq h.1.2

theorem goodVal_truthy {v : JVal} (h : goodVal v = true) :
    jsTruthy v = true ∧ isArrVal v = false := by
  cases v with
  | vstr s =>
    refine ⟨?_, rfl⟩
    show (s != "") = true
    have hne : (s == "") = false := goodStr_ne_empty h
    simp [bne, hne]
  | vobj kvs => exact ⟨rfl, rfl⟩
  | vnull => exact absurd h (by decide)
  | vundef => exact absurd h (by decide)
  | varr xs => exact absurd h (by simp [goodVal])

theorem goodName_not_at {n : String} (h : goodName n = true) :
    strStartsWith n "@" = false := by
  obtain ⟨c0, cr, hnd, hcs, hcr, hall⟩ := goodName_data h
  show isPrefixList "@".data n.data = false
  rw [hnd]
  show ('@' == c0 && isPrefixList [] cr) = false
  have hne : ('@' == c0) = false := by
    cases hc : ('@' == c0)
    · rfl
    · exfalso
      have : '@' = c0 := by simpa using hc
      rw [← this] at hcs
      exact absurd hcs (by decide)
  simp [hne]

theorem goodName_ne_text {n : String} (h : goodName n = true) : (n == "#text") = false := by
  cases hc : (n == "#text")
  · rfl
  · exfalso
    have he : n = "#text" := by simpa using hc
    rw [he] at h
    exact absurd h (by decide)

theorem at_ne_text {k : String} (h : strStartsWith k "@" = true) : (k == "#text") = false := by
  cases hc : (k == "#text")
  · rfl
  · exfalso
    have he : k = "#text" := by simpa using hc
    rw [he] at h
    exact absurd h (by decide)

theorem strStartsWith_at (x : String) : strStartsWith ("@" ++ x) "@" = true := by
  show isPrefixList "@".data ("@" ++ x).data = true
  rw [String.data_append]
  exact isPrefixList_self_append "@".data x.data

theorem strDrop_at (x : String) : strDrop ("@" ++ x) 1 = x := by
  apply string_ext
  show (("@" ++ x).data.drop 1) = x.data
  rw [String.data_append]
  rfl

theorem at_decomp {k : String} (h : strStartsWith k "@" = true) :
    "@" ++ strDrop k 1 = k := by
  apply string_ext
  rw [String.data_append]
  cases hd : k.data with
  | nil =>
    exfalso
    have : isPrefixList "@".data k.data = true := h
    rw [hd] at this
    exact absurd this (by decide)
  | cons c cs =>
    have hpre : isPrefixList "@".data k.data = true := h
    rw [hd] at hpre
    have hc : ('@' == c) = true := by
      have : ('@' == c && isPrefixList [] cs) = true := hpre
      simp only [Bool.and_eq_true] at this
      exact this.1
    have hc2 : c = '@' := (eq_of_beq hc).symm
    show "@".data ++ (String.mk (k.data.drop 1)).data = c :: cs
    rw [hd]
    show "@".data ++ cs = c :: cs
    rw [hc2]
    rfl

theorem entryOk_of_goodVal {k : String} {v : JVal}
    (hk : goodName k = true) (hv : goodVal v = true) : entryOk (k, v) = true := by
  have hat := goodName_not_at hk
  have htx := goodName_ne_text hk
  cases v with
  | varr xs => exact absurd hv (by simp [goodVal])
  | vstr s =>
    show (if strStartsWith k "@" then _ else if (k == "#text") = true then _ else _) = true
    rw [if_neg (by rw [hat]; exact Bool.false_ne_true), if_neg (by rw [htx]; exact Bool.false_ne_true)]
    exact hv
  | vnull =>
    show (if strStartsWith k "@" then _ else if (k == "#text") = true then _ else _) = true
    rw [if_neg (by rw [hat]; exact Bool.false_ne_true), if_neg (by rw [htx]; exact Bool.false_ne_true)]
    exact hv
  | vundef =>
    show (if strStartsWith k "@" then _ else if (k == "#text") = true then _ else _) = true
    rw [if_neg (by rw [hat]; exact Bool.false_ne_true), if_neg (by rw [htx]; exact Bool.false_ne_true)]
    exact hv
  | vobj kvs =>
    show (if strStartsWith k "@" then _ else if (k == "#text") = true then _ else _) = true
    rw [if_neg (by rw [hat]; exact Bool.false_ne_true), if_neg (by rw [htx]; exact Bool.false_ne_true)]
    exact hv

theorem entryOk_goodVal {k : String} {v : JVal}
    (hk1 : strStartsWith k "@" = false) (hk2 : (k == "#text") = false)
    (h : entryOk (k, v) = true) :
    (∀ ws, v = JVal.varr ws → 2 ≤ ws.length ∧ goodVals ws = true) ∧
    (isArrVal v = false → goodVal v = true) := by
  cases v with
  | varr xs =>
    refine ⟨?_, ?_⟩
    · intro ws hw
      injection hw with hw2
      subst hw2
      have h' : (!(strStartsWith k "@") && !(k == "#text")
          && decide (2 ≤ xs.length) && goodVals xs) = true := h
      simp only [Bool.and_eq_true, decide_eq_true_eq] at h'
      exact ⟨h'.1.2, h'.2⟩
    · intro ha
      exact absurd ha (by simp [isArrVal])
  | vstr s =>
    refine ⟨(fun ws hw => nomatch hw), fun _ => ?_⟩
    have h' : (if strStartsWith k "@" then isAttrStrVal (JVal.vstr s)
        else if (k == "#text") = true then isTextStrVal (JVal.vstr s)
        else goodVal (JVal.vstr s)) = true := h
    rw [if_neg (by rw [hk1]; exact Bool.false_ne_true),
      if_neg (by rw [hk2]; exact Bool.false_ne_true)] at h'
    exact h'
  | vnull =>
    refine ⟨(fun ws hw => nomatch hw), fun _ => ?_⟩
    have h' : (if strStartsWith k "@" then isAttrStrVal JVal.vnull
        else if (k == "#text") = true then isTextStrVal JVal.vnull
        else goodVal JVal.vnull) = true := h
    rw [if_neg (by rw [hk1]; exact Bool.false_ne_true),
      if_neg (by rw [hk2]; exact Bool.false_ne_true)] at h'
    exact h'
  | vundef =>
    refine ⟨(fun ws hw => nomatch hw), fun _ => ?_⟩
    have h' : (if strStartsWith k "@" then isAttrStrVal JVal.vundef
        else if (k == "#text") = true then isTextStrVal JVal.vundef
        else goodVal JVal.vundef) = true := h
    rw [if_neg (by rw [hk1]; exact Bool.false_ne_true),
      if_neg (by rw [hk2]; exact Bool.false_ne_true)] at h'
    exact h'
  | vobj kvs =>
    refine ⟨(fun ws hw => nomatch hw), fun _ => ?_⟩
    have h' : (if strStartsWith k "@" then isAttrStrVal (JVal.vobj kvs)
        else if (k == "#text") = true then isTextStrVal (JVal.vobj kvs)
        else goodVal (JVal.vobj kvs)) = true := h
    rw [if_neg (by rw [hk1]; exact Bool.false_ne_true),
      if_neg (by rw [hk2]; exact Bool.false_ne_true)] at h'
    exact h'

theorem jsGet_atmap_none : ∀ (obj0 : List (String × JVal)),
    (∀ kv ∈ obj0, strStartsWith kv.1 "@" = true) →
    ∀ s : String, strStartsWith s "@" = false → jsGet obj0 s = none := by
  intro obj0
  induction obj0 with
  | nil => intro _ s _; rfl
  | cons e rest ih =>
    intro hall s hs
    show (if e.1 = s then some e.2 else jsGet rest s) = none
    rw [if_neg ?_, ih (fun kv hkv => hall kv (List.mem_cons.mpr (Or.inr hkv))) s hs]
    intro he
    have := hall e (List.mem_cons_self e rest)
    rw [he, hs] at this
    exact Bool.false_ne_true this

/-! ## addChild and foldChildren stepping lemmas -/

theorem addChild_of_none (obj : List (String × JVal)) (n : String) (v : JVal)
    (h : jsGet obj n = none) : addChild obj n v = obj ++ [(n, v)] := by
  unfold addChild
  rw [h]

theorem addChild_of_single (obj : List (String × JVal)) (n : String) (u v : JVal)
    (h : jsGet obj n = some u) (ht : jsTruthy u = true) (ha : isArrVal u = false) :
    addChild obj n v = jsSet obj n (JVal.varr [u, v]) := by
  unfold addChild
  rw [h]
  dsimp only
  rw [if_pos ht]
  cases u with
  | varr xs => exact absurd ha (by simp [isArrVal])
  | vstr s => rfl
  | vnull => rfl
  | vundef => rfl
  | vobj kvs => rfl

theorem addChild_of_arr (obj : List (String × JVal)) (n : String) (xs : List JVal) (v : JVal)
    (h : jsGet obj n = some (JVal.varr xs)) :
    addChild obj n v = jsSet obj n (JVal.varr (xs ++ [v])) := by
  unfold addChild
  rw [h]
  rfl

theorem foldChildren_elem (obj : List (String × JVal)) (n : String)
    (a : List (String × String)) (c : List XNode) (rest : List XNode) :
    foldChildren obj (XNode.elem n a c :: rest)
      = foldChildren (addChild obj n (xmlNodeToJson (XNode.elem n a c))) rest := rfl

theorem foldChildren_ws (obj : List (String × JVal)) (t : String) (rest : List XNode)
    (h : strTrim t = "") :
    foldChildren obj (XNode.text t :: rest) = foldChildren obj rest := by
  show (if strTrim t = "" then foldChildren obj rest
      else foldChildren (addText obj (strTrim t)) rest) = _
  rw [if_pos h]

theorem forall₂_mem_left {α β : Type} {R : α → β → Prop} :
    ∀ {as : List α} {bs : List β}, List.Forall₂ R as bs →
    ∀ x ∈ as, ∃ y ∈ bs, R x y := by
  intro as bs h
  induction h with
  | nil => intro x hx; exact absurd hx (by simp)
  | cons hrel hF2 ih =>
    rename_i a b as2 bs2
    intro x hx
    rcases List.mem_cons.mp hx with he | hm
    · exact ⟨b, List.mem_cons_self b bs2, he ▸ hrel⟩
    · obtain ⟨y, hy, hr⟩ := ih x hm
      exact ⟨y, List.mem_cons.mpr (Or.inr hy), hr⟩

theorem fold_push (k : String) : ∀ (nodes : List XNode) (ws : List JVal),
    List.Forall₂ (fun nd w =>
      (∃ aa cc, nd = XNode.elem k aa cc) ∧ xmlNodeToJson nd = w) nodes ws →
    ∀ (obj : List (String × JVal)) (acc : List JVal) (more : List XNode),
    jsGet obj k = some (JVal.varr acc) →
    foldChildren obj (nodes ++ more)
      = foldChildren (jsSet obj k (JVal.varr (acc ++ ws))) more := by
  intro nodes ws hF
  induction hF with
  | nil =>
    intro obj acc more hget
    rw [List.append_nil, jsSet_get_self obj k _ hget]
    rfl
  | cons hrel hF2 ih =>
    rename_i nd w nodes2 ws2
    intro obj acc more hget
    obtain ⟨⟨aa, cc, hnd⟩, hconv⟩ := hrel
    rw [hnd] at hconv
    rw [List.cons_append, hnd, foldChildren_elem, hconv,
      addChild_of_arr obj k acc w hget,
      ih (jsSet obj k (JVal.varr (acc ++ [w]))) (acc ++ [w]) more (jsGet_jsSet_self obj k _),
      jsSet_jsSet_self, List.append_assoc]
    rfl

theorem fold_start (k : String) (w1 w2 : JVal) (wr : List JVal) (nodes : List XNode)
    (hF : List.Forall₂ (fun nd w =>
      (∃ aa cc, nd = XNode.elem k aa cc) ∧ xmlNodeToJson nd = w) nodes (w1 :: w2 :: wr))
    (htr : ∀ w ∈ w1 :: w2 :: wr, jsTruthy w = true ∧ isArrVal w = false)
    (obj : List (String × JVal)) (more : List XNode)
    (hget : jsGet obj k = none) :
    foldChildren obj (nodes ++ more)
      = foldChildren (obj ++ [(k, JVal.varr (w1 :: w2 :: wr))]) more := by
  cases hF with
  | cons hrel1 hF1 =>
    rename_i nd1 nodes1
    cases hF1 with
    | cons hrel2 hF2 =>
      rename_i nd2 nodes2
      obtain ⟨⟨a1, c1, hnd1⟩, hconv1⟩ := hrel1
      obtain ⟨⟨a2, c2, hnd2⟩, hconv2⟩ := hrel2
      rw [hnd1] at hconv1
      rw [hnd2] at hconv2
      rw [List.cons_append, hnd1, foldChildren_elem, hconv1,
        addChild_of_none obj k w1 hget]
      have hget1 : jsGet (obj ++ [(k, w1)]) k = some w1 := by
        rw [jsGet_append_none obj [(k, w1)] k hget]
        show (if k = k then some w1 else none) = some w1
        rw [if_pos rfl]
      rw [List.cons_append, hnd2, foldChildren_elem, hconv2,
        addChild_of_single (obj ++ [(k, w1)]) k w1 w2 hget1
          (htr w1 (by simp)).1 (htr w1 (by simp)).2]
      have hset : jsSet (obj ++ [(k, w1)]) k (JVal.varr [w1, w2])
          = obj ++ [(k, JVal.varr [w1, w2])] := by
        rw [jsSet_append_of_none obj [(k, w1)] k _ hget]
        show obj ++ (if k = k then (k, JVal.varr [w1, w2]) :: [] else _) = _
        rw [if_pos rfl]
      rw [hset]
      have hget2 : jsGet (obj ++ [(k, JVal.varr [w1, w2])]) k
          = some (JVal.varr [w1, w2]) := by
        rw [jsGet_append_none obj _ k hget]
        show (if k = k then some (JVal.varr [w1, w2]) else none) = _
        rw [if_pos rfl]
      rw [fold_push k nodes2 wr hF2 _ [w1, w2] more hget2,
        jsSet_append_of_none obj _ k _ hget]
      show foldChildren (obj ++ (if k = k then (k, JVal.varr ([w1, w2] ++ wr)) :: [] else _))
          more = _
      rw [if_pos rfl]
      rfl

/-! ## Trim idempotence and membership -/

theorem trimChars_decomp (l : List Char) :
    ∃ t : List Char, l.dropWhile wsChar = trimChars l ++ t.reverse
      ∧ trimChars l = ((l.dropWhile wsChar).reverse.dropWhile wsChar).reverse
      ∧ t ++ (l.dropWhile wsChar).reverse.dropWhile wsChar = (l.dropWhile wsChar).reverse := by
  obtain ⟨t, ht⟩ := List.dropWhile_suffix (l := (l.dropWhile wsChar).reverse) wsChar
  refine ⟨t, ?_, rfl, ht⟩
  have := congrArg List.reverse ht
  rw [List.reverse_append, List.reverse_reverse] at this
  exact this.symm

theorem trimChars_head_not_ws (l : List Char) (c : Char)
    (h : (trimChars l).head? = some c) : wsChar c = false := by
  obtain ⟨t, ht1, _, _⟩ := trimChars_decomp l
  have hne : trimChars l ≠ [] := by
    intro he
    rw [he] at h
    exact Option.noConfusion h
  have hh : (l.dropWhile wsChar).head? = some c := by
    rw [ht1, head?_append_of_ne_nil (trimChars l) t.reverse hne]
    exact h
  exact head?_dropWhile_not l c hh

theorem trimChars_getLast_not_ws (l : List Char) (c : Char)
    (h : (trimChars l).getLast? = some c) : wsChar c = false := by
  have h2 : ((l.dropWhile wsChar).reverse.dropWhile wsChar).head? = some c := by
    rw [← List.getLast?_reverse]
    exact h
  exact head?_dropWhile_not (l.dropWhile wsChar).reverse c h2

theorem trimChars_idem (l : List Char) : trimChars (trimChars l) = trimChars l :=
  trimChars_eq_self (trimChars l) (trimChars_head_not_ws l) (trimChars_getLast_not_ws l)

theorem strTrim_idem (s : String) : strTrim (strTrim s) = strTrim s := by
  apply string_ext
  show trimChars (trimChars s.data) = trimChars s.data
  exact trimChars_idem s.data

theorem mem_trimChars (l : List Char) (c : Char) (h : c ∈ trimChars l) : c ∈ l := by
  have h1 : c ∈ (l.dropWhile wsChar).reverse.dropWhile wsChar := List.mem_reverse.mp h
  have h2 : c ∈ (l.dropWhile wsChar).reverse := (List.dropWhile_sublist wsChar).subset h1
  have h3 : c ∈ l.dropWhile wsChar := List.mem_reverse.mp h2
  exact (List.dropWhile_sublist wsChar).subset h3

theorem goodText_trim (t : String) (h : goodText t = true) : goodText (strTrim t) = true := by
  simp only [goodText, List.all_eq_true] at h ⊢
  intro c hc
  exact h c (mem_trimChars t.data c hc)

theorem goodStr_of_trim (t : String) (hgt : goodText t = true)
    (hne : ¬(strTrim t = "")) : goodStr (strTrim t) = true := by
  simp only [goodStr, Bool.and_eq_true, Bool.not_eq_true']
  refine ⟨⟨goodText_trim t hgt, ?_⟩, ?_⟩
  · rw [strTrim_idem]
    exact beq_self_eq_true (strTrim t)
  · cases hb : (strTrim t == "")
    · rfl
    · exact absurd (eq_of_beq hb) hne

/-! ## Attribute and child rendering, related to the printed forms -/

theorem str_append_assoc (a b c : String) : (a ++ b) ++ c = a ++ (b ++ c) := by
  apply string_ext
  simp [String.data_append, List.append_assoc]

theorem attrPairs_cons (kv : String × JVal) (rest : List (String × JVal)) :
    attrPairs (kv :: rest)
      = if strStartsWith kv.1 "@" then (strDrop kv.1 1, jsToString kv.2) :: attrPairs rest
        else attrPairs rest := by
  show List.filterMap _ (kv :: rest) = _
  rw [List.filterMap_cons]
  cases hat : strStartsWith kv.1 "@"
  · simp [hat]
    rfl
  · simp [hat]
    rfl

theorem attrsOfEntries_eq : ∀ kvs : List (String × JVal),
    attrsOfEntries kvs = attrsStr (attrPairs kvs) := by
  intro kvs
  induction kvs with
  | nil => rfl
  | cons kv rest ih =>
    show entryAttrStr kv ++ attrsOfEntries rest = attrsStr (attrPairs (kv :: rest))
    rw [attrPairs_cons]
    by_cases hat : strStartsWith kv.1 "@" = true
    · have h1 : entryAttrStr kv
          = " " ++ strDrop kv.1 1 ++ "=\"" ++ jsToString kv.2 ++ "\"" := by
        unfold entryAttrStr
        rw [if_pos hat]
      rw [h1, if_pos hat, ih]
      rfl
    · have h1 : entryAttrStr kv = "" := by
        unfold entryAttrStr
        rw [if_neg hat]
      rw [h1, str_empty_append, if_neg hat, ih]

theorem attrPairs_skip : ∀ (kvs : List (String × JVal)),
    (∀ kv ∈ kvs, strStartsWith kv.1 "@" = false) → attrPairs kvs = [] := by
  intro kvs
  induction kvs with
  | nil => intro _; rfl
  | cons kv rest ih =>
    intro h
    rw [attrPairs_cons,
      if_neg (by rw [h kv (List.mem_cons_self kv rest)]; exact Bool.false_ne_true)]
    exact ih (fun x hx => h x (List.mem_cons.mpr (Or.inr hx)))

theorem attrPairs_append : ∀ (a b : List (String × JVal)),
    attrPairs (a ++ b) = attrPairs a ++ attrPairs b := by
  intro a b
  induction a with
  | nil => rfl
  | cons kv rest ih =>
    rw [List.cons_append, attrPairs_cons, attrPairs_cons]
    by_cases hat : strStartsWith kv.1 "@" = true
    · rw [if_pos hat, if_pos hat, ih]
      rfl
    · rw [if_neg hat, if_neg hat, ih]

theorem attrPairs_back : ∀ (a : List (String × JVal)),
    (∀ kv ∈ a, strStartsWith kv.1 "@" = true ∧ ∃ s, kv.2 = JVal.vstr s) →
    (attrPairs a).map (fun p => ("@" ++ p.1, JVal.vstr p.2)) = a := by
  intro a
  induction a with
  | nil => intro _; rfl
  | cons kv rest ih =>
    intro h
    obtain ⟨hat, s, hs⟩ := h kv (List.mem_cons_self kv rest)
    rw [attrPairs_cons, if_pos hat, List.map_cons,
      ih (fun x hx => h x (List.mem_cons.mpr (Or.inr hx)))]
    show ("@" ++ strDrop kv.1 1, JVal.vstr (jsToString kv.2)) :: rest = kv :: rest
    rw [at_decomp hat, hs]
    show (kv.1, JVal.vstr s) :: rest = kv :: rest
    rw [← hs, Prod.mk.eta]

theorem attrPairs_good : ∀ (kvs : List (String × JVal)),
    (∀ kv ∈ kvs, strStartsWith kv.1 "@" = true →
      goodName (strDrop kv.1 1) = true ∧ ∃ s, kv.2 = JVal.vstr s ∧ goodAttrVal s = true) →
    ∀ a ∈ attrPairs kvs, goodName a.1 = true ∧ ∀ ch ∈ a.2.data, (ch == '"') = false := by
  intro kvs
  induction kvs with
  | nil => intro _ a ha; exact absurd ha (by simp [attrPairs])
  | cons kv rest ih =>
    intro h a ha
    rw [attrPairs_cons] at ha
    by_cases hat : strStartsWith kv.1 "@" = true
    · rw [if_pos hat] at ha
      rcases List.mem_cons.mp ha with he | hm
      · obtain ⟨hgn, s, hs, hgv⟩ := h kv (List.mem_cons_self kv rest) hat
        subst he
        refine ⟨hgn, ?_⟩
        intro ch hch
        show (ch == '"') = false
        have hch2 : ch ∈ s.data := by
          have : jsToString kv.2 = s := by rw [hs]; rfl
          rw [this] at hch
          exact hch
        simp only [goodAttrVal, List.all_eq_true] at hgv
        have := hgv ch hch2
        simp only [Bool.and_eq_true, Bool.not_eq_true'] at this
        exact this.1.1
      · exact ih (fun x hx => h x (List.mem_cons.mpr (Or.inr hx))) a hm
    · rw [if_neg hat] at ha
      exact ih (fun x hx => h x (List.mem_cons.mpr (Or.inr hx))) a ha

theorem childrenStr_cons (k : String) (v : JVal) (rest : List (String × JVal)) :
    childrenStr ((k, v) :: rest)
      = (if !(strStartsWith k "@") && k != "#text" then toXml v k else "")
        ++ childrenStr rest := rfl

theorem childrenStr_append : ∀ (a b : List (String × JVal)),
    childrenStr (a ++ b) = childrenStr a ++ childrenStr b := by
  intro a b
  induction a with
  | nil =>
    show childrenStr b = "" ++ childrenStr b
    rw [str_empty_append]
  | cons kv rest ih =>
    obtain ⟨k, v⟩ := kv
    rw [List.cons_append, childrenStr_cons, childrenStr_cons, ih, str_append_assoc]

theorem childrenStr_all_skip : ∀ (kvs : List (String × JVal)),
    (∀ kv ∈ kvs, strStartsWith kv.1 "@" = true ∨ (kv.1 == "#text") = true) →
    childrenStr kvs = "" := by
  intro kvs
  induction kvs with
  | nil => intro _; rfl
  | cons kv rest ih =>
    intro h
    obtain ⟨k, v⟩ := kv
    rw [childrenStr_cons]
    have hcond : (!(strStartsWith k "@") && k != "#text") = false := by
      rcases h (k, v) (List.mem_cons_self _ rest) with h1 | h1
      · show (!(strStartsWith k "@") && _) = false
        rw [h1]
        rfl
      · show (_ && !(k == "#text")) = false
        rw [h1]
        simp
    rw [if_neg (by rw [hcond]; exact Bool.false_ne_true), str_empty_append]
    exact ih (fun x hx => h x (List.mem_cons.mpr (Or.inr hx)))

/-! ## Data shapes of the printed forms -/

theorem elem_print_data (n attrsS body : String) (rest : List Char) :
    ("<" ++ n ++ attrsS ++ ">" ++ body ++ "</" ++ n ++ ">").data ++ rest
      = '<' :: (n.data ++ (attrsS.data ++ ('>' :: (body.data
          ++ ('<' :: '/' :: (n.data ++ '>' :: rest)))))) := by
  simp only [String.data_append, List.append_assoc]
  rfl

theorem selfclose_print_data (n attrsS : String) (rest : List Char) :
    ("<" ++ n ++ attrsS ++ " />").data ++ rest
      = '<' :: (n.data ++ (attrsS.data ++ (' ' :: '/' :: '>' :: rest))) := by
  simp only [String.data_append, List.append_assoc]
  rfl

theorem textelem_print_data (n body : String) (rest : List Char) :
    ("<" ++ n ++ ">" ++ body ++ "</" ++ n ++ ">").data ++ rest
      = '<' :: (n.data ++ ((attrsStr []).data ++ ('>' :: (body.data
          ++ ('<' :: '/' :: (n.data ++ '>' :: rest)))))) := by
  simp only [String.data_append, List.append_assoc]
  rfl

theorem toXml_data_shape (v : JVal) (n : String) (hv : goodVal v = true) :
    ∃ mid : List Char, (toXml v n).data = '<' :: (mid ++ ['>']) := by
  cases v with
  | vnull => exact absurd hv (by decide)
  | vundef => exact absurd hv (by decide)
  | varr xs => exact absurd hv (by simp [goodVal])
  | vstr s =>
    refine ⟨n.data ++ ['>'] ++ s.data ++ ['<', '/'] ++ n.data, ?_⟩
    show ("<" ++ n ++ ">" ++ s ++ "</" ++ n ++ ">").data = _
    simp only [String.data_append, List.append_assoc]
    rfl
  | vobj kvs =>
    show ∃ mid, (toXml (JVal.vobj kvs) n).data = _
    dsimp only [toXml]
    split
    · refine ⟨n.data ++ (attrsOfEntries kvs).data ++ ['>']
        ++ (jsToString (textValOf kvs)).data ++ ['<', '/'] ++ n.data, ?_⟩
      simp only [String.data_append, List.append_assoc]
      rfl
    · split
      · refine ⟨n.data ++ (attrsOfEntries kvs).data ++ [' ', '/'], ?_⟩
        simp only [String.data_append, List.append_assoc]
        rfl
      · refine ⟨n.data ++ (attrsOfEntries kvs).data ++ ['>']
          ++ (childrenStr kvs).data ++ ['<', '/'] ++ n.data, ?_⟩
        simp only [String.data_append, List.append_assoc]
        rfl

/-! ## Size bookkeeping -/

theorem sizeV_pos : ∀ v : JVal, 1 ≤ sizeV v := by
  intro v
  cases v with
  | vstr s => exact Nat.le_refl 1
  | vnull => exact Nat.le_refl 1
  | vundef => exact Nat.le_refl 1
  | varr xs => show 1 ≤ 1 + sizeVList xs; omega
  | vobj kvs => show 1 ≤ 1 + sizeVEntries kvs; omega

theorem sizeVEntries_append : ∀ a b : List (String × JVal),
    sizeVEntries (a ++ b) = sizeVEntries a + sizeVEntries b := by
  intro a b
  induction a with
  | nil =>
    show sizeVEntries b = 0 + sizeVEntries b
    omega
  | cons kv rest ih =>
    obtain ⟨k, v⟩ := kv
    show sizeV v + sizeVEntries (rest ++ b) = sizeV v + sizeVEntries rest + sizeVEntries b
    rw [ih]
    omega

theorem sizeXs_mem_le : ∀ (l : List XNode) (x : XNode), x ∈ l → sizeX x ≤ sizeXs l := by
  intro l
  induction l with
  | nil => intro x hx; exact absurd hx (by simp)
  | cons y rest ih =>
    intro x hx
    have hstep : sizeXs (y :: rest) = sizeX y + sizeXs rest := rfl
    rcases List.mem_cons.mp hx with he | hm
    · rw [he, hstep]; omega
    · have := ih x hm
      rw [hstep]
      omega

theorem goodKids_mem : ∀ (l : List XNode), goodKids l = true → ∀ x ∈ l,
    (∃ t, x = XNode.text t ∧ (strTrim t == "") = true) ∨ goodElem x = true := by
  intro l
  induction l with
  | nil => intro _ x hx; exact absurd hx (by simp)
  | cons y rest ih =>
    intro h x hx
    cases y with
    | text t =>
      have h' : ((strTrim t == "") && goodKids rest) = true := h
      simp only [Bool.and_eq_true] at h'
      rcases List.mem_cons.mp hx with he | hm
      · subst he
        exact Or.inl ⟨t, rfl, h'.1⟩
      · exact ih h'.2 x hm
    | elem nm aa cc =>
      have h' : (goodElem (XNode.elem nm aa cc) && goodKids rest) = true := h
      simp only [Bool.and_eq_true] at h'
      rcases List.mem_cons.mp hx with he | hm
      · subst he
        exact Or.inr h'.1
      · exact ih h'.2 x hm

theorem goodElem_parts {n : String} {attrs : List (String × String)} {children : List XNode}
    (h : goodElem (XNode.elem n attrs children) = true) :
    goodName n = true ∧ attrsOk attrs = true ∧ distinctStrs (attrs.map Prod.fst) = true := by
  cases children with
  | nil =>
    have h' : (goodName n && attrsOk attrs && distinctStrs (attrs.map Prod.fst)
        && true) = true := h
    simp only [Bool.and_eq_true] at h'
    exact ⟨h'.1.1.1, h'.1.1.2, h'.1.2⟩
  | cons x rest =>
    cases x with
    | text t =>
      cases rest with
      | nil =>
        have h' : (goodName n && attrsOk attrs && distinctStrs (attrs.map Prod.fst)
            && (goodText t && (!(strTrim t == "") || !attrs.isEmpty))) = true := h
        simp only [Bool.and_eq_true] at h'
        exact ⟨h'.1.1.1, h'.1.1.2, h'.1.2⟩
      | cons y rest2 =>
        have h' : (goodName n && attrsOk attrs && distinctStrs (attrs.map Prod.fst)
            && goodKids (XNode.text t :: y :: rest2)) = true := h
        simp only [Bool.and_eq_true] at h'
        exact ⟨h'.1.1.1, h'.1.1.2, h'.1.2⟩
    | elem nm aa cc =>
      have h' : (goodName n && attrsOk attrs && distinctStrs (attrs.map Prod.fst)
          && goodKids (XNode.elem nm aa cc :: rest)) = true := h
      simp only [Bool.and_eq_true] at h'
      exact ⟨h'.1.1.1, h'.1.1.2, h'.1.2⟩

/-! ## Branch-level reduction lemmas for the converters -/

theorem toXml_obj_text (kvs : List (String × JVal)) (n : String)
    (htk : kvs.any (fun kv => kv.1 == "#text") = true)
    (hch : childrenStr kvs = "") :
    toXml (JVal.vobj kvs) n
      = "<" ++ n ++ attrsOfEntries kvs ++ ">" ++ jsToString (textValOf kvs)
        ++ "</" ++ n ++ ">" := by
  dsimp only [toXml]
  rw [htk, hch]
  simp

theorem toXml_obj_selfclose (kvs : List (String × JVal)) (n : String)
    (htk : kvs.any (fun kv => kv.1 == "#text") = false)
    (hch : childrenStr kvs = "") :
    toXml (JVal.vobj kvs) n = "<" ++ n ++ attrsOfEntries kvs ++ " />" := by
  dsimp only [toXml]
  rw [htk, hch]
  simp

theorem toXml_obj_children (kvs : List (String × JVal)) (n : String)
    (hch : (childrenStr kvs == "") = false) :
    toXml (JVal.vobj kvs) n
      = "<" ++ n ++ attrsOfEntries kvs ++ ">" ++ childrenStr kvs ++ "</" ++ n ++ ">" := by
  dsimp only [toXml]
  rw [hch]
  simp

theorem xmlNodeToJson_nil (n : String) (attrs : List (String × String)) :
    xmlNodeToJson (XNode.elem n attrs [])
      = JVal.vobj (attrs.map (fun a => ("@" ++ a.1, JVal.vstr a.2))) := rfl

theorem xmlNodeToJson_single_text (n : String) (attrs : List (String × String)) (t : String) :
    xmlNodeToJson (XNode.elem n attrs [XNode.text t])
      = (if attrs.isEmpty then JVal.vstr (strTrim t)
         else if strTrim t = ""
           then JVal.vobj (attrs.map (fun a => ("@" ++ a.1, JVal.vstr a.2)))
           else JVal.vobj (attrs.map (fun a => ("@" ++ a.1, JVal.vstr a.2))
               ++ [("#text", JVal.vstr (strTrim t))])) := rfl

theorem xmlNodeToJson_elem_cons (n : String) (attrs : List (String × String))
    (nm : String) (aa : List (String × String)) (cc : List XNode) (rest : List XNode) :
    xmlNodeToJson (XNode.elem n attrs (XNode.elem nm aa cc :: rest))
      = JVal.vobj (foldChildren (attrs.map (fun a => ("@" ++ a.1, JVal.vstr a.2)))
          (XNode.elem nm aa cc :: rest)) := rfl

theorem goodStr_facts {s : String} (h : goodStr s = true) :
    s.data ≠ [] ∧ (∀ c ∈ s.data, (c == '<') = false) := by
  have h' : ((goodText s && (strTrim s == s)) && !(s == "")) = true := h
  simp only [Bool.and_eq_true, Bool.not_eq_true'] at h'
  refine ⟨?_, ?_⟩
  · intro hd
    have hse : s = "" := string_ext (by rw [hd])
    rw [hse] at h'
    exact absurd h'.2 (by decide)
  · intro c hc
    have hgt := h'.1.1
    simp only [goodText, List.all_eq_true] at hgt
    have := hgt c hc
    simp only [Bool.and_eq_true, Bool.not_eq_true'] at this
    exact this.1

/-! ## The print-then-parse round trip on good values -/

theorem mem_takeWhile_pred {α : Type} (p : α → Bool) :
    ∀ (l : List α) (x : α), x ∈ l.takeWhile p → p x = true := by
  intro l
  induction l with
  | nil => intro x hx; exact absurd hx (by simp)
  | cons a rest ih =>
    intro x hx
    by_cases hp : p a = true
    · rw [List.takeWhile_cons_of_pos hp] at hx
      rcases List.mem_cons.mp hx with he | hm
      · rw [he]
        exact hp
      · exact ih x hm
    · rw [List.takeWhile_cons_of_neg hp] at hx
      exact absurd hx (by simp)

theorem single_of_allsame_distinct (R : List (String × JVal)) (kv0 : String × JVal)
    (hmem : kv0 ∈ R)
    (hall : ∀ kv ∈ R, (kv.1 == "#text") = true)
    (hdisR : distinctStrs (R.map Prod.fst) = true) : R = [kv0] := by
  cases R with
  | nil => exact absurd hmem (by simp)
  | cons kv1 rtail =>
    cases rtail with
    | nil =>
      have h3 : kv0 = kv1 := by simpa using hmem
      rw [h3]
    | cons kv2 rtail2 =>
      exfalso
      have h1 : (kv1.1 == "#text") = true := hall kv1 (by simp)
      have h2 : (kv2.1 == "#text") = true := hall kv2 (by simp)
      simp only [List.map_cons, distinctStrs, Bool.and_eq_true, Bool.not_eq_true'] at hdisR
      have hnotin := (contains_eq_false_iff _ _).mp hdisR.1
      apply hnotin
      rw [eq_of_beq h1, ← eq_of_beq h2]
      exact List.mem_cons_self _ _

theorem roundtrip_triple : ∀ j : Nat,
    (∀ v n, sizeV v ≤ j → goodVal v = true → goodName n = true →
      ∃ a c, xmlNodeToJson (XNode.elem n a c) = v ∧
        ∀ rest ts r, parseManyT rest = some (ts, r) →
          parseManyT ((toXml v n).data ++ rest) = some (XNode.elem n a c :: ts, r))
    ∧ (∀ ws n, sizeVList ws ≤ j → goodVals ws = true → goodName n = true →
      ∃ nds : List XNode,
        List.Forall₂ (fun nd w =>
          (∃ aa cc, nd = XNode.elem n aa cc) ∧ xmlNodeToJson nd = w) nds ws ∧
        ∀ rest ts r, parseManyT rest = some (ts, r) →
          parseManyT ((toXmlArr ws n).data ++ rest) = some (nds ++ ts, r))
    ∧ (∀ kvs : List (String × JVal), sizeVEntries kvs ≤ j →
      (∀ kv ∈ kvs, strStartsWith kv.1 "@" = false ∧ (kv.1 == "#text") = false
        ∧ goodName kv.1 = true) →
      goodEntryVals kvs = true →
      distinctStrs (kvs.map Prod.fst) = true →
      ∃ nds : List XNode,
        (∀ x ∈ nds, ∃ nm aa cc, x = XNode.elem nm aa cc) ∧
        (∀ rest ts r, parseManyT rest = some (ts, r) →
          parseManyT ((childrenStr kvs).data ++ rest) = some (nds ++ ts, r)) ∧
        (∀ obj0, (∀ kv ∈ kvs, jsGet obj0 kv.1 = none) →
          foldChildren obj0 nds = obj0 ++ kvs)) := by
  intro j
  induction j using Nat.strong_induction_on with
  | _ j ih =>
  have hP : ∀ v n, sizeV v ≤ j → goodVal v = true → goodName n = true →
      ∃ a c, xmlNodeToJson (XNode.elem n a c) = v ∧
        ∀ rest ts r, parseManyT rest = some (ts, r) →
          parseManyT ((toXml v n).data ++ rest) = some (XNode.elem n a c :: ts, r) := by
    intro v n hsz hv hn
    cases v with
    | vnull => exact absurd hv (by decide)
    | vundef => exact absurd hv (by decide)
    | varr xs => exact absurd hv (by simp [goodVal])
    | vstr s =>
      have hgs : goodStr s = true := hv
      have hfacts := goodStr_facts hgs
      refine ⟨[], [XNode.text s], ?_, ?_⟩
      · rw [xmlNodeToJson_single_text,
          if_pos (show ([] : List (String × String)).isEmpty = true from rfl),
          goodStr_trim hgs]
      · intro rest ts r hp
        rw [show toXml (JVal.vstr s) n
            = "<" ++ n ++ ">" ++ s ++ "</" ++ n ++ ">" from rfl]
        rw [textelem_print_data]
        apply parseManyT_elem_step n [] s.data [XNode.text s] rest ts r hn
          (fun a ha => absurd ha (by simp)) ?_ hp
        exact parseManyT_text_step s ('<' :: '/' :: (n.data ++ '>' :: rest))
          [] ('<' :: '/' :: (n.data ++ '>' :: rest))
          hfacts.1 hfacts.2 (Or.inr ⟨_, rfl⟩) (parseManyT_stop _)
    | vobj kvs =>
      have hshape : (objShapeOk kvs && goodEntryVals kvs) = true := hv
      simp only [Bool.and_eq_true] at hshape
      obtain ⟨hso, hev⟩ := hshape
      have hso' : (((distinctStrs (kvs.map Prod.fst)
          && ((kvs.dropWhile (fun kv => strStartsWith kv.1 "@")).all
               (fun kv => !(strStartsWith kv.1 "@"))))
          && (kvs.all (fun kv =>
               if strStartsWith kv.1 "@" then goodName (strDrop kv.1 1)
               else (kv.1 == "#text") || goodName kv.1)))
          && (!(kvs.any (fun kv => kv.1 == "#text")) ||
               ((kvs.any (fun kv => strStartsWith kv.1 "@")) &&
                (kvs.all (fun kv => strStartsWith kv.1 "@" || kv.1 == "#text"))))) = true := hso
      simp only [Bool.and_eq_true] at hso'
      obtain ⟨⟨⟨hdis, hlay⟩, hkeys⟩, htrule⟩ := hso'
      obtain ⟨A, R, hAR, hAat, hRat⟩ : ∃ A R, A ++ R = kvs
          ∧ (∀ kv ∈ A, strStartsWith kv.1 "@" = true)
          ∧ (∀ kv ∈ R, strStartsWith kv.1 "@" = false) := by
        refine ⟨kvs.takeWhile (fun kv => strStartsWith kv.1 "@"),
          kvs.dropWhile (fun kv => strStartsWith kv.1 "@"),
          List.takeWhile_append_dropWhile _ _, ?_, ?_⟩
        · intro kv hkv
          exact mem_takeWhile_pred _ kvs kv hkv
        · intro kv hkv
          simp only [List.all_eq_true] at hlay
          have := hlay kv hkv
          simp only [Bool.not_eq_true'] at this
          exact this
      have hmemA : ∀ kv ∈ A, kv ∈ kvs := by
        intro kv hkv
        rw [← hAR]
        exact List.mem_append.mpr (Or.inl hkv)
      have hmemR : ∀ kv ∈ R, kv ∈ kvs := by
        intro kv hkv
        rw [← hAR]
        exact List.mem_append.mpr (Or.inr hkv)
      have hkeyOk : ∀ kv ∈ kvs, (if strStartsWith kv.1 "@" then goodName (strDrop kv.1 1)
          else (kv.1 == "#text") || goodName kv.1) = true := by
        simp only [List.all_eq_true] at hkeys
        exact hkeys
      have hentry : ∀ kv ∈ kvs, entryOk kv = true := by
        rw [goodEntryVals_eq_all] at hev
        simp only [List.all_eq_true] at hev
        exact hev
      have hAgood : ∀ kv ∈ kvs, strStartsWith kv.1 "@" = true →
          goodName (strDrop kv.1 1) = true
            ∧ ∃ s, kv.2 = JVal.vstr s ∧ goodAttrVal s = true := by
        intro kv hkv hat
        refine ⟨?_, ?_⟩
        · have hko := hkeyOk kv hkv
          rw [if_pos hat] at hko
          exact hko
        · have he := hentry kv hkv
          obtain ⟨k, w⟩ := kv
          cases w with
          | vstr s =>
            refine ⟨s, rfl, ?_⟩
            have he' : (if strStartsWith k "@" then isAttrStrVal (JVal.vstr s)
                else if (k == "#text") = true then isTextStrVal (JVal.vstr s)
                else goodVal (JVal.vstr s)) = true := he
            rw [if_pos hat] at he'
            exact he'
          | varr xs =>
            exfalso
            have he' : (!(strStartsWith k "@") && !(k == "#text")
                && decide (2 ≤ xs.length) && goodVals xs) = true := he
            rw [hat] at he'
            simp at he'
          | vnull =>
            exfalso
            have he' : (if strStartsWith k "@" then isAttrStrVal JVal.vnull
                else if (k == "#text") = true then isTextStrVal JVal.vnull
                else goodVal JVal.vnull) = true := he
            rw [if_pos hat] at he'
            exact absurd he' (by decide)
          | vundef =>
            exfalso
            have he' : (if strStartsWith k "@" then isAttrStrVal JVal.vundef
                else if (k == "#text") = true then isTextStrVal JVal.vundef
                else goodVal JVal.vundef) = true := he
            rw [if_pos hat] at he'
            exact absurd he' (by decide)
          | vobj kvs2 =>
            exfalso
            have he' : (if strStartsWith k "@" then isAttrStrVal (JVal.vobj kvs2)
                else if (k == "#text") = true then isTextStrVal (JVal.vobj kvs2)
                else goodVal (JVal.vobj kvs2)) = true := he
            rw [if_pos hat] at he'
            exact Bool.false_ne_true he'
      have hpa_good : ∀ a ∈ attrPairs kvs,
          goodName a.1 = true ∧ ∀ ch ∈ a.2.data, (ch == '"') = false :=
        attrPairs_good kvs hAgood
      have hAstr : ∀ kv ∈ A, strStartsWith kv.1 "@" = true ∧ ∃ s, kv.2 = JVal.vstr s := by
        intro kv hkv
        refine ⟨hAat kv hkv, ?_⟩
        obtain ⟨_, s, hs, _⟩ := hAgood kv (hmemA kv hkv) (hAat kv hkv)
        exact ⟨s, hs⟩
      have hback : (attrPairs A).map (fun p => ("@" ++ p.1, JVal.vstr p.2)) = A :=
        attrPairs_back A hAstr
      have hpaA : attrPairs kvs = attrPairs A := by
        rw [← hAR, attrPairs_append, attrPairs_skip R hRat, List.append_nil]
      have hobj0 : (attrPairs kvs).map (fun p => ("@" ++ p.1, JVal.vstr p.2)) = A := by
        rw [hpaA, hback]
      cases htk : kvs.any (fun kv => kv.1 == "#text") with
      | true =>
        rw [htk] at htrule
        have htr2 : ((kvs.any (fun kv => strStartsWith kv.1 "@")) &&
            (kvs.all (fun kv => strStartsWith kv.1 "@" || kv.1 == "#text"))) = true := by
          simpa using htrule
        simp only [Bool.and_eq_true, List.all_eq_true, List.any_eq_true] at htr2
        obtain ⟨⟨kva, hkva, hkvaat⟩, hallat⟩ := htr2
        have hRtext : ∀ kv ∈ R, (kv.1 == "#text") = true := by
          intro kv hkv
          have h2 := hallat kv (hmemR kv hkv)
          rw [hRat kv hkv] at h2
          simpa using h2
        obtain ⟨kv0, hkv0R, hkv0t⟩ : ∃ kv, kv ∈ R ∧ (kv.1 == "#text") = true := by
          obtain ⟨kv, hkv, hkvt⟩ := List.any_eq_true.mp htk
          refine ⟨kv, ?_, hkvt⟩
          rw [← hAR] at hkv
          rcases List.mem_append.mp hkv with hin | hin
          · exfalso
            have h1 := at_ne_text (hAat kv hin)
            rw [h1] at hkvt
            exact Bool.false_ne_true hkvt
          · exact hin
        have hRshape : R = [kv0] := by
          apply single_of_allsame_distinct R kv0 hkv0R hRtext
          rw [← hAR, List.map_append] at hdis
          exact distinctStrs_append_right _ _ hdis
        obtain ⟨k0, w0⟩ := kv0
        have hk0key : k0 = "#text" := eq_of_beq hkv0t
        subst hk0key
        have he0 := hentry ("#text", w0) (hmemR _ hkv0R)
        cases w0 with
        | varr xs =>
          exfalso
          have h0 : entryOk ("#text", JVal.varr xs) = false := rfl
          rw [h0] at he0
          exact Bool.false_ne_true he0
        | vnull =>
          exfalso
          have h0 : entryOk ("#text", JVal.vnull) = false := rfl
          rw [h0] at he0
          exact Bool.false_ne_true he0
        | vundef =>
          exfalso
          have h0 : entryOk ("#text", JVal.vundef) = false := rfl
          rw [h0] at he0
          exact Bool.false_ne_true he0
        | vobj kvs2 =>
          exfalso
          have h0 : entryOk ("#text", JVal.vobj kvs2) = false := rfl
          rw [h0] at he0
          exact Bool.false_ne_true he0
        | vstr s0 =>
          have hgs0 : goodStr s0 = true := he0
          have hAne : A ≠ [] := by
            intro hAe
            rw [hAe] at hAR
            have hRk : R = kvs := by simpa using hAR
            have hfalse := hRat kva (by rw [hRk]; exact hkva)
            rw [hfalse] at hkvaat
            exact Bool.false_ne_true hkvaat
          have hpane : attrPairs kvs ≠ [] := by
            intro hpe
            rw [hpaA] at hpe
            have hb2 := hback
            rw [hpe] at hb2
            exact hAne hb2.symm
          have hch : childrenStr kvs = "" := childrenStr_all_skip kvs (by
            intro kv hkv
            have h2 := hallat kv hkv
            cases hat2 : strStartsWith kv.1 "@"
            · rw [hat2] at h2
              simp only [Bool.false_or] at h2
              exact Or.inr h2
            · exact Or.inl rfl)
          have htv : textValOf kvs = JVal.vstr s0 := by
            unfold textValOf
            rw [← hAR, List.filter_append]
            have hfA : A.filter (fun kv => kv.1 == "#text") = [] := by
              apply List.filter_eq_nil_iff.mpr
              intro kv hkv
              rw [at_ne_text (hAat kv hkv)]
              exact Bool.false_ne_true
            rw [hfA, hRshape]
            rfl
          refine ⟨attrPairs kvs, [XNode.text s0], ?_, ?_⟩
          · rw [xmlNodeToJson_single_text, goodStr_trim hgs0]
            have hpaE : (attrPairs kvs).isEmpty = false := by
              cases hc : attrPairs kvs with
              | nil => exact absurd hc hpane
              | cons x l => rfl
            rw [if_neg (by rw [hpaE]; exact Bool.false_ne_true)]
            rw [if_neg (by
              intro he
              have := goodStr_ne_empty hgs0
              rw [he] at this
              exact absurd this (by decide))]
            rw [hobj0, ← hAR, hRshape]
          · intro rest ts r hp
            rw [toXml_obj_text kvs n htk hch, attrsOfEntries_eq,
              show jsToString (textValOf kvs) = s0 from by rw [htv]; rfl,
              elem_print_data]
            apply parseManyT_elem_step n (attrPairs kvs) s0.data [XNode.text s0]
              rest ts r hn hpa_good ?_ hp
            exact parseManyT_text_step s0 ('<' :: '/' :: (n.data ++ '>' :: rest))
              [] ('<' :: '/' :: (n.data ++ '>' :: rest))
              (goodStr_facts hgs0).1 (goodStr_facts hgs0).2
              (Or.inr ⟨_, rfl⟩) (parseManyT_stop _)
      | false =>
        have hnot : ∀ kv ∈ kvs, (kv.1 == "#text") = false := by
          intro kv hkv
          cases hc : (kv.1 == "#text") with
          | false => rfl
          | true =>
            exfalso
            have : kvs.any (fun kv => kv.1 == "#text") = true :=
              List.any_eq_true.mpr ⟨kv, hkv, hc⟩
            rw [htk] at this
            exact Bool.false_ne_true this
        have hRgood : ∀ kv ∈ R, goodName kv.1 = true := by
          intro kv hkv
          have hko := hkeyOk kv (hmemR kv hkv)
          rw [if_neg (by rw [hRat kv hkv]; exact Bool.false_ne_true)] at hko
          rw [hnot kv (hmemR kv hkv)] at hko
          simpa using hko
        cases hR : R with
        | nil =>
          have hkvsA : kvs = A := by rw [← hAR, hR, List.append_nil]
          have hch : childrenStr kvs = "" := childrenStr_all_skip kvs (by
            intro kv hkv
            rw [hkvsA] at hkv
            exact Or.inl (hAat kv hkv))
          refine ⟨attrPairs kvs, [], ?_, ?_⟩
          · rw [xmlNodeToJson_nil, hobj0, hkvsA]
          · intro rest ts r hp
            rw [toXml_obj_selfclose kvs n htk hch, attrsOfEntries_eq,
              selfclose_print_data]
            exact parseManyT_selfclose_step n (attrPairs kvs) rest ts r hn hpa_good hp
        | cons kvh rtail =>
          have hszfact : sizeV (JVal.vobj kvs) = 1 + sizeVEntries kvs := rfl
          have hsztot : sizeVEntries (A ++ R) = sizeVEntries A + sizeVEntries R :=
            sizeVEntries_append A R
          rw [hAR] at hsztot
          have hszR : sizeVEntries R ≤ j - 1 := by omega
          have hjpos : 1 ≤ j := by omega
          have hQ := (ih (j - 1) (by omega)).2.2
          have hRfacts : ∀ kv ∈ R, strStartsWith kv.1 "@" = false
              ∧ (kv.1 == "#text") = false ∧ goodName kv.1 = true :=
            fun kv hkv => ⟨hRat kv hkv, hnot kv (hmemR kv hkv), hRgood kv hkv⟩
          have hRev : goodEntryVals R = true := by
            rw [← hAR, goodEntryVals_append, Bool.and_eq_true] at hev
            exact hev.2
          have hRdis : distinctStrs (R.map Prod.fst) = true := by
            rw [← hAR, List.map_append] at hdis
            exact distinctStrs_append_right _ _ hdis
          obtain ⟨nds, hnds_elems, hnds_comp, hnds_fold⟩ :=
            hQ R hszR hRfacts hRev hRdis
          have hRne : R ≠ [] := by rw [hR]; simp
          have hchA : childrenStr A = "" :=
            childrenStr_all_skip A (fun kv hkv => Or.inl (hAat kv hkv))
          have hcheq : childrenStr kvs = childrenStr R := by
            rw [← hAR, childrenStr_append, hchA, str_empty_append]
          have hfold_nil : foldChildren [] nds = R := by
            have := hnds_fold [] (fun kv _ => rfl)
            simpa using this
          have hndsne : nds ≠ [] := by
            intro he
            rw [he] at hfold_nil
            have h2 : ([] : List (String × JVal)) = R := hfold_nil
            rw [← h2] at hRne
            exact hRne rfl
          have hchne : (childrenStr kvs == "") = false := by
            cases hc : (childrenStr kvs == "") with
            | false => rfl
            | true =>
              exfalso
              have hce : childrenStr kvs = "" := eq_of_beq hc
              have hcomp := hnds_comp [] [] [] parseManyT_nil
              rw [← hcheq, hce] at hcomp
              have h3 : parseManyT (("" : String).data ++ []) = some ([], []) := rfl
              rw [h3] at hcomp
              injection hcomp with h4
              injection h4 with h5 h6
              rw [List.append_nil] at h5
              exact hndsne h5.symm
          have hdisjA : ∀ kv ∈ R, jsGet A kv.1 = none := fun kv hkv =>
            jsGet_atmap_none A (fun e he => hAat e he) kv.1 (hRat kv hkv)
          refine ⟨attrPairs kvs, nds, ?_, ?_⟩
          · -- conversion
            cases hnds : nds with
            | nil => exact absurd hnds hndsne
            | cons nd1 ndtail =>
              have hmem1 : nd1 ∈ nds := by
                rw [hnds]
                exact List.mem_cons_self _ _
              obtain ⟨nm1, aa1, cc1, hnd1⟩ := hnds_elems nd1 hmem1
              rw [hnd1, xmlNodeToJson_elem_cons, hobj0, ← hnd1, ← hnds,
                hnds_fold A hdisjA, hAR]
          · intro rest ts r hp
            rw [toXml_obj_children kvs n hchne, attrsOfEntries_eq, elem_print_data]
            apply parseManyT_elem_step n (attrPairs kvs) (childrenStr kvs).data nds
              rest ts r hn hpa_good ?_ hp
            have hkids := hnds_comp ('<' :: '/' :: (n.data ++ '>' :: rest)) []
              ('<' :: '/' :: (n.data ++ '>' :: rest)) (parseManyT_stop _)
            rw [← hcheq, List.append_nil] at hkids
            exact hkids
  -- R statement at j
  have hR : ∀ ws n, sizeVList ws ≤ j → goodVals ws = true → goodName n = true →
      ∃ nds : List XNode,
        List.Forall₂ (fun nd w =>
          (∃ aa cc, nd = XNode.elem n aa cc) ∧ xmlNodeToJson nd = w) nds ws ∧
        ∀ rest ts r, parseManyT rest = some (ts, r) →
          parseManyT ((toXmlArr ws n).data ++ rest) = some (nds ++ ts, r) := by
    intro ws n
    induction ws with
    | nil =>
      intro _ _ _
      refine ⟨[], List.Forall₂.nil, ?_⟩
      intro rest ts r hp
      exact hp
    | cons w ws2 ihw =>
      intro hsz hgv hn
      have h1 : (goodVal w && goodVals ws2) = true := hgv
      simp only [Bool.and_eq_true] at h1
      have hstep : sizeVList (w :: ws2) = sizeV w + sizeVList ws2 := rfl
      have hw1 := sizeV_pos w
      have hszw : sizeV w ≤ j := by omega
      have hszw2 : sizeVList ws2 ≤ j := by omega
      obtain ⟨a, c, hconv, hcomp⟩ := hP w n hszw h1.1 hn
      obtain ⟨nds2, hF2, hcomp2⟩ := ihw hszw2 h1.2 hn
      refine ⟨XNode.elem n a c :: nds2, List.Forall₂.cons ⟨⟨a, c, rfl⟩, hconv⟩ hF2, ?_⟩
      intro rest ts r hp
      have hstep1 := hcomp2 rest ts r hp
      have hstep2 := hcomp ((toXmlArr ws2 n).data ++ rest) (nds2 ++ ts) r hstep1
      have hshape2 : (toXmlArr (w :: ws2) n).data ++ rest
          = (toXml w n).data ++ ((toXmlArr ws2 n).data ++ rest) := by
        show (toXml w n ++ toXmlArr ws2 n).data ++ rest = _
        rw [String.data_append, List.append_assoc]
      rw [hshape2]
      exact hstep2
  -- Q statement at j
  have hQ : ∀ kvs : List (String × JVal), sizeVEntries kvs ≤ j →
      (∀ kv ∈ kvs, strStartsWith kv.1 "@" = false ∧ (kv.1 == "#text") = false
        ∧ goodName kv.1 = true) →
      goodEntryVals kvs = true →
      distinctStrs (kvs.map Prod.fst) = true →
      ∃ nds : List XNode,
        (∀ x ∈ nds, ∃ nm aa cc, x = XNode.elem nm aa cc) ∧
        (∀ rest ts r, parseManyT rest = some (ts, r) →
          parseManyT ((childrenStr kvs).data ++ rest) = some (nds ++ ts, r)) ∧
        (∀ obj0, (∀ kv ∈ kvs, jsGet obj0 kv.1 = none) →
          foldChildren obj0 nds = obj0 ++ kvs) := by
    intro kvs0
    induction kvs0 with
    | nil =>
      intro _ _ _ _
      refine ⟨[], (fun x hx => absurd hx (by simp)), ?_, ?_⟩
      · intro rest ts r hp
        exact hp
      · intro obj0 _
        show foldChildren obj0 [] = obj0 ++ []
        rw [List.append_nil]
        rfl
    | cons kv rest2 ihq =>
      intro hsz hfacts hev hdis
      obtain ⟨k, v⟩ := kv
      obtain ⟨hk1, hk2, hk3⟩ := hfacts (k, v) (List.mem_cons_self _ _)
      have hev' := hev
      rw [goodEntryVals_eq_all, List.all_cons, Bool.and_eq_true] at hev'
      obtain ⟨heok, hev2⟩ := hev'
      have hev2' : goodEntryVals rest2 = true := by
        rw [goodEntryVals_eq_all]
        exact hev2
      have hdis' := hdis
      simp only [List.map_cons, distinctStrs, Bool.and_eq_true,
        Bool.not_eq_true'] at hdis'
      obtain ⟨hknotin, hdis2⟩ := hdis'
      have hknotin2 : k ∉ rest2.map Prod.fst := (contains_eq_false_iff _ _).mp hknotin
      have hszstep : sizeVEntries ((k, v) :: rest2) = sizeV v + sizeVEntries rest2 := rfl
      have hvpos := sizeV_pos v
      have hsz2 : sizeVEntries rest2 ≤ j := by omega
      obtain ⟨nds2, helems2, hcomp2, hfold2⟩ := ihq hsz2
        (fun x hx => hfacts x (List.mem_cons.mpr (Or.inr hx))) hev2' hdis2
      have hcond : (!(strStartsWith k "@") && k != "#text") = true := by
        rw [hk1]
        show (!false && !(k == "#text")) = true
        rw [hk2]
        rfl
      have hdisj2gen : ∀ w2 : JVal, ∀ obj0 : List (String × JVal),
          (∀ kv ∈ (k, v) :: rest2, jsGet obj0 kv.1 = none) →
          ∀ kv ∈ rest2, jsGet (obj0 ++ [(k, w2)]) kv.1 = none := by
        intro w2 obj0 hdisj kv hkv
        rw [jsGet_append_none obj0 _ _ (hdisj kv (List.mem_cons.mpr (Or.inr hkv)))]
        show (if k = kv.1 then some w2 else none) = none
        rw [if_neg ?_]
        intro he
        apply hknotin2
        rw [he]
        exact List.mem_map.mpr ⟨kv, hkv, rfl⟩
      cases v with
      | vnull =>
        exfalso
        have := (entryOk_goodVal hk1 hk2 heok).2 rfl
        exact absurd this (by decide)
      | vundef =>
        exfalso
        have := (entryOk_goodVal hk1 hk2 heok).2 rfl
        exact absurd this (by decide)
      | varr xs =>
        obtain ⟨hlen, hgvs⟩ := (entryOk_goodVal hk1 hk2 heok).1 xs
          (show JVal.varr xs = JVal.varr xs from rfl)
        have hszv : sizeV (JVal.varr xs) = 1 + sizeVList xs := rfl
        have hszxs : sizeVList xs ≤ j := by omega
        obtain ⟨ndw, hFw, hcompw⟩ := hR xs k hszxs hgvs hk3
        refine ⟨ndw ++ nds2, ?_, ?_, ?_⟩
        · intro x hx
          rcases List.mem_append.mp hx with h1 | h1
          · obtain ⟨w', hw', hrel⟩ := forall₂_mem_left hFw x h1
            obtain ⟨⟨aa, cc, hxe⟩, _⟩ := hrel
            exact ⟨k, aa, cc, hxe⟩
          · exact helems2 x h1
        · intro rest ts r hp
          have hstep1 := hcomp2 rest ts r hp
          have hstep2 := hcompw ((childrenStr rest2).data ++ rest) (nds2 ++ ts) r hstep1
          have hshape2 : (childrenStr ((k, JVal.varr xs) :: rest2)).data ++ rest
              = (toXmlArr xs k).data ++ ((childrenStr rest2).data ++ rest) := by
            rw [childrenStr_cons, if_pos hcond, String.data_append, List.append_assoc]
            rfl
          rw [hshape2, List.append_assoc]
          exact hstep2
        · intro obj0 hdisj
          cases xs with
          | nil => exact absurd hlen (by decide)
          | cons w1 xs1 =>
            cases xs1 with
            | nil => exact absurd hlen (by simp)
            | cons w2 wr =>
              have htru : ∀ w ∈ w1 :: w2 :: wr, jsTruthy w = true ∧ isArrVal w = false := by
                intro w hw
                rw [goodVals_eq_all, List.all_eq_true] at hgvs
                exact goodVal_truthy (hgvs w hw)
              have hget0 : jsGet obj0 k = none :=
                hdisj (k, JVal.varr (w1 :: w2 :: wr)) (List.mem_cons_self _ _)
              rw [fold_start k w1 w2 wr ndw hFw htru obj0 nds2 hget0,
                hfold2 _ (hdisj2gen (JVal.varr (w1 :: w2 :: wr)) obj0 hdisj),
                List.append_assoc]
              rfl
      | vstr s =>
        have hgv : goodVal (JVal.vstr s) = true := (entryOk_goodVal hk1 hk2 heok).2 rfl
        have hszv : sizeV (JVal.vstr s) = 1 := rfl
        have hszs : sizeV (JVal.vstr s) ≤ j := by omega
        obtain ⟨a, c, hconv, hcompv⟩ := hP (JVal.vstr s) k hszs hgv hk3
        refine ⟨XNode.elem k a c :: nds2, ?_, ?_, ?_⟩
        · intro x hx
          rcases List.mem_cons.mp hx with h1 | h1
          · exact ⟨k, a, c, h1⟩
          · exact helems2 x h1
        · intro rest ts r hp
          have hstep1 := hcomp2 rest ts r hp
          have hstep2 := hcompv ((childrenStr rest2).data ++ rest) (nds2 ++ ts) r hstep1
          have hshape2 : (childrenStr ((k, JVal.vstr s) :: rest2)).data ++ rest
              = (toXml (JVal.vstr s) k).data ++ ((childrenStr rest2).data ++ rest) := by
            rw [childrenStr_cons, if_pos hcond, String.data_append, List.append_assoc]
          rw [hshape2]
          exact hstep2
        · intro obj0 hdisj
          have hget0 : jsGet obj0 k = none := hdisj _ (List.mem_cons_self _ _)
          rw [foldChildren_elem, hconv, addChild_of_none obj0 k _ hget0,
            hfold2 _ (hdisj2gen (JVal.vstr s) obj0 hdisj), List.append_assoc]
          rfl
      | vobj kvs2 =>
        have hgv : goodVal (JVal.vobj kvs2) = true := (entryOk_goodVal hk1 hk2 heok).2 rfl
        have hszv : sizeV (JVal.vobj kvs2) = 1 + sizeVEntries kvs2 := rfl
        have hszs : sizeV (JVal.vobj kvs2) ≤ j := by omega
        obtain ⟨a, c, hconv, hcompv⟩ := hP (JVal.vobj kvs2) k hszs hgv hk3
        refine ⟨XNode.elem k a c :: nds2, ?_, ?_, ?_⟩
        · intro x hx
          rcases List.mem_cons.mp hx with h1 | h1
          · exact ⟨k, a, c, h1⟩
          · exact helems2 x h1
        · intro rest ts r hp
          have hstep1 := hcomp2 rest ts r hp
          have hstep2 := hcompv ((childrenStr rest2).data ++ rest) (nds2 ++ ts) r hstep1
          have hshape2 : (childrenStr ((k, JVal.vobj kvs2) :: rest2)).data ++ rest
              = (toXml (JVal.vobj kvs2) k).data ++ ((childrenStr rest2).data ++ rest) := by
            rw [childrenStr_cons, if_pos hcond, String.data_append, List.append_assoc]
          rw [hshape2]
          exact hstep2
        · intro obj0 hdisj
          have hget0 : jsGet obj0 k = none := hdisj _ (List.mem_cons_self _ _)
          rw [foldChildren_elem, hconv, addChild_of_none obj0 k _ hget0,
            hfold2 _ (hdisj2gen (JVal.vobj kvs2) obj0 hdisj), List.append_assoc]
          rfl
  exact ⟨hP, hR, hQ⟩

/-! ## Tree-to-canonical preserves the good class -/

theorem dropWhile_append_allP_gen {α : Type} {p : α → Bool} :
    ∀ (w l : List α), (∀ c ∈ w, p c = true) → (w ++ l).dropWhile p = l.dropWhile p := by
  intro w l hw
  induction w with
  | nil => rfl
  | cons c cs ih =>
    rw [List.cons_append, List.dropWhile_cons_of_pos (hw c (List.mem_cons_self c cs))]
    exact ih (fun x hx => hw x (List.mem_cons.mpr (Or.inr hx)))

theorem xmlNodeToJson_text_cons (n : String) (attrs : List (String × String))
    (t : String) (y : XNode) (rest : List XNode) :
    xmlNodeToJson (XNode.elem n attrs (XNode.text t :: y :: rest))
      = JVal.vobj (foldChildren (attrs.map (fun a => ("@" ++ a.1, JVal.vstr a.2)))
          (XNode.text t :: y :: rest)) := rfl

theorem objShapeOk_build (attrs : List (String × String)) (acc2 : List (String × JVal))
    (hak : ∀ a ∈ attrs, goodName a.1 = true)
    (had : distinctStrs (attrs.map Prod.fst) = true)
    (hacc1 : ∀ kv ∈ acc2, goodName kv.1 = true)
    (hacc2 : distinctStrs (acc2.map Prod.fst) = true) :
    objShapeOk (attrs.map (fun a => ("@" ++ a.1, JVal.vstr a.2)) ++ acc2) = true := by
  have hobj0at : ∀ kv ∈ attrs.map (fun a => ("@" ++ a.1, JVal.vstr a.2)),
      strStartsWith kv.1 "@" = true := by
    intro kv hkv
    obtain ⟨a, ha, hae⟩ := List.mem_map.mp hkv
    rw [← hae]
    exact strStartsWith_at a.1
  have hobj0dis : distinctStrs ((attrs.map
      (fun a => ("@" ++ a.1, JVal.vstr a.2))).map Prod.fst) = true := by
    have hmm : (attrs.map (fun a => ("@" ++ a.1, JVal.vstr a.2))).map Prod.fst
        = (attrs.map Prod.fst).map (fun x => "@" ++ x) := by
      simp [List.map_map, Function.comp]
    rw [hmm]
    exact distinctStrs_map_at _ had
  have h1 : distinctStrs ((attrs.map (fun a => ("@" ++ a.1, JVal.vstr a.2))
      ++ acc2).map Prod.fst) = true := by
    rw [List.map_append]
    apply distinctStrs_append _ _ hobj0dis hacc2
    intro x hx hx2
    obtain ⟨kv, hkv, hke⟩ := List.mem_map.mp hx
    obtain ⟨kv2, hkv2, hke2⟩ := List.mem_map.mp hx2
    have ha1 : strStartsWith x "@" = true := by
      rw [← hke]
      exact hobj0at kv hkv
    have ha2 : strStartsWith x "@" = false := by
      rw [← hke2]
      exact goodName_not_at (hacc1 kv2 hkv2)
    rw [ha1] at ha2
    exact absurd ha2 (by decide)
  have h2 : ((attrs.map (fun a => ("@" ++ a.1, JVal.vstr a.2)) ++ acc2).dropWhile
      (fun kv => strStartsWith kv.1 "@")).all (fun kv => !(strStartsWith kv.1 "@")) = true := by
    rw [dropWhile_append_allP_gen _ acc2 hobj0at, List.all_eq_true]
    intro kv hkv
    have hm : kv ∈ acc2 := (List.dropWhile_sublist _).subset hkv
    show (!(strStartsWith kv.1 "@")) = true
    rw [goodName_not_at (hacc1 kv hm)]
    rfl
  have h3 : (attrs.map (fun a => ("@" ++ a.1, JVal.vstr a.2)) ++ acc2).all
      (fun kv => if strStartsWith kv.1 "@" then goodName (strDrop kv.1 1)
        else (kv.1 == "#text") || goodName kv.1) = true := by
    rw [List.all_eq_true]
    intro kv hkv
    rcases List.mem_append.mp hkv with h | h
    · obtain ⟨a, ha, hae⟩ := List.mem_map.mp h
      rw [← hae]
      show (if strStartsWith ("@" ++ a.1) "@" then goodName (strDrop ("@" ++ a.1) 1)
          else (("@" ++ a.1) == "#text") || goodName ("@" ++ a.1)) = true
      rw [if_pos (strStartsWith_at a.1), strDrop_at]
      exact hak a ha
    · have hg := hacc1 kv h
      show (if strStartsWith kv.1 "@" then goodName (strDrop kv.1 1)
          else (kv.1 == "#text") || goodName kv.1) = true
      rw [if_neg (by rw [goodName_not_at hg]; exact Bool.false_ne_true), hg]
      simp
  have h4 : (attrs.map (fun a => ("@" ++ a.1, JVal.vstr a.2)) ++ acc2).any
      (fun kv => kv.1 == "#text") = false := by
    cases hc : (attrs.map (fun a => ("@" ++ a.1, JVal.vstr a.2)) ++ acc2).any
        (fun kv => kv.1 == "#text") with
    | false => rfl
    | true =>
      exfalso
      obtain ⟨kv, hkv, hkvt⟩ := List.any_eq_true.mp hc
      rcases List.mem_append.mp hkv with h | h
      · have := at_ne_text (hobj0at kv h)
        rw [this] at hkvt
        exact Bool.false_ne_true hkvt
      · have := goodName_ne_text (hacc1 kv h)
        rw [this] at hkvt
        exact Bool.false_ne_true hkvt
  show (distinctStrs _ && _ && _ && _) = true
  rw [h1, h2, h3, h4]
  rfl

theorem objShapeOk_text (attrs : List (String × String)) (v : JVal)
    (hak : ∀ a ∈ attrs, goodName a.1 = true)
    (had : distinctStrs (attrs.map Prod.fst) = true)
    (hane : attrs ≠ []) :
    objShapeOk (attrs.map (fun a => ("@" ++ a.1, JVal.vstr a.2))
      ++ [("#text", v)]) = true := by
  have hobj0at : ∀ kv ∈ attrs.map (fun a => ("@" ++ a.1, JVal.vstr a.2)),
      strStartsWith kv.1 "@" = true := by
    intro kv hkv
    obtain ⟨a, ha, hae⟩ := List.mem_map.mp hkv
    rw [← hae]
    exact strStartsWith_at a.1
  have hobj0dis : distinctStrs ((attrs.map
      (fun a => ("@" ++ a.1, JVal.vstr a.2))).map Prod.fst) = true := by
    have hmm : (attrs.map (fun a => ("@" ++ a.1, JVal.vstr a.2))).map Prod.fst
        = (attrs.map Prod.fst).map (fun x => "@" ++ x) := by
      simp [List.map_map, Function.comp]
    rw [hmm]
    exact distinctStrs_map_at _ had
  have h1 : distinctStrs ((attrs.map (fun a => ("@" ++ a.1, JVal.vstr a.2))
      ++ [("#text", v)]).map Prod.fst) = true := by
    rw [List.map_append]
    apply distinctStrs_append _ _ hobj0dis (by simp [distinctStrs])
    intro x hx hx2
    obtain ⟨kv, hkv, hke⟩ := List.mem_map.mp hx
    have ha1 : strStartsWith x "@" = true := by
      rw [← hke]
      exact hobj0at kv hkv
    have hxe : x = "#text" := by simpa using hx2
    rw [hxe] at ha1
    exact absurd ha1 (by decide)
  have h2 : ((attrs.map (fun a => ("@" ++ a.1, JVal.vstr a.2))
      ++ [("#text", v)]).dropWhile (fun kv => strStartsWith kv.1 "@")).all
      (fun kv => !(strStartsWith kv.1 "@")) = true := by
    rw [dropWhile_append_allP_gen _ _ hobj0at]
    rfl
  have h3 : (attrs.map (fun a => ("@" ++ a.1, JVal.vstr a.2)) ++ [("#text", v)]).all
      (fun kv => if strStartsWith kv.1 "@" then goodName (strDrop kv.1 1)
        else (kv.1 == "#text") || goodName kv.1) = true := by
    rw [List.all_eq_true]
    intro kv hkv
    rcases List.mem_append.mp hkv with h | h
    · obtain ⟨a, ha, hae⟩ := List.mem_map.mp h
      rw [← hae]
      show (if strStartsWith ("@" ++ a.1) "@" then goodName (strDrop ("@" ++ a.1) 1)
          else (("@" ++ a.1) == "#text") || goodName ("@" ++ a.1)) = true
      rw [if_pos (strStartsWith_at a.1), strDrop_at]
      exact hak a ha
    · have hkv2 : kv = ("#text", v) := by simpa using h
      rw [hkv2]
      rfl
  have h4 : ((attrs.map (fun a => ("@" ++ a.1, JVal.vstr a.2))
        ++ [("#text", v)]).any (fun kv => strStartsWith kv.1 "@")) = true := by
    apply List.any_eq_true.mpr
    cases hae : attrs with
    | nil => exact absurd hae hane
    | cons a arest =>
      refine ⟨("@" ++ a.1, JVal.vstr a.2), ?_, strStartsWith_at a.1⟩
      rw [List.mem_append]
      exact Or.inl (by simp)
  have h5 : (attrs.map (fun a => ("@" ++ a.1, JVal.vstr a.2)) ++ [("#text", v)]).all
      (fun kv => strStartsWith kv.1 "@" || kv.1 == "#text") = true := by
    rw [List.all_eq_true]
    intro kv hkv
    rcases List.mem_append.mp hkv with h | h
    · rw [hobj0at kv h]
      rfl
    · have hkv2 : kv = ("#text", v) := by simpa using h
      rw [hkv2]
      rfl
  show (distinctStrs _ && _ && _ && (!(List.any _ _) || (List.any _ _ && List.all _ _))) = true
  rw [h1, h2, h3, h4, h5]
  simp

theorem foldA : ∀ (children : List XNode),
    goodKids children = true →
    (∀ x ∈ children, ∀ nm aa cc, x = XNode.elem nm aa cc →
      goodVal (xmlNodeToJson x) = true ∧ goodName nm = true) →
    ∀ (obj0 acc : List (String × JVal)),
    (∀ s : String, strStartsWith s "@" = false → jsGet obj0 s = none) →
    (∀ kv ∈ acc, goodName kv.1 = true) →
    distinctStrs (acc.map Prod.fst) = true →
    goodEntryVals acc = true →
    ∃ acc2, foldChildren (obj0 ++ acc) children = obj0 ++ acc2 ∧
      (∀ kv ∈ acc2, goodName kv.1 = true) ∧
      distinctStrs (acc2.map Prod.fst) = true ∧
      goodEntryVals acc2 = true := by
  intro children
  induction children with
  | nil =>
    intro _ _ obj0 acc _ h1 h2 h3
    exact ⟨acc, rfl, h1, h2, h3⟩
  | cons x rest ihc =>
    intro hgk hconv obj0 acc hobj0 hacc1 hacc2 hacc3
    cases x with
    | text t =>
      have h' : ((strTrim t == "") && goodKids rest) = true := hgk
      simp only [Bool.and_eq_true] at h'
      rw [foldChildren_ws _ t rest (eq_of_beq h'.1)]
      exact ihc h'.2 (fun x hx => hconv x (List.mem_cons.mpr (Or.inr hx)))
        obj0 acc hobj0 hacc1 hacc2 hacc3
    | elem nm aa cc =>
      have h' : (goodElem (XNode.elem nm aa cc) && goodKids rest) = true := hgk
      simp only [Bool.and_eq_true] at h'
      obtain ⟨hw, hnm⟩ := hconv (XNode.elem nm aa cc) (List.mem_cons_self _ _) nm aa cc rfl
      rw [foldChildren_elem]
      have hj0 : jsGet obj0 nm = none := hobj0 nm (goodName_not_at hnm)
      have hjapp : jsGet (obj0 ++ acc) nm = jsGet acc nm := jsGet_append_none obj0 acc nm hj0
      cases hga : jsGet acc nm with
      | none =>
        have hgnone : jsGet (obj0 ++ acc) nm = none := by rw [hjapp, hga]
        rw [addChild_of_none _ nm _ hgnone, List.append_assoc]
        apply ihc h'.2 (fun x hx => hconv x (List.mem_cons.mpr (Or.inr hx))) obj0
          (acc ++ [(nm, xmlNodeToJson (XNode.elem nm aa cc))]) hobj0 ?_ ?_ ?_
        · intro kv hkv
          rcases List.mem_append.mp hkv with h1 | h1
          · exact hacc1 kv h1
          · have hkv2 : kv = (nm, xmlNodeToJson (XNode.elem nm aa cc)) := by simpa using h1
            rw [hkv2]
            exact hnm
        · rw [List.map_append]
          apply distinctStrs_append _ _ hacc2 (by simp [distinctStrs])
          intro y hy hy2
          have hye : y = nm := by simpa using hy2
          rw [hye] at hy
          exact (jsGet_none_iff acc nm).mp hga hy
        · rw [goodEntryVals_append, hacc3]
          show (true && goodEntryVals [(nm, xmlNodeToJson (XNode.elem nm aa cc))]) = true
          rw [goodEntryVals_eq_all]
          show (true && (entryOk (nm, xmlNodeToJson (XNode.elem nm aa cc)) && true)) = true
          rw [entryOk_of_goodVal hnm hw]
          rfl
      | some u =>
        have hgsome : jsGet (obj0 ++ acc) nm = some u := by rw [hjapp, hga]
        have heu : entryOk (nm, u) = true := jsGet_entryOk acc nm u hacc3 hga
        have hiss : (jsGet acc nm).isSome = true := by rw [hga]; rfl
        cases u with
        | varr us =>
          obtain ⟨hlen2, hgus⟩ := (entryOk_goodVal (goodName_not_at hnm)
            (goodName_ne_text hnm) heu).1 us (show JVal.varr us = JVal.varr us from rfl)
          rw [addChild_of_arr _ nm us _ hgsome, jsSet_append_of_none obj0 acc nm _ hj0]
          apply ihc h'.2 (fun x hx => hconv x (List.mem_cons.mpr (Or.inr hx))) obj0
            (jsSet acc nm (JVal.varr (us ++ [xmlNodeToJson (XNode.elem nm aa cc)])))
            hobj0 ?_ ?_ ?_
          · intro kv hkv
            have hk : kv.1 ∈ (jsSet acc nm
                (JVal.varr (us ++ [xmlNodeToJson (XNode.elem nm aa cc)]))).map Prod.fst :=
              List.mem_map.mpr ⟨kv, hkv, rfl⟩
            rw [jsSet_map_fst acc nm _ hiss] at hk
            obtain ⟨kv2, hkv2, hkeq⟩ := List.mem_map.mp hk
            rw [← hkeq]
            exact hacc1 kv2 hkv2
          · rw [jsSet_map_fst acc nm _ hiss]
            exact hacc2
          · apply goodEntryVals_jsSet acc nm _ ?_ hacc3
            show (!(strStartsWith nm "@") && !(nm == "#text")
              && decide (2 ≤ (us ++ [xmlNodeToJson (XNode.elem nm aa cc)]).length)
              && goodVals (us ++ [xmlNodeToJson (XNode.elem nm aa cc)])) = true
            have hga2 : goodVals [xmlNodeToJson (XNode.elem nm aa cc)] = true := by
              show (goodVal (xmlNodeToJson (XNode.elem nm aa cc)) && true) = true
              rw [hw]
              rfl
            have hlen3 : decide (2 ≤ (us
                ++ [xmlNodeToJson (XNode.elem nm aa cc)]).length) = true := by
              simp only [List.length_append, List.length_cons, List.length_nil,
                decide_eq_true_eq]
              omega
            rw [goodName_not_at hnm, goodName_ne_text hnm, hlen3,
              goodVals_append, hgus, hga2]
            rfl
        | vstr s =>
          have hgu : goodVal (JVal.vstr s) = true :=
            (entryOk_goodVal (goodName_not_at hnm) (goodName_ne_text hnm) heu).2 rfl
          have htru := goodVal_truthy hgu
          rw [addChild_of_single _ nm (JVal.vstr s) _ hgsome htru.1 htru.2,
            jsSet_append_of_none obj0 acc nm _ hj0]
          apply ihc h'.2 (fun x hx => hconv x (List.mem_cons.mpr (Or.inr hx))) obj0
            (jsSet acc nm (JVal.varr [JVal.vstr s, xmlNodeToJson (XNode.elem nm aa cc)]))
            hobj0 ?_ ?_ ?_
          · intro kv hkv
            have hk : kv.1 ∈ (jsSet acc nm (JVal.varr [JVal.vstr s,
                xmlNodeToJson (XNode.elem nm aa cc)])).map Prod.fst :=
              List.mem_map.mpr ⟨kv, hkv, rfl⟩
            rw [jsSet_map_fst acc nm _ hiss] at hk
            obtain ⟨kv2, hkv2, hkeq⟩ := List.mem_map.mp hk
            rw [← hkeq]
            exact hacc1 kv2 hkv2
          · rw [jsSet_map_fst acc nm _ hiss]
            exact hacc2
          · apply goodEntryVals_jsSet acc nm _ ?_ hacc3
            show (!(strStartsWith nm "@") && !(nm == "#text")
              && decide (2 ≤ ([JVal.vstr s,
                  xmlNodeToJson (XNode.elem nm aa cc)] : List JVal).length)
              && goodVals [JVal.vstr s, xmlNodeToJson (XNode.elem nm aa cc)]) = true
            have hga2 : goodVals [JVal.vstr s, xmlNodeToJson (XNode.elem nm aa cc)] = true := by
              show (goodVal (JVal.vstr s)
                && (goodVal (xmlNodeToJson (XNode.elem nm aa cc)) && true)) = true
              rw [hgu, hw]
              rfl
            rw [goodName_not_at hnm, goodName_ne_text hnm, hga2]
            rfl
        | vobj kvs2 =>
          have hgu : goodVal (JVal.vobj kvs2) = true :=
            (entryOk_goodVal (goodName_not_at hnm) (goodName_ne_text hnm) heu).2 rfl
          have htru := goodVal_truthy hgu
          rw [addChild_of_single _ nm (JVal.vobj kvs2) _ hgsome htru.1 htru.2,
            jsSet_append_of_none obj0 acc nm _ hj0]
          apply ihc h'.2 (fun x hx => hconv x (List.mem_cons.mpr (Or.inr hx))) obj0
            (jsSet acc nm (JVal.varr [JVal.vobj kvs2,
              xmlNodeToJson (XNode.elem nm aa cc)])) hobj0 ?_ ?_ ?_
          · intro kv hkv
            have hk : kv.1 ∈ (jsSet acc nm (JVal.varr [JVal.vobj kvs2,
                xmlNodeToJson (XNode.elem nm aa cc)])).map Prod.fst :=
              List.mem_map.mpr ⟨kv, hkv, rfl⟩
            rw [jsSet_map_fst acc nm _ hiss] at hk
            obtain ⟨kv2, hkv2, hkeq⟩ := List.mem_map.mp hk
            rw [← hkeq]
            exact hacc1 kv2 hkv2
          · rw [jsSet_map_fst acc nm _ hiss]
            exact hacc2
          · apply goodEntryVals_jsSet acc nm _ ?_ hacc3
            show (!(strStartsWith nm "@") && !(nm == "#text")
              && decide (2 ≤ ([JVal.vobj kvs2,
                  xmlNodeToJson (XNode.elem nm aa cc)] : List JVal).length)
              && goodVals [JVal.vobj kvs2, xmlNodeToJson (XNode.elem nm aa cc)]) = true
            have hga2 : goodVals [JVal.vobj kvs2,
                xmlNodeToJson (XNode.elem nm aa cc)] = true := by
              show (goodVal (JVal.vobj kvs2)
                && (goodVal (xmlNodeToJson (XNode.elem nm aa cc)) && true)) = true
              rw [hgu, hw]
              rfl
            rw [goodName_not_at hnm, goodName_ne_text hnm, hga2]
            rfl
        | vnull =>
          exfalso
          have := (entryOk_goodVal (goodName_not_at hnm) (goodName_ne_text hnm) heu).2 rfl
          exact absurd this (by decide)
        | vundef =>
          exfalso
          have := (entryOk_goodVal (goodName_not_at hnm) (goodName_ne_text hnm) heu).2 rfl
          exact absurd this (by decide)

theorem phaseA : ∀ j : Nat, ∀ (n : String) (attrs : List (String × String))
    (children : List XNode),
    sizeX (XNode.elem n attrs children) ≤ j →
    goodElem (XNode.elem n attrs children) = true →
    goodVal (xmlNodeToJson (XNode.elem n attrs children)) = true := by
  intro j
  induction j using Nat.strong_induction_on with
  | _ j ih =>
  intro n attrs children hsz hge
  obtain ⟨hn, hao, had⟩ := goodElem_parts hge
  have hak : ∀ a ∈ attrs, goodName a.1 = true := by
    intro a ha
    simp only [attrsOk, List.all_eq_true] at hao
    have := hao a ha
    simp only [Bool.and_eq_true] at this
    exact this.1
  have hobj0ev : goodEntryVals (attrs.map (fun a => ("@" ++ a.1, JVal.vstr a.2))) = true := by
    rw [goodEntryVals_eq_all, List.all_eq_true]
    intro kv hkv
    obtain ⟨a, ha, hae⟩ := List.mem_map.mp hkv
    rw [← hae]
    show (if strStartsWith ("@" ++ a.1) "@" then isAttrStrVal (JVal.vstr a.2)
        else if (("@" ++ a.1) == "#text") = true then isTextStrVal (JVal.vstr a.2)
        else goodVal (JVal.vstr a.2)) = true
    rw [if_pos (strStartsWith_at a.1)]
    simp only [attrsOk, List.all_eq_true] at hao
    have := hao a ha
    simp only [Bool.and_eq_true] at this
    exact this.2
  have hobj0get : ∀ s : String, strStartsWith s "@" = false →
      jsGet (attrs.map (fun a => ("@" ++ a.1, JVal.vstr a.2))) s = none := by
    intro s hs
    apply jsGet_atmap_none _ ?_ s hs
    intro kv hkv
    obtain ⟨a, ha, hae⟩ := List.mem_map.mp hkv
    rw [← hae]
    exact strStartsWith_at a.1
  have hnilcase : goodVal (JVal.vobj (attrs.map
      (fun a => ("@" ++ a.1, JVal.vstr a.2)))) = true := by
    show (objShapeOk _ && goodEntryVals _) = true
    have hb := objShapeOk_build attrs [] hak had
      (fun kv h => absurd h (by simp)) (by rfl)
    rw [List.append_nil] at hb
    rw [hb, hobj0ev]
    rfl
  have hmulti : ∀ (ch : List XNode), goodKids ch = true → sizeXs ch < j →
      ∃ acc2, foldChildren (attrs.map (fun a => ("@" ++ a.1, JVal.vstr a.2))) ch
          = (attrs.map (fun a => ("@" ++ a.1, JVal.vstr a.2))) ++ acc2 ∧
        (∀ kv ∈ acc2, goodName kv.1 = true) ∧
        distinctStrs (acc2.map Prod.fst) = true ∧
        goodEntryVals acc2 = true := by
    intro ch hgk hszch
    have hconv : ∀ x ∈ ch, ∀ nm aa cc, x = XNode.elem nm aa cc →
        goodVal (xmlNodeToJson x) = true ∧ goodName nm = true := by
      intro x hx nm aa cc hxe
      rcases goodKids_mem ch hgk x hx with ⟨t2, hxt, _⟩ | hgood
      · exfalso
        rw [hxe] at hxt
        exact XNode.noConfusion hxt
      · subst hxe
        refine ⟨?_, (goodElem_parts hgood).1⟩
        apply ih (sizeX (XNode.elem nm aa cc)) ?_ nm aa cc (Nat.le_refl _) hgood
        have h5 := sizeXs_mem_le ch _ hx
        omega
    obtain ⟨acc2, hfold, hg1, hg2, hg3⟩ := foldA ch hgk hconv
      (attrs.map (fun a => ("@" ++ a.1, JVal.vstr a.2))) [] hobj0get
      (fun kv h => absurd h (by simp)) (by rfl) (by rfl)
    rw [List.append_nil] at hfold
    exact ⟨acc2, hfold, hg1, hg2, hg3⟩
  have hmultigoal : ∀ (ch : List XNode), goodKids ch = true → sizeXs ch < j →
      goodVal (JVal.vobj (foldChildren (attrs.map
        (fun a => ("@" ++ a.1, JVal.vstr a.2))) ch)) = true := by
    intro ch hgk hszch
    obtain ⟨acc2, hfold, hg1, hg2, hg3⟩ := hmulti ch hgk hszch
    rw [hfold]
    show (objShapeOk _ && goodEntryVals _) = true
    rw [objShapeOk_build attrs acc2 hak had hg1 hg2, goodEntryVals_append, hobj0ev, hg3]
    rfl
  have hszs : sizeX (XNode.elem n attrs children) = 1 + sizeXs children := rfl
  cases children with
  | nil =>
    rw [xmlNodeToJson_nil]
    exact hnilcase
  | cons x rest =>
    cases x with
    | text t =>
      cases rest with
      | nil =>
        have hcond : (goodName n && attrsOk attrs && distinctStrs (attrs.map Prod.fst)
            && (goodText t && (!(strTrim t == "") || !attrs.isEmpty))) = true := hge
        simp only [Bool.and_eq_true] at hcond
        obtain ⟨hgt, hdisj⟩ := hcond.2
        rw [xmlNodeToJson_single_text]
        by_cases haE : attrs.isEmpty = true
        · rw [if_pos haE]
          have hne : (strTrim t == "") = false := by
            rw [haE] at hdisj
            simpa using hdisj
          apply goodStr_of_trim t hgt
          intro he
          rw [he] at hne
          exact absurd hne (by decide)
        · rw [if_neg haE]
          by_cases htE : strTrim t = ""
          · rw [if_pos htE]
            exact hnilcase
          · rw [if_neg htE]
            show (objShapeOk _ && goodEntryVals _) = true
            have hane : attrs ≠ [] := by
              intro hae
              rw [hae] at haE
              exact haE rfl
            rw [objShapeOk_text attrs (JVal.vstr (strTrim t)) hak had hane,
              goodEntryVals_append, hobj0ev]
            show (true && (true && goodEntryVals [("#text", JVal.vstr (strTrim t))])) = true
            rw [goodEntryVals_eq_all]
            show (true && (true && (entryOk ("#text", JVal.vstr (strTrim t)) && true))) = true
            have heo : entryOk ("#text", JVal.vstr (strTrim t)) = true := by
              show isTextStrVal (JVal.vstr (strTrim t)) = true
              exact goodStr_of_trim t hgt htE
            rw [heo]
            rfl
      | cons y rest2 =>
        have hcond : (goodName n && attrsOk attrs && distinctStrs (attrs.map Prod.fst)
            && goodKids (XNode.text t :: y :: rest2)) = true := hge
        simp only [Bool.and_eq_true] at hcond
        rw [xmlNodeToJson_text_cons]
        apply hmultigoal _ hcond.2
        omega
    | elem nm aa cc =>
      have hcond : (goodName n && attrsOk attrs && distinctStrs (attrs.map Prod.fst)
          && goodKids (XNode.elem nm aa cc :: rest)) = true := hge
      simp only [Bool.and_eq_true] at hcond
      rw [xmlNodeToJson_elem_cons]
      apply hmultigoal _ hcond.2
      omega

/-! ## Whole-document round trip -/

theorem dropThroughQgt_pre : ∀ (pre tail : List Char), (∀ c ∈ pre, ¬ c = '?') →
    dropThroughQgt (pre ++ '?' :: '>' :: tail) = some tail := by
  intro pre
  induction pre with
  | nil =>
    intro tail _
    rfl
  | cons c pre2 ih =>
    intro tail h
    have hc : ¬ c = '?' := h c (List.mem_cons_self c pre2)
    cases pre2 with
    | nil =>
      show (if c = '?' && '?' = '>' then some ('>' :: tail)
          else dropThroughQgt ('?' :: '>' :: tail)) = some tail
      rw [if_neg (by simp)]
      exact ih tail (fun x hx => absurd hx (by simp))
    | cons d pre3 =>
      show (if c = '?' && d = '>' then some (pre3 ++ '?' :: '>' :: tail)
          else dropThroughQgt (d :: (pre3 ++ '?' :: '>' :: tail))) = some tail
      rw [if_neg (by simp [hc])]
      exact ih tail (fun x hx => h x (List.mem_cons.mpr (Or.inr hx)))

theorem parseDoc_decl (s2 : String) :
    parseDoc (xmlDecl ++ s2)
      = (match parseManyT (trimChars ('\n' :: s2.data)) with
         | some ([XNode.elem n1 a1 c1], []) => some (n1, a1, c1)
         | _ => none) := rfl

/-! ## Claim C1 -/

/-- C1, counterexample: `<a>x<b>1</b></a>` is well-formed XML, but its canonical
value is not stable under one round trip: `jsonToXml` drops the `#text` entry
when child-element keys are present (final branch of `toXml`), so re-parsing the
printed text yields a different canonical value. -/
theorem claim_C1_counterexample :
    isValidXml "<a>x<b>1</b></a>" = true ∧
    ∃ x2, jsonToXml (xmlToJson "<a>x<b>1</b></a>") "root" = Except.ok x2 ∧
      xmlToJson x2 ≠ xmlToJson "<a>x<b>1</b></a>" := by
  refine ⟨by decide, "<?xml version=\"1.0\" encoding=\"UTF-8\"?>\n<a><b>1</b></a>",
    by decide, by decide⟩

/-- C1 (amended): on well-behaved documents — documents that parse to an element
tree with well-formed distinct names, markup-free attribute values and no mixed
text/element content (`goodDoc`) — the canonical value stabilizes after one
round trip: `jsonToXml` of `xmlToJson s` succeeds and parsing its output with
`xmlToJson` again returns exactly `xmlToJson s`. -/
theorem claim_C1_roundtrip (s : String) (h : goodDoc s = true) :
    ∃ x2 : String, jsonToXml (xmlToJson s) "root" = Except.ok x2
      ∧ xmlToJson x2 = xmlToJson s := by
  unfold goodDoc at h
  cases hpd : parseDoc s with
  | none =>
    rw [hpd] at h
    exact absurd h (by decide)
  | some tri =>
    obtain ⟨n, a, c⟩ := tri
    rw [hpd] at h
    have hgv : goodVal (xmlNodeToJson (XNode.elem n a c)) = true :=
      phaseA (sizeX (XNode.elem n a c)) n a c (Nat.le_refl _) h
    have hn : goodName n = true := (goodElem_parts h).1
    have hxj : xmlToJson s = JVal.vobj [(n, xmlNodeToJson (XNode.elem n a c))] := by
      unfold xmlToJson
      rw [hpd]
    obtain ⟨a2, c2, hconv, hcomp⟩ :=
      (roundtrip_triple (sizeV (xmlNodeToJson (XNode.elem n a c)))).1
        (xmlNodeToJson (XNode.elem n a c)) n (Nat.le_refl _) hgv hn
    refine ⟨xmlDecl ++ toXml (xmlNodeToJson (XNode.elem n a c)) n, ?_, ?_⟩
    · rw [hxj]
      rfl
    · have hpd2 : parseDoc (xmlDecl ++ toXml (xmlNodeToJson (XNode.elem n a c)) n)
          = some (n, a2, c2) := by
        rw [parseDoc_decl]
        obtain ⟨mid, hmid⟩ := toXml_data_shape (xmlNodeToJson (XNode.elem n a c)) n hgv
        have htrim : trimChars ('\n' :: (toXml (xmlNodeToJson (XNode.elem n a c)) n).data)
            = (toXml (xmlNodeToJson (XNode.elem n a c)) n).data := by
          have h1 := trimChars_ws_append ['\n']
            (toXml (xmlNodeToJson (XNode.elem n a c)) n).data (by decide)
          rw [show ('\n' :: (toXml (xmlNodeToJson (XNode.elem n a c)) n).data)
              = ['\n'] ++ (toXml (xmlNodeToJson (XNode.elem n a c)) n).data from rfl, h1]
          apply trimChars_eq_self
          · intro ch hh
            rw [hmid] at hh
            injection hh with hh2
            rw [← hh2]
            decide
          · intro ch hh
            rw [hmid] at hh
            have hlast : ('<' :: (mid ++ ['>'])).getLast? = some '>' := by
              rw [show ('<' :: (mid ++ ['>'])) = ('<' :: mid) ++ ['>']
                from by rw [List.cons_append]]
              exact List.getLast?_concat _
            rw [hlast] at hh
            injection hh with hh2
            rw [← hh2]
            decide
        rw [htrim]
        have hc2 := hcomp [] [] [] parseManyT_nil
        rw [List.append_nil] at hc2
        rw [hc2]
      rw [hxj]
      unfold xmlToJson
      rw [hpd2]
      dsimp only
      rw [hconv]

/-- Witness for C1 at a concrete good document with attributes and a repeated
child tag. -/
theorem claim_C1_roundtrip_witness :
    goodDoc "<a x=\"1\"><b>hi</b><b>yo</b></a>" = true ∧
    (∃ x2 : String,
      jsonToXml (xmlToJson "<a x=\"1\"><b>hi</b><b>yo</b></a>") "root" = Except.ok x2
      ∧ xmlToJson x2 = xmlToJson "<a x=\"1\"><b>hi</b><b>yo</b></a>") :=
  ⟨by decide, claim_C1_roundtrip "<a x=\"1\"><b>hi</b><b>yo</b></a>" (by decide)⟩
